import Mathlib

/-! The approximate-matching helpers of `src/lib/helper.hpp` (SingleCellGenomeTools).

A shallow embedding of `lcp`, `front`, `outputSense`, `levenshtein`,
`backBarcodeMappingExtension`, `frontBarcodeMappingExtension`, `ullong_save_add` and
`splitByDelimiter`, followed by theorems about them.

Conventions of the embedding.

* A `std::string` is a `List Char`; `operator[]` at the index `length` yields the
  terminating NUL; `at` and `substr` throw `std::out_of_range`, which is the result
  `none` of the embedded function. A failed `assert` and the read of a local that was
  declared without a value and never assigned are `none` as well.
* An `unsigned int` is a natural number. Where the source relies on the wrap-around of
  unsigned arithmetic (`i - 1` and `i - f.offset + l` in `front`, `n - m + f.offset`
  in `outputSense`) the value is reduced modulo `2 ^ 32`; theorems that depend on
  the absence of any other wrap-around assume `m + n + 3 < 2 ^ 32` for the two
  lengths. The budget `mismatches` is a non-negative `int`, a natural number.
* The output `score` is an `int`, an integer. The sum `mismatches + 1` is an `int`
  addition; it is reduced to the range of a 32-bit two's complement `int`, which is
  what the overflow at `mismatches = INT_MAX` yields on the usual targets.
* A `for` loop with fixed bounds is a recursion on the number of passes left. A
  `while` loop is a recursion on a fuel argument that tests the loop condition of
  the source; running out of fuel is `none`, never a result.
-/

/-- The unit-cost Levenshtein distance (substitution, insertion, deletion) between
two strings, the reference notion the matching functions are compared with. -/
def SCGT.editDistance (a b : List Char) : Nat := levenshtein Levenshtein.defaultCost a b

namespace SCGT

/-- The constant `UINT_MAX` of a 32-bit `unsigned int`. -/
def UINT_MAX : Nat := 4294967295

/-- The macro `MAX(X,Y) (X<Y ? Y : X)`. -/
def MAX (x y : Nat) : Nat := if x < y then y else x

/-- The macro `MIN(X,Y) (X<Y ? X : Y)`. -/
def MIN (x y : Nat) : Nat := if x < y then x else y

/-- Reduction of an `unsigned int` expression modulo `2 ^ 32`. -/
def u32 (x : Nat) : Nat := x % 4294967296

/-- Reduction of an `int` expression to the range `-2 ^ 31 .. 2 ^ 31 - 1` of a 32-bit
two's complement `int`. -/
def i32 (x : Int) : Int := (x + 2147483648) % 4294967296 - 2147483648

/-- The expression `s[i]` of a `std::string`: the character at `i`, and the
terminating NUL at `i = s.length()`. -/
def strAt (s : List Char) (i : Nat) : Char := s.getD i (Char.ofNat 0)

/-- The expression `s.substr(pos)`: the suffix from `pos`, and `std::out_of_range`
(here `none`) when `pos > s.length()`. -/
def substr (s : List Char) (pos : Nat) : Option (List Char) :=
  if pos ≤ s.length then some (s.drop pos) else none

/-- The expression `v.at(i)` of a `std::vector<unsigned int>` read. -/
def vecAt (v : List Nat) (i : Nat) : Option Nat := v.get? i

/-- The assignment `v.at(i) = x` of a `std::vector<unsigned int>`. -/
def vecSet (v : List Nat) (i : Nat) (x : Nat) : Option (List Nat) :=
  if i < v.length then some (v.set i x) else none

/-! ## `lcp` -/

/-- The loop `while( (a[lcp] == b[lcp]) && (lcp < len) ) ++lcp;` of `lcp`, started
at the counter value `k`. -/
def lcpLoop (a b : List Char) (len : Nat) : Nat → Nat → Option Nat
  | 0, _ => none
  | fuel + 1, k =>
    if strAt a k = strAt b k ∧ k < len then lcpLoop a b len fuel (k + 1) else some k

/-- The function `lcp` of `helper.hpp`: `len` is the smaller of the two lengths and
the loop counts up from `0`. -/
def lcp (a b : List Char) : Option Nat :=
  let a_len := a.length
  let b_len := b.length
  let len := if a_len > b_len then b_len else a_len
  lcpLoop a b len (len + 1) 0

/-! ## `front` and `outputSense` -/

/-- The struct `frontMatrix`. -/
structure frontMatrix where
  previous : List Nat
  current : List Nat
  offset : Nat
  d : Nat

/-- The constructor `frontMatrix(m, n)`: both vectors have `m+n+3` entries
`UINT_MAX`; `offset` and `d` are set by the caller right after. -/
def frontMatrix.init (m n : Nat) : frontMatrix :=
  { previous := List.replicate (m + n + 3) UINT_MAX
    current := List.replicate (m + n + 3) UINT_MAX
    offset := 0
    d := 0 }

/-- One pass of the body of the `for` loop of `front`, at the diagonal index `i`. -/
def frontBody (a b : List Char) (f : frontMatrix) (i : Nat) : Option frontMatrix := do
  let p1 ← vecAt f.previous (u32 (i + 4294967295))
  let aVal := if p1 ≠ UINT_MAX then p1 else 0
  let p2 ← vecAt f.previous (i + 1)
  let bVal := if p2 ≠ UINT_MAX then p2 + 1 else 0
  let p3 ← vecAt f.previous i
  let cVal := if p3 ≠ UINT_MAX then p3 + 1 else 0
  let l := MAX (MAX aVal bVal) cVal
  if l ≥ a.length then
    let cur ← vecSet f.current i a.length
    some { f with current := cur }
  else if u32 (i + 4294967296 - f.offset + l) ≥ b.length then
    some f
  else
    let sa ← substr a l
    let sb ← substr b (u32 (i + 4294967296 - f.offset + l))
    let e ← lcp sa sb
    let cur ← vecSet f.current i (l + e)
    some { f with current := cur }

/-- The `for` loop of `front`: `cnt` passes of the body, from the index `i` on. -/
def frontLoop (a b : List Char) : Nat → Nat → frontMatrix → Option frontMatrix
  | 0, _, f => some f
  | cnt + 1, i, f =>
    match frontBody a b f i with
    | none => none
    | some f1 => frontLoop a b cnt (i + 1) f1

/-- The function `front` of `helper.hpp`: `previous` becomes `current`, then the
diagonals `offset - min .. offset + max` are recomputed in increasing order. -/
def front (a b : List Char) (f : frontMatrix) : Option frontMatrix :=
  let min := MIN a.length f.d
  let max := MIN b.length f.d
  let f0 := { f with previous := f.current }
  let lo := u32 (f0.offset + 4294967296 - min)
  frontLoop a b (f0.offset + max + 1 - lo) lo f0

/-- The `while(f.d <= MIN(MAX(m,n), mismatches))` loop of `outputSense`; the result
is the pair of the returned flag and the value left in `score`. The assignment
`score = f.d` converts a round number that the loop condition keeps at most
`mismatches`; the rejecting assignment is the `int` sum `mismatches + 1`. -/
def outputSenseLoop (sequence pattern : List Char) (mismatches : Nat) :
    Nat → frontMatrix → Option (Bool × Int)
  | 0, _ => none
  | fuel + 1, f =>
    let m := sequence.length
    let n := pattern.length
    if f.d ≤ MIN (MAX m n) mismatches then
      match front sequence pattern f with
      | none => none
      | some f1 =>
        match vecAt f1.current (u32 (n + 4294967296 - m + f1.offset)) with
        | none => none
        | some x =>
          if x = m then
            if f1.d ≤ mismatches then some (true, (f1.d : Int))
            else some (false, i32 ((mismatches : Int) + 1))
          else outputSenseLoop sequence pattern mismatches fuel { f1 with d := f1.d + 1 }
    else some (false, i32 ((mismatches : Int) + 1))

/-- The function `outputSense` of `helper.hpp`; the result is the pair of the
returned flag and the value left in `score`, and `none` stands for an exception. -/
def outputSense (sequence pattern : List Char) (mismatches : Nat) : Option (Bool × Int) := do
  let m := sequence.length
  let n := pattern.length
  let f0 := { frontMatrix.init m n with offset := m + 1, d := 0 }
  let l0 ← lcp sequence pattern
  let cur ← vecSet f0.current f0.offset l0
  let f1 := { f0 with current := cur }
  let x ← vecAt f1.current (u32 (n + 4294967296 - m + f1.offset))
  if x = m then
    some (true, (f1.d : Int))
  else
    outputSenseLoop sequence pattern mismatches (MIN (MAX m n) mismatches + 1)
      { f1 with d := f1.d + 1 }

/-! ## `levenshtein` -/

/-- The struct `levenshtein_value`: a cost and the coordinates of the predecessor
cell. -/
structure levenshtein_value where
  val : Nat
  i : Int
  j : Int

/-- The default constructor `levenshtein_value():val(UINT_MAX-1), i(0), j(0)`, the
content of a cell of `dist` that was never assigned. -/
def levenshtein_value.dflt : levenshtein_value := ⟨UINT_MAX - 1, 0, 0⟩

/-- The function `min(levenshtein_value a, levenshtein_value b)` of `helper.hpp`. -/
def levenshtein_value.min (a b : levenshtein_value) : levenshtein_value :=
  if a.val ≤ b.val then a else b

/-- The array `levenshtein_value dist[ls+1][la+1]`, read as `dist i j`. -/
abbrev Matrix := Nat → Nat → levenshtein_value

/-- The assignment `dist[i][j] = v`. -/
def Matrix.set (dist : Matrix) (i j : Nat) (v : levenshtein_value) : Matrix :=
  fun i1 j1 => if i1 = i ∧ j1 = j then v else dist i1 j1

/-- The loop `for(i=0;i<=ls;i++) dist[i][0] = levenshtein_value(0,i-1,0)`: `cnt`
passes from the index `i` on. -/
def initColumn : Nat → Nat → Matrix → Matrix
  | 0, _, dist => dist
  | cnt + 1, i, dist => initColumn cnt (i + 1) (dist.set i 0 ⟨0, (i : Int) - 1, 0⟩)

/-- The loop `for(j=0;j<=la;j++) dist[0][j] = levenshtein_value(j,0,j-1)`: `cnt`
passes from the index `j` on. -/
def initRow : Nat → Nat → Matrix → Matrix
  | 0, _, dist => dist
  | cnt + 1, j, dist => initRow cnt (j + 1) (dist.set 0 j ⟨j, 0, (j : Int) - 1⟩)

/-- The value `tmp2` that the body of the fill computes for the cell `(i, j)` from the
three neighbours `up = dist[i-1][j]`, `left = dist[i][j-1]`, `diag = dist[i-1][j-1]`
(lines 243 to 279). No addition can wrap: a stored cost is at most its column
index, and a cell that was never assigned holds `UINT_MAX-1`. -/
def newCell (sequence pattern : List Char) (i j : Nat) (up left diag : levenshtein_value) :
    levenshtein_value :=
  let la := pattern.length
  let substitutionValue := if strAt sequence (i - 1) = strAt pattern (j - 1) then 0 else 1
  let deletionValue := if j = la then 0 else 1
  let seq_del : levenshtein_value := ⟨up.val + deletionValue, (i : Int) - 1, j⟩
  let seq_ins : levenshtein_value := ⟨left.val + 1, i, (j : Int) - 1⟩
  let subst : levenshtein_value := ⟨diag.val + substitutionValue, (i : Int) - 1, (j : Int) - 1⟩
  let tmp1 := levenshtein_value.min seq_ins subst
  let tmp2 := levenshtein_value.min seq_del tmp1
  tmp2

/-- The inner loop `for(j=1;j<=la;j++)` of the matrix fill, for the row `i`: `cnt`
passes from the column `j` on. The state is the matrix and `upperBoundCol`; a
`break` ends the row. -/
def fillRow (sequence pattern : List Char) (mismatches : Nat) (upperBoundCheck : Bool)
    (i : Nat) : Nat → Nat → Matrix × Nat → Matrix × Nat
  | 0, _, st => st
  | cnt + 1, j, (dist, upperBoundCol) =>
    let tmp2 := newCell sequence pattern i j (dist (i - 1) j) (dist i (j - 1)) (dist (i - 1) (j - 1))
    if upperBoundCheck && decide (tmp2.val > mismatches) && decide (j > upperBoundCol) then
      (dist, j - 1)
    else
      fillRow sequence pattern mismatches upperBoundCheck i cnt (j + 1)
        (dist.set i j tmp2, upperBoundCol)

/-- The outer loop `for (i=1;i<=ls;i++)` of the matrix fill: `cnt` rows from the
row `i` on. -/
def fillRows (sequence pattern : List Char) (mismatches : Nat) (upperBoundCheck : Bool) :
    Nat → Nat → Matrix × Nat → Matrix × Nat
  | 0, _, st => st
  | cnt + 1, i, st =>
    fillRows sequence pattern mismatches upperBoundCheck cnt (i + 1)
      (fillRow sequence pattern mismatches upperBoundCheck i pattern.length 1 st)

/-- The matrix `dist` when the fill of `levenshtein` is over. -/
def fillMatrix (sequence pattern : List Char) (mismatches : Nat) (upperBoundCheck : Bool) :
    Matrix :=
  let ls := sequence.length
  let la := pattern.length
  let dist0 : Matrix := fun _ _ => levenshtein_value.dflt
  let dist1 := initColumn (ls + 1) 0 dist0
  let dist2 := initRow (la + 1) 0 dist1
  let dist3 := dist2.set 0 0 ⟨0, -1, -1⟩
  (fillRows sequence pattern mismatches upperBoundCheck ls 1 (dist3, mismatches)).1

/-- The variables of the backtracking walk of `levenshtein`. A local that was
declared without a value (`start`, `end`) is `none` until the walk assigns it; for
the reference parameters `startInPattern` and `endInPattern`, `none` stands for the
value the caller passed in. -/
structure WalkState where
  i : Int
  j : Int
  noEnd : Bool
  start : Option Int
  «end» : Option Int
  startInPattern : Option Int
  endInPattern : Option Int
  deriving DecidableEq

/-- The loop `while(j!=0 && i!=0)` of the backtracking walk over the matrix `dist`.
The coordinates `i`, `j`, `iNew`, `jNew` are `int`s; inside the loop they index the
array, where they are never negative. -/
def walk (dist : Matrix) (la : Nat) : Nat → WalkState → Option WalkState
  | 0, _ => none
  | fuel + 1, s =>
    if s.j ≠ 0 ∧ s.i ≠ 0 then
      let cell := dist s.i.toNat s.j.toNat
      let iNew := cell.i
      let jNew := cell.j
      let pred := dist iNew.toNat jNew.toNat
      let s1 : WalkState :=
        if cell.val = pred.val ∧ s.i ≠ iNew ∧ s.j ≠ jNew then
          { s with start := some s.i, startInPattern := some s.j }
        else s
      let s2 : WalkState :=
        if jNew < la ∧ s1.noEnd = true ∧ cell.val = pred.val then
          { s1 with noEnd := false, «end» := some s.i, endInPattern := some s.j }
        else s1
      walk dist la fuel { s2 with i := iNew, j := jNew }
    else some s

/-- What a call of `levenshtein` that returns leaves behind: the returned flag and the
output parameters. An output is `none` when the call has not written it, so that it
still holds what the caller passed in. -/
structure LevResult where
  ret : Bool
  score : Option Nat
  match_start : Option Int
  match_end : Option Int
  startInPattern : Option Int
  endInPattern : Option Int
  deriving DecidableEq

/-- The function `levenshtein` of `helper.hpp`: the fill of the matrix, the early
rejection of the pruned variant, the backtracking walk and the final comparison with
the budget. The accepting branch reads `start`, `startInPattern` and `end`, in
`assert(start!=0)`, `assert(startInPattern!=0)`, `match_start = start-1`,
`startInPattern -= 1` and `match_end = end`. The call has no result, `none`, when the
walk has not assigned them (the locals `start` and `end` are declared without a
value, and `startInPattern` is assigned together with `start`), or when one of the two
assertions fails. On a rejection after the walk, `startInPattern` and `endInPattern`
keep what the walk wrote into them. -/
def levenshtein (sequence pattern : List Char) (mismatches : Nat) (upperBoundCheck : Bool) :
    Option LevResult :=
  let ls := sequence.length
  let la := pattern.length
  let dist := fillMatrix sequence pattern mismatches upperBoundCheck
  if upperBoundCheck && decide ((dist ls la).val > mismatches) then
    some ⟨false, none, none, none, none, none⟩
  else
    match walk dist la (ls + la + 1) ⟨ls, la, true, none, none, none, none⟩ with
    | none => none
    | some w =>
      if (dist ls la).val ≤ mismatches then
        match w.start, w.startInPattern, w.«end» with
        | some start, some startInPattern, some e =>
          if start ≠ 0 ∧ startInPattern ≠ 0 then
            some ⟨true, some (dist ls la).val, some (start - 1), some e,
              some (startInPattern - 1), w.endInPattern⟩
          else none
        | _, _, _ => none
      else
        some ⟨false, some (dist ls la).val, none, none, w.startInPattern, w.endInPattern⟩

/-- The backtracked path: the cells at which the body of the loop
`while(j!=0 && i!=0)` runs, in the order of the walk that starts at `(i, j)`. -/
def walkPath (dist : Matrix) : Nat → Int → Int → List (Int × Int)
  | 0, _, _ => []
  | fuel + 1, i, j =>
    if j ≠ 0 ∧ i ≠ 0 then
      (i, j) :: walkPath dist fuel (dist i.toNat j.toNat).i (dist i.toNat j.toNat).j
    else []

/-- The test `dist[i][j].val == dist[iNew][jNew].val && i!=iNew && j!=jNew` of the loop
body at the cell `c`, under which `start` and `startInPattern` are assigned: the step
that leaves `c` is diagonal and free, a literal-match step. -/
def literalMatchStep (dist : Matrix) (c : Int × Int) : Bool :=
  let cell := dist c.1.toNat c.2.toNat
  decide (cell.val = (dist cell.i.toNat cell.j.toNat).val ∧ c.1 ≠ cell.i ∧ c.2 ≠ cell.j)

/-- The test `(jNew<la) && dist[i][j].val == dist[iNew][jNew].val` of the loop body at
the cell `c`, under which `end` and `endInPattern` are assigned while `noEnd` holds. -/
def endStep (dist : Matrix) (la : Nat) (c : Int × Int) : Bool :=
  let cell := dist c.1.toNat c.2.toNat
  decide (cell.j < la ∧ cell.val = (dist cell.i.toNat cell.j.toNat).val)

/-- The literal-match steps on the backtracked path of the call without pruning, in
the order of the walk: from the end of the alignment towards its beginning. -/
def literalMatchSteps (sequence pattern : List Char) (mismatches : Nat) : List (Int × Int) :=
  (walkPath (fillMatrix sequence pattern mismatches false)
    (sequence.length + pattern.length + 1) sequence.length pattern.length).filter
    (literalMatchStep (fillMatrix sequence pattern mismatches false))

/-! ## Boundary extension -/

/-- The expression `s.at(i)` of a `std::string`. -/
def strAtChecked (s : List Char) (i : Nat) : Option Char := s.get? i

/-- The `for` loop of `backBarcodeMappingExtension`: `cnt` passes from the index `i`
on, with the running value of `elongation`. -/
def backLoop (sequence pattern : List Char) (seq_end patternEnd : Nat) :
    Nat → Nat → Nat → Option Nat
  | 0, _, elongation => some elongation
  | cnt + 1, i, elongation =>
    if seq_end + i ≥ sequence.length then some elongation
    else
      match strAtChecked sequence (seq_end + i), strAtChecked pattern (patternEnd + i) with
      | some x, some y =>
        if x = y then backLoop sequence pattern seq_end patternEnd cnt (i + 1) (elongation + 1)
        else some elongation
      | _, _ => none

/-- The function `backBarcodeMappingExtension` of `helper.hpp`, for boundaries
`patternEnd ≤ pattern.length()`; the loop runs while `i < pattern.length() - patternEnd`. -/
def backBarcodeMappingExtension (sequence pattern : List Char) (seq_end patternEnd : Nat) :
    Option Nat :=
  backLoop sequence pattern seq_end patternEnd (pattern.length - patternEnd) 0 0

/-! ## Edit scripts -/

/-- The relation `Edit xs ys c`: there is a script of deletions, insertions and
substitutions (a substitution of a character by itself is free) that turns `xs` into
`ys` at the cost `c`. The least such cost is `editDistance xs ys`. -/
inductive Edit : List Char → List Char → Nat → Prop
  | nil : Edit [] [] 0
  | del (x : Char) {xs ys : List Char} {c : Nat} : Edit xs ys c → Edit (x :: xs) ys (c + 1)
  | ins (y : Char) {xs ys : List Char} {c : Nat} : Edit xs ys c → Edit xs (y :: ys) (c + 1)
  | sub (x y : Char) {xs ys : List Char} {c : Nat} :
      Edit xs ys c → Edit (x :: xs) (y :: ys) (c + (if x = y then 0 else 1))

/-! ## The recurrence of the unpruned fill -/

/-- The row `0` of the matrix after the initialisation: `dist[0][0] = (0,-1,-1)` and
`dist[0][j] = (j, 0, j-1)`. -/
def firstRow : Nat → levenshtein_value
  | 0 => ⟨0, -1, -1⟩
  | j + 1 => ⟨j + 1, 0, j⟩

/-- The row `i + 1` of the matrix as the recurrence of the fill defines it from the
row `prev` above it: the column `0` holds `(0, i, 0)`, every other cell is `newCell`
of its three neighbours. -/
def nextRow (sequence pattern : List Char) (i : Nat) (prev : Nat → levenshtein_value) :
    Nat → levenshtein_value
  | 0 => ⟨0, i, 0⟩
  | j + 1 =>
    newCell sequence pattern (i + 1) (j + 1) (prev (j + 1)) (nextRow sequence pattern i prev j)
      (prev j)

/-- The cell `(i, j)` of the matrix as the recurrence of the fill defines it. -/
def cellSpec (sequence pattern : List Char) : Nat → Nat → levenshtein_value
  | 0 => firstRow
  | i + 1 => nextRow sequence pattern i (cellSpec sequence pattern i)

/-- The predecessor stored in the cell `c` at the position `(i, j)` lies inside the
matrix, not beyond `(i, j)`, and strictly before it. -/
def GoodPred (c : levenshtein_value) (i j : Nat) : Prop :=
  0 ≤ c.i ∧ 0 ≤ c.j ∧ c.i ≤ i ∧ c.j ≤ j ∧ c.i + c.j < (i : Int) + j

/-- The cell `g` of the pruned matrix stands for the cost `h` of the unpruned one, as
far as the budget `D` can tell: a cost within the budget is stored exactly, a cost
above the budget is stored as some value above the budget. -/
def CostAgrees (D : Nat) (g : levenshtein_value) (h : Nat) : Prop :=
  (h ≤ D → g.val = h) ∧ (D < h → D < g.val)

/-- The cell `g` of the pruned matrix stands for the cell `h` of the unpruned one: when
the cost of `h` is within the budget `D`, the two cells are the same, predecessor
included; when it is above the budget, so is the cost of `g`. -/
def CellAgrees (D : Nat) (g h : levenshtein_value) : Prop :=
  (h.val ≤ D → g = h) ∧ (D < h.val → D < g.val)

/-! ## What an entry of the front stands for -/

/-- The entry `v` at the index `i` of the front of `a` and `b` is sound for the round
`d`: it is a row `v ≤ |a|` whose column `i + v - offset` (with `offset = |a| + 1`) is
not negative, and the first `v` characters of `a` are within `d` edits of the first
`i + v - offset` characters of `b`. For a column beyond the end of `b` the excess over
`|b|` is added to the bound. -/
def Reached (a b : List Char) (i v d : Nat) : Prop :=
  v ≤ a.length ∧ a.length + 1 ≤ i + v ∧
    editDistance (a.take v) (b.take (i + v - (a.length + 1))) ≤
      d + (i + v - (a.length + 1) - b.length)

/-- The candidate reach `x` of `front`, which may exceed `|a|` by one before it is
clamped to `|a|`, is sound for the round `d` at the index `i`. -/
def ReachedClamped (a b : List Char) (i x d : Nat) : Prop :=
  x ≤ a.length + 1 ∧
    (a.length + 1 ≤ i + min x a.length →
      editDistance (a.take (min x a.length)) (b.take (i + min x a.length - (a.length + 1))) ≤
        d + (i + min x a.length - (a.length + 1) - b.length))

/-- Every entry of the vector `cur` other than the sentinel `UINT_MAX` is sound for
the round `d`. -/
def FrontSound (a b : List Char) (cur : List Nat) (d : Nat) : Prop :=
  ∀ i v, cur.get? i = some v → v ≠ UINT_MAX → Reached a b i v d

/-! ## Backward boundary extension and the saturating add -/

/-- The `for` loop of `frontBarcodeMappingExtension`: `cnt` passes from the index `i`
on, with the running value of `elongation`. Both `at` calls take the index
`patternStart - 1 - i`. -/
def frontExtLoop (sequence pattern : List Char) (patternStart : Nat) :
    Nat → Nat → Nat → Option Nat
  | 0, _, elongation => some elongation
  | cnt + 1, i, elongation =>
    match strAtChecked sequence (patternStart - 1 - i),
        strAtChecked pattern (patternStart - 1 - i) with
    | some x, some y =>
      if x = y then frontExtLoop sequence pattern patternStart cnt (i + 1) (elongation + 1)
      else some elongation
    | _, _ => none

/-- The function `frontBarcodeMappingExtension` of `helper.hpp`, for a boundary
`patternStart ≥ 0`; the loop runs while `i < patternStart`. The parameter `seq_start`
(an `int`) occurs nowhere in the body of the source. -/
def frontBarcodeMappingExtension (sequence pattern : List Char) (seq_start : Int)
    (patternStart : Nat) : Option Nat :=
  frontExtLoop sequence pattern patternStart patternStart 0 0

/-- The constant `ULLONG_MAX` of a 64-bit `unsigned long long`. -/
def ULLONG_MAX : Nat := 18446744073709551615

/-- The function `ullong_save_add` of `helper.hpp` on 64-bit values `a` and `b`: the
result is the value left in `a` and whether `ERROR ULONG OVERFLOW` was written to
`std::cerr`. The sum `a += b` is reduced modulo `2 ^ 64`. -/
def ullong_save_add (a b : Nat) : Nat × Bool :=
  if b > 0 ∧ ULLONG_MAX - b < a then (ULLONG_MAX, true)
  else ((a + b) % 18446744073709551616, false)

/-- The state of the backtracking walk over the read `sequence` and `pattern` is
consistent: the position lies inside the matrix, and either nothing has been assigned
yet (`noEnd` still holds), or all four of `start`, `end`, `startInPattern` and
`endInPattern` hold a value, with the position strictly before `start ≤ end` and
`startInPattern ≤ endInPattern`, and with equal bases at the 1-based positions
`(start, startInPattern)` and `(end, endInPattern)`. -/
def WalkInv (sequence pattern : List Char) (s : WalkState) : Prop :=
  0 ≤ s.i ∧ s.i ≤ sequence.length ∧ 0 ≤ s.j ∧ s.j ≤ pattern.length ∧
  ((s.noEnd = true ∧ s.start = none ∧ s.«end» = none ∧ s.startInPattern = none ∧
      s.endInPattern = none) ∨
    (s.noEnd = false ∧ ∃ st en p q : Nat,
      s.start = some (st : Int) ∧ s.«end» = some (en : Int) ∧
      s.startInPattern = some (p : Int) ∧ s.endInPattern = some (q : Int) ∧
      s.i < st ∧ st ≤ en ∧ en ≤ sequence.length ∧ s.j < p ∧ p ≤ q ∧ q ≤ pattern.length ∧
      sequence.get? (st - 1) = pattern.get? (p - 1) ∧
      sequence.get? (en - 1) = pattern.get? (q - 1)))

/-! ## `splitByDelimiter` -/

/-- The expression `line.find(del)` of a `std::string`: the least position at which
`del` occurs in `line`, and `std::string::npos` (here `none`) when there is none. The
empty `del` is found at the position `0`. -/
def strFind : List Char → List Char → Option Nat
  | [], del => if del = [] then some 0 else none
  | c :: s, del =>
    if del.isPrefixOf (c :: s) then some 0
    else
      match strFind s del with
      | some pos => some (pos + 1)
      | none => none

/-- The loop `while ((pos = line.find(del)) != std::string::npos)` of
`splitByDelimiter`: `line.substr(0, pos)` is pushed to `tokens` and
`line.erase(0, pos + del.length())` removes it together with the delimiter. -/
def splitLoop (del : List Char) : Nat → List Char → List (List Char) → Option (List (List Char))
  | 0, _, _ => none
  | fuel + 1, line, tokens =>
    match strFind line del with
    | some pos => splitLoop del fuel (line.drop (pos + del.length)) (tokens ++ [line.take pos])
    | none => some (tokens ++ [line])

/-- The function `splitByDelimiter` of `helper.hpp`; the last statement before the
`return` pushes what is left of `line`. -/
def splitByDelimiter (line del : List Char) : Option (List (List Char)) :=
  splitLoop del (line.length + 1) line []

/-- A count taken from the specification, not from a function of `helper.hpp`: the
number of non-overlapping occurrences of `del` in a string, counted from left to
right. Here `skip` is the number of characters still covered by the occurrence counted
last; at an uncovered position where `del` occurs, one more occurrence is counted. -/
def countOccurrencesFrom (del : List Char) : Nat → List Char → Nat
  | _, [] => 0
  | skip + 1, _ :: s => countOccurrencesFrom del skip s
  | 0, c :: s =>
    if del.isPrefixOf (c :: s) then 1 + countOccurrencesFrom del (del.length - 1) s
    else countOccurrencesFrom del 0 s

/-- The number of non-overlapping left-to-right occurrences of `del` in `line`. -/
def countOccurrences (del line : List Char) : Nat := countOccurrencesFrom del 0 line

end SCGT

/-! # Theorems -/

namespace SCGT

/-! ## `lcp` -/

theorem strAt_of_lt (s : List Char) (i : Nat) (h : i < s.length) : strAt s i = s[i] := by
  unfold strAt
  exact List.getD_eq_getElem _ _ h

theorem take_succ_of_lt (s : List Char) (i : Nat) (h : i < s.length) :
    s.take (i + 1) = s.take i ++ [strAt s i] := by
  rw [List.take_succ, strAt_of_lt s i h]
  simp [List.getElem?_eq_getElem h]

theorem lcpLoop_spec (a b : List Char) (len : Nat) (ha : len ≤ a.length) (hb : len ≤ b.length) :
    ∀ (fuel k : Nat), k ≤ len → len < fuel + k → a.take k = b.take k →
      ∃ r, lcpLoop a b len fuel k = some r ∧ k ≤ r ∧ r ≤ len ∧ a.take r = b.take r ∧
        (r < len → strAt a r ≠ strAt b r) := by
  intro fuel
  induction fuel with
  | zero => intro k h1 h2; omega
  | succ n ih =>
    intro k h1 h2 h3
    rw [lcpLoop]
    split
    · rename_i hc
      obtain ⟨r, hr1, hr2, hr3, hr4, hr5⟩ := ih (k + 1) (by omega) (by omega)
        (by rw [take_succ_of_lt a k (by omega), take_succ_of_lt b k (by omega), h3, hc.1])
      exact ⟨r, hr1, by omega, hr3, hr4, hr5⟩
    · rename_i hc
      refine ⟨k, rfl, le_refl _, h1, h3, ?_⟩
      intro hk he
      exact hc ⟨he, hk⟩

theorem lcp_spec (a b : List Char) :
    ∃ r, lcp a b = some r ∧ r ≤ a.length ∧ r ≤ b.length ∧ a.take r = b.take r ∧
      (r < a.length → r < b.length → strAt a r ≠ strAt b r) := by
  unfold lcp
  dsimp only
  split
  · rename_i h
    obtain ⟨r, h1, _, h3, h4, h5⟩ := lcpLoop_spec a b b.length (by omega) (le_refl _)
      (b.length + 1) 0 (by omega) (by omega) (by simp)
    exact ⟨r, h1, by omega, h3, h4, fun _ hb => h5 hb⟩
  · rename_i h
    obtain ⟨r, h1, _, h3, h4, h5⟩ := lcpLoop_spec a b a.length (le_refl _) (by omega)
      (a.length + 1) 0 (by omega) (by omega) (by simp)
    exact ⟨r, h1, h3, by omega, h4, fun ha _ => h5 ha⟩


/-! ## Forward boundary extension -/

theorem backLoop_spec (sequence pattern : List Char) (seq_end patternEnd : Nat) :
    ∀ (cnt i : Nat), patternEnd + i + cnt = pattern.length → seq_end + i ≤ sequence.length →
      ∃ e, backLoop sequence pattern seq_end patternEnd cnt i i = some e ∧ i ≤ e ∧
        seq_end + e ≤ sequence.length ∧ patternEnd + e ≤ pattern.length ∧
        (∀ k, i ≤ k → k < e → sequence.get? (seq_end + k) = pattern.get? (patternEnd + k)) ∧
        (seq_end + e = sequence.length ∨ patternEnd + e = pattern.length ∨
          sequence.get? (seq_end + e) ≠ pattern.get? (patternEnd + e)) := by
  intro cnt
  induction cnt with
  | zero =>
    intro i h1 h2
    exact ⟨i, rfl, le_refl _, h2, by omega, fun k hk1 hk2 => by omega, Or.inr (Or.inl (by omega))⟩
  | succ n ih =>
    intro i h1 h2
    rw [backLoop]
    split
    · rename_i hge
      exact ⟨i, rfl, le_refl _, h2, by omega, fun k hk1 hk2 => by omega, Or.inl (by omega)⟩
    · rename_i hlt
      have hs : seq_end + i < sequence.length := by omega
      have hp : patternEnd + i < pattern.length := by omega
      have e1 : strAtChecked sequence (seq_end + i) = some (sequence[seq_end + i]) := by
        simp [strAtChecked, List.getElem?_eq_getElem hs]
      have e2 : strAtChecked pattern (patternEnd + i) = some (pattern[patternEnd + i]) := by
        simp [strAtChecked, List.getElem?_eq_getElem hp]
      rw [e1, e2]
      dsimp only
      split
      · rename_i heq
        obtain ⟨e, he1, he2, he3, he4, he5, he6⟩ := ih (i + 1) (by omega) (by omega)
        refine ⟨e, he1, by omega, he3, he4, ?_, he6⟩
        intro k hk1 hk2
        rcases Nat.eq_or_lt_of_le hk1 with hk | hk
        · subst hk
          simp [List.getElem?_eq_getElem hs, List.getElem?_eq_getElem hp, heq]
        · exact he5 k hk hk2
      · rename_i hne
        refine ⟨i, rfl, le_refl _, h2, by omega, fun k hk1 hk2 => by omega, Or.inr (Or.inr ?_)⟩
        simp [List.getElem?_eq_getElem hs, List.getElem?_eq_getElem hp, hne]

theorem i32_of_range (x : Int) (h1 : -2147483648 ≤ x) (h2 : x < 2147483648) : i32 x = x := by
  unfold i32
  omega

theorem outputSenseLoop_false_score (sequence pattern : List Char) (D : Nat) :
    ∀ (fuel : Nat) (f : frontMatrix) (s : Int),
      outputSenseLoop sequence pattern D fuel f = some (false, s) → s = i32 ((D : Int) + 1) := by
  intro fuel
  induction fuel with
  | zero => intro f s h; simp [outputSenseLoop] at h
  | succ k ih =>
    intro f s h
    rw [outputSenseLoop] at h
    split at h
    · split at h
      · simp at h
      · split at h
        · simp at h
        · split at h
          · split at h
            · simp at h
            · simp only [Option.some.injEq, Prod.mk.injEq, true_and] at h
              exact h.symm
          · exact ih _ _ h
    · simp only [Option.some.injEq, Prod.mk.injEq, true_and] at h
      exact h.symm

theorem outputSense_false_score (sequence pattern : List Char) (D : Nat) (s : Int)
    (h : outputSense sequence pattern D = some (false, s)) : s = i32 ((D : Int) + 1) := by
  unfold outputSense at h
  simp only [Option.bind_eq_bind, Option.bind_eq_some] at h
  obtain ⟨l0, _, cur, _, x, _, h⟩ := h
  split at h
  · simp at h
  · exact outputSenseLoop_false_score _ _ _ _ _ _ h

theorem outputSense_false_score_below_int_max (sequence pattern : List Char) (D : Nat) (s : Int)
    (hD : D < 2147483647) (h : outputSense sequence pattern D = some (false, s)) :
    s = (D : Int) + 1 := by
  rw [outputSense_false_score sequence pattern D s h]
  exact i32_of_range _ (by omega) (by omega)

/-- Claim C4, as amended. For every budget `D < INT_MAX = 2147483647`: whenever
`outputSense` returns `false`, the value left in `score` is `D + 1`; for the read `ACGG`
and the pattern `ACGT` the budget `1` gives `(true, 1)` and the budget `0` gives
`(false, 1)`. -/
theorem outputSense_reject_score_is_sentinel :
    (∀ (sequence pattern : List Char) (D : Nat) (s : Int), D < 2147483647 →
      outputSense sequence pattern D = some (false, s) → s = (D : Int) + 1) ∧
    outputSense ['A', 'C', 'G', 'G'] ['A', 'C', 'G', 'T'] 1 = some (true, 1) ∧
    outputSense ['A', 'C', 'G', 'G'] ['A', 'C', 'G', 'T'] 0 = some (false, 1) :=
  ⟨outputSense_false_score_below_int_max, by decide, by decide⟩

/-- Witness of claim C4 at read `ACGG`, pattern `ACGT`, budget `0`. -/
theorem outputSense_reject_score_is_sentinel_witness :
    (0 : Nat) < 2147483647 ∧
    outputSense ['A', 'C', 'G', 'G'] ['A', 'C', 'G', 'T'] 0 = some (false, 1) ∧
    (1 : Int) = ((0 : Nat) : Int) + 1 :=
  ⟨by decide, by decide, outputSense_reject_score_is_sentinel.1
    ['A', 'C', 'G', 'G'] ['A', 'C', 'G', 'T'] 0 1 (by decide) (by decide)⟩

/-- Claim C4 as stated fails at the budget `D = INT_MAX`: for the read `ACG` and the
pattern `A` the call returns `false`, and the `int` sum `mismatches + 1` leaves
`-2147483648` in `score`, not `D + 1 = 2147483648`. -/
theorem outputSense_reject_score_wraps_at_int_max :
    outputSense ['A', 'C', 'G'] ['A'] 2147483647 = some (false, -2147483648) ∧
    ¬ (∀ s : Int, outputSense ['A', 'C', 'G'] ['A'] 2147483647 = some (false, s) →
      s = ((2147483647 : Nat) : Int) + 1) := by
  have h : outputSense ['A', 'C', 'G'] ['A'] 2147483647 = some (false, -2147483648) := by decide
  refine ⟨h, fun hall => ?_⟩
  have := hall _ h
  omega

/-! ## `outputSense`: inputs on which the front misses the distance -/

/-- Claim C1, the code at a failing input: the read `ACG` and the pattern `A` are two
deletions apart, yet `outputSense` with the budget `2` returns `false` with the
score `3`. -/
theorem outputSense_misses_distance_within_budget :
    editDistance ['A', 'C', 'G'] ['A'] = 2 ∧
    outputSense ['A', 'C', 'G'] ['A'] 2 = some (false, 3) := by
  constructor <;> decide

/-- Claim C3, the code at a failing input: the read `AAAC` and the pattern `CA` are at
distance `3`, and `outputSense` with the budget `4` returns `true` with the score `4`,
while with the budget `3` it returns `false`. -/
theorem outputSense_score_above_distance :
    editDistance ['A', 'A', 'A', 'C'] ['C', 'A'] = 3 ∧
    outputSense ['A', 'A', 'A', 'C'] ['C', 'A'] 4 = some (true, 4) ∧
    outputSense ['A', 'A', 'A', 'C'] ['C', 'A'] 3 = some (false, 4) := by
  refine ⟨?_, ?_, ?_⟩ <;> decide

/-! ## `levenshtein`: a walk that assigns nothing -/

/-- Claim C9, the code at a failing input: for the read `C`, the pattern `A` and the
budget `1` the final cost `1` is within the budget, so the accepting branch is entered,
while the walk has assigned none of `start`, `end`, `startInPattern`, `endInPattern`:
its only step is a deletion. The asserts and the output assignments then read
variables without a value, and the call has no result. -/
theorem levenshtein_accepts_with_unassigned_boundaries :
    (fillMatrix ['C'] ['A'] 1 false 1 1).val ≤ 1 ∧
    walk (fillMatrix ['C'] ['A'] 1 false) 1 3 ⟨1, 1, true, none, none, none, none⟩
      = some ⟨0, 1, true, none, none, none, none⟩ ∧
    levenshtein ['C'] ['A'] 1 false = none := by
  refine ⟨?_, ?_, ?_⟩ <;> decide

/-! ## Edit distance and edit scripts -/

theorem editDistance_nil_nil : editDistance [] [] = 0 := by
  simp [editDistance]

theorem editDistance_nil_cons (y : Char) (ys : List Char) :
    editDistance [] (y :: ys) = 1 + editDistance [] ys := by
  simp [editDistance]

theorem editDistance_cons_nil (x : Char) (xs : List Char) :
    editDistance (x :: xs) [] = 1 + editDistance xs [] := by
  simp [editDistance]

theorem editDistance_cons_cons (x y : Char) (xs ys : List Char) :
    editDistance (x :: xs) (y :: ys) =
      min (1 + editDistance xs (y :: ys))
        (min (1 + editDistance (x :: xs) ys) ((if x = y then 0 else 1) + editDistance xs ys)) := by
  simp [editDistance]

theorem editDistance_del_le (x : Char) (xs ys : List Char) :
    editDistance (x :: xs) ys ≤ editDistance xs ys + 1 := by
  cases ys with
  | nil => rw [editDistance_cons_nil]; omega
  | cons y ys => rw [editDistance_cons_cons]; omega

theorem editDistance_ins_le (y : Char) (xs ys : List Char) :
    editDistance xs (y :: ys) ≤ editDistance xs ys + 1 := by
  cases xs with
  | nil => rw [editDistance_nil_cons]; omega
  | cons x xs => rw [editDistance_cons_cons]; omega

theorem editDistance_sub_le (x y : Char) (xs ys : List Char) :
    editDistance (x :: xs) (y :: ys) ≤ editDistance xs ys + (if x = y then 0 else 1) := by
  rw [editDistance_cons_cons]; omega

theorem editDistance_le_of_edit {xs ys : List Char} {c : Nat} (h : Edit xs ys c) :
    editDistance xs ys ≤ c := by
  induction h with
  | nil => simp [editDistance_nil_nil]
  | del x _ ih => exact le_trans (editDistance_del_le x _ _) (by omega)
  | ins y _ ih => exact le_trans (editDistance_ins_le y _ _) (by omega)
  | sub x y _ ih => exact le_trans (editDistance_sub_le x y _ _) (by omega)

theorem edit_nil_left (ys : List Char) : Edit [] ys (editDistance [] ys) := by
  induction ys with
  | nil => rw [editDistance_nil_nil]; exact Edit.nil
  | cons y ys ih => rw [editDistance_nil_cons, Nat.add_comm]; exact Edit.ins y ih

theorem edit_nil_right (xs : List Char) : Edit xs [] (editDistance xs []) := by
  induction xs with
  | nil => rw [editDistance_nil_nil]; exact Edit.nil
  | cons x xs ih => rw [editDistance_cons_nil, Nat.add_comm]; exact Edit.del x ih

theorem edit_editDistance : ∀ (xs ys : List Char), Edit xs ys (editDistance xs ys)
  | [], ys => edit_nil_left ys
  | x :: xs, [] => edit_nil_right (x :: xs)
  | x :: xs, y :: ys => by
    have h1 := edit_editDistance xs (y :: ys)
    have h2 := edit_editDistance (x :: xs) ys
    have h3 := edit_editDistance xs ys
    rw [editDistance_cons_cons]
    rcases Nat.le_total (1 + editDistance xs (y :: ys))
        (min (1 + editDistance (x :: xs) ys) ((if x = y then 0 else 1) + editDistance xs ys))
      with h | h
    · rw [min_eq_left h, Nat.add_comm]; exact Edit.del x h1
    · rw [min_eq_right h]
      rcases Nat.le_total (1 + editDistance (x :: xs) ys)
          ((if x = y then 0 else 1) + editDistance xs ys) with h' | h'
      · rw [min_eq_left h', Nat.add_comm]; exact Edit.ins y h2
      · rw [min_eq_right h', Nat.add_comm]; exact Edit.sub x y h3
termination_by xs ys => xs.length + ys.length

theorem Edit.append {xs ys : List Char} {c : Nat} (h : Edit xs ys c) :
    ∀ {us vs : List Char} {c1 : Nat}, Edit us vs c1 → Edit (xs ++ us) (ys ++ vs) (c1 + c) := by
  induction h with
  | nil => intro us vs c1 h1; simpa using h1
  | del x _ ih => intro us vs c1 h1; exact Edit.del x (ih h1)
  | ins y _ ih => intro us vs c1 h1; exact Edit.ins y (ih h1)
  | sub x y _ ih =>
    intro us vs c1 h1
    have := Edit.sub x y (ih h1)
    simpa [Nat.add_assoc] using this

theorem Edit.same (xs : List Char) : Edit xs xs 0 := by
  induction xs with
  | nil => exact Edit.nil
  | cons x xs ih => simpa using Edit.sub x x ih

theorem Edit.reverse {xs ys : List Char} {c : Nat} (h : Edit xs ys c) :
    Edit xs.reverse ys.reverse c := by
  induction h with
  | nil => exact Edit.nil
  | del x _ ih =>
    have := Edit.append ih (Edit.del x Edit.nil)
    simpa [Nat.add_comm] using this
  | ins y _ ih =>
    have := Edit.append ih (Edit.ins y Edit.nil)
    simpa [Nat.add_comm] using this
  | sub x y _ ih =>
    have := Edit.append ih (Edit.sub x y Edit.nil)
    simpa [Nat.add_comm] using this

theorem editDistance_reverse (xs ys : List Char) :
    editDistance xs.reverse ys.reverse = editDistance xs ys := by
  apply le_antisymm
  · exact editDistance_le_of_edit (Edit.reverse (edit_editDistance xs ys))
  · have := editDistance_le_of_edit (Edit.reverse (edit_editDistance xs.reverse ys.reverse))
    simpa using this

theorem editDistance_nil_left (ys : List Char) : editDistance [] ys = ys.length := by
  induction ys with
  | nil => exact editDistance_nil_nil
  | cons y ys ih => rw [editDistance_nil_cons, ih, List.length_cons]; omega

theorem editDistance_nil_right (xs : List Char) : editDistance xs [] = xs.length := by
  induction xs with
  | nil => exact editDistance_nil_nil
  | cons x xs ih => rw [editDistance_cons_nil, ih, List.length_cons]; omega

theorem editDistance_self (xs : List Char) : editDistance xs xs = 0 :=
  Nat.le_zero.mp (editDistance_le_of_edit (Edit.same xs))

theorem editDistance_snoc_snoc (x y : Char) (xs ys : List Char) :
    editDistance (xs ++ [x]) (ys ++ [y]) =
      min (1 + editDistance xs (ys ++ [y]))
        (min (1 + editDistance (xs ++ [x]) ys) ((if x = y then 0 else 1) + editDistance xs ys)) := by
  rw [← editDistance_reverse (xs ++ [x]) (ys ++ [y]), ← editDistance_reverse xs (ys ++ [y]),
    ← editDistance_reverse (xs ++ [x]) ys, ← editDistance_reverse xs ys]
  simp only [List.reverse_append, List.reverse_cons, List.reverse_nil, List.nil_append,
    List.singleton_append]
  exact editDistance_cons_cons x y xs.reverse ys.reverse

theorem editDistance_snoc_nil (x : Char) (xs : List Char) :
    editDistance (xs ++ [x]) [] = 1 + editDistance xs [] := by
  rw [editDistance_nil_right, editDistance_nil_right, List.length_append]; simp; omega

theorem editDistance_nil_snoc (y : Char) (ys : List Char) :
    editDistance [] (ys ++ [y]) = 1 + editDistance [] ys := by
  rw [editDistance_nil_left, editDistance_nil_left, List.length_append]; simp; omega

/-! ## The matrix fill without pruning -/

theorem Matrix.set_same (dist : Matrix) (i j : Nat) (v : levenshtein_value) :
    dist.set i j v i j = v := by
  simp [Matrix.set]

theorem Matrix.set_other (dist : Matrix) (i j r c : Nat) (v : levenshtein_value)
    (h : r ≠ i ∨ c ≠ j) : dist.set i j v r c = dist r c := by
  unfold Matrix.set
  rw [if_neg]
  rintro ⟨h1, h2⟩
  rcases h with h | h
  · exact h h1
  · exact h h2

theorem initColumn_apply :
    ∀ (cnt i : Nat) (dist : Matrix) (r c : Nat),
      initColumn cnt i dist r c =
        if c = 0 ∧ i ≤ r ∧ r < i + cnt then ⟨0, (r : Int) - 1, 0⟩ else dist r c := by
  intro cnt
  induction cnt with
  | zero =>
    intro i dist r c
    rw [initColumn, if_neg]
    omega
  | succ n ih =>
    intro i dist r c
    rw [initColumn, ih]
    by_cases h : c = 0 ∧ i + 1 ≤ r ∧ r < i + 1 + n
    · rw [if_pos h, if_pos (by omega)]
    · rw [if_neg h]
      by_cases h2 : r = i ∧ c = 0
      · obtain ⟨h3, h4⟩ := h2
        subst h3; subst h4
        rw [Matrix.set_same, if_pos (by omega)]
      · rw [Matrix.set_other _ _ _ _ _ _ (by omega), if_neg (by omega)]

theorem initRow_apply :
    ∀ (cnt j : Nat) (dist : Matrix) (r c : Nat),
      initRow cnt j dist r c =
        if r = 0 ∧ j ≤ c ∧ c < j + cnt then ⟨c, 0, (c : Int) - 1⟩ else dist r c := by
  intro cnt
  induction cnt with
  | zero =>
    intro j dist r c
    rw [initRow, if_neg]
    omega
  | succ n ih =>
    intro j dist r c
    rw [initRow, ih]
    by_cases h : r = 0 ∧ j + 1 ≤ c ∧ c < j + 1 + n
    · rw [if_pos h, if_pos (by omega)]
    · rw [if_neg h]
      by_cases h2 : r = 0 ∧ c = j
      · obtain ⟨h3, h4⟩ := h2
        subst h3; subst h4
        rw [Matrix.set_same, if_pos (by omega)]
      · rw [Matrix.set_other _ _ _ _ _ _ (by omega), if_neg (by omega)]

/-- The matrix after the three initialisation steps of `levenshtein`. -/
theorem init_apply (ls la r c : Nat) :
    ((initRow (la + 1) 0 (initColumn (ls + 1) 0 (fun _ _ => levenshtein_value.dflt))).set 0 0
        ⟨0, -1, -1⟩) r c =
      if r = 0 ∧ c ≤ la then firstRow c
      else if c = 0 ∧ r ≤ ls then ⟨0, (r : Int) - 1, 0⟩
      else levenshtein_value.dflt := by
  by_cases h0 : r = 0 ∧ c = 0
  · obtain ⟨h1, h2⟩ := h0
    subst h1; subst h2
    rw [Matrix.set_same, if_pos (by omega)]
    rfl
  · rw [Matrix.set_other _ _ _ _ _ _ (by omega), initRow_apply, initColumn_apply]
    by_cases h1 : r = 0 ∧ c ≤ la
    · rw [if_pos (by omega), if_pos h1]
      obtain ⟨c', rfl⟩ : ∃ c', c = c' + 1 := ⟨c - 1, by omega⟩
      simp [firstRow]
    · rw [if_neg (by omega), if_neg h1]
      by_cases h2 : c = 0 ∧ r ≤ ls
      · rw [if_pos (by omega), if_pos h2]
      · rw [if_neg (by omega), if_neg h2]

theorem cellSpec_succ_zero (sequence pattern : List Char) (i : Nat) :
    cellSpec sequence pattern (i + 1) 0 = ⟨0, i, 0⟩ := rfl

theorem cellSpec_succ_succ (sequence pattern : List Char) (i j : Nat) :
    cellSpec sequence pattern (i + 1) (j + 1) =
      newCell sequence pattern (i + 1) (j + 1) (cellSpec sequence pattern i (j + 1))
        (cellSpec sequence pattern (i + 1) j) (cellSpec sequence pattern i j) := rfl

theorem fillRow_unpruned (sequence pattern : List Char) (D i : Nat) (hi : 1 ≤ i) :
    ∀ (cnt j : Nat) (dist : Matrix) (ub : Nat), 1 ≤ j →
      (∀ c, c < j + cnt → dist (i - 1) c = cellSpec sequence pattern (i - 1) c) →
      (∀ c, c < j → dist i c = cellSpec sequence pattern i c) →
      (∀ c, c < j + cnt →
        (fillRow sequence pattern D false i cnt j (dist, ub)).1 i c = cellSpec sequence pattern i c) ∧
      (∀ r c, r ≠ i → (fillRow sequence pattern D false i cnt j (dist, ub)).1 r c = dist r c) ∧
      (fillRow sequence pattern D false i cnt j (dist, ub)).2 = ub := by
  intro cnt
  induction cnt with
  | zero =>
    intro j dist ub hj h1 h2
    refine ⟨fun c hc => ?_, fun _ _ _ => rfl, rfl⟩
    exact h2 c (by omega)
  | succ n ih =>
    intro j dist ub hj h1 h2
    rw [fillRow]
    simp only [Bool.false_and, Bool.false_eq_true, if_false]
    obtain ⟨i', rfl⟩ : ∃ i', i = i' + 1 := ⟨i - 1, by omega⟩
    obtain ⟨j', rfl⟩ : ∃ j', j = j' + 1 := ⟨j - 1, by omega⟩
    simp only [Nat.add_sub_cancel] at *
    have hcell : newCell sequence pattern (i' + 1) (j' + 1) (dist i' (j' + 1)) (dist (i' + 1) j')
        (dist i' j') = cellSpec sequence pattern (i' + 1) (j' + 1) := by
      rw [cellSpec_succ_succ, h1 (j' + 1) (by omega), h1 j' (by omega), h2 j' (by omega)]
    rw [hcell]
    obtain ⟨a1, a2, a3⟩ := ih (j' + 1 + 1)
      (dist.set (i' + 1) (j' + 1) (cellSpec sequence pattern (i' + 1) (j' + 1))) ub (by omega)
      (by
        intro c hc
        rw [Matrix.set_other _ _ _ _ _ _ (by omega)]
        exact h1 c (by omega))
      (by
        intro c hc
        by_cases hcj : c = j' + 1
        · subst hcj; rw [Matrix.set_same]
        · rw [Matrix.set_other _ _ _ _ _ _ (by omega)]
          exact h2 c (by omega))
    refine ⟨fun c hc => a1 c (by omega), ?_, a3⟩
    intro r c hr
    rw [a2 r c hr, Matrix.set_other _ _ _ _ _ _ (by omega)]

theorem fillRows_unpruned (sequence pattern : List Char) (D : Nat) :
    ∀ (cnt i : Nat) (dist : Matrix) (ub : Nat), 1 ≤ i →
      (∀ r c, r < i → c ≤ pattern.length → dist r c = cellSpec sequence pattern r c) →
      (∀ r, r < i + cnt → dist r 0 = cellSpec sequence pattern r 0) →
      ∀ r c, r < i + cnt → c ≤ pattern.length →
        (fillRows sequence pattern D false cnt i (dist, ub)).1 r c = cellSpec sequence pattern r c := by
  intro cnt
  induction cnt with
  | zero =>
    intro i dist ub hi h1 h2 r c hr hc
    simp only [fillRows]
    exact h1 r c (by omega) hc
  | succ n ih =>
    intro i dist ub hi h1 h2 r c hr hc
    rw [fillRows]
    obtain ⟨a1, a2, a3⟩ := fillRow_unpruned sequence pattern D i hi pattern.length 1 dist ub
      (le_refl _) (fun c hc => h1 (i - 1) c (by omega) (by omega))
      (fun c hc => by
        have : c = 0 := by omega
        subst this
        exact h2 i (by omega))
    generalize hst : fillRow sequence pattern D false i pattern.length 1 (dist, ub) = st at a1 a2 a3
    obtain ⟨dist1, ub1⟩ := st
    dsimp only at a1 a2 a3
    apply ih (i + 1) dist1 ub1 (by omega) _ _ r c (by omega) hc
    · intro r' c' hr' hc'
      by_cases hri : r' = i
      · subst hri; exact a1 c' (by omega)
      · rw [a2 r' c' hri]; exact h1 r' c' (by omega) hc'
    · intro r' hr'
      by_cases hri : r' = i
      · subst hri; exact a1 0 (by omega)
      · rw [a2 r' 0 hri]; exact h2 r' (by omega)

theorem fillMatrix_unpruned (sequence pattern : List Char) (D r c : Nat)
    (hr : r ≤ sequence.length) (hc : c ≤ pattern.length) :
    fillMatrix sequence pattern D false r c = cellSpec sequence pattern r c := by
  unfold fillMatrix
  apply fillRows_unpruned sequence pattern D sequence.length 1 _ _ (le_refl _) _ _ r c (by omega) hc
  · intro r' c' hr' hc'
    have : r' = 0 := by omega
    subst this
    rw [init_apply, if_pos ⟨rfl, hc'⟩]
    rfl
  · intro r' hr'
    rw [init_apply]
    by_cases h0 : r' = 0
    · subst h0; rw [if_pos ⟨rfl, Nat.zero_le _⟩]; rfl
    · rw [if_neg (by omega), if_pos ⟨rfl, by omega⟩]
      obtain ⟨r1, rfl⟩ : ∃ r1, r' = r1 + 1 := ⟨r' - 1, by omega⟩
      rw [cellSpec_succ_zero]
      simp

/-! ## The backtracking walk terminates; accepting and rejecting -/

theorem newCell_cases (sequence pattern : List Char) (i j : Nat) (up left diag : levenshtein_value) :
    let sv := if strAt sequence (i - 1) = strAt pattern (j - 1) then 0 else 1
    let dv := if j = pattern.length then 0 else 1
    (up.val + dv ≤ left.val + 1 ∧ up.val + dv ≤ diag.val + sv ∧
      newCell sequence pattern i j up left diag = ⟨up.val + dv, (i : Int) - 1, j⟩) ∨
    (¬ (up.val + dv ≤ left.val + 1 ∧ up.val + dv ≤ diag.val + sv) ∧
      left.val + 1 ≤ diag.val + sv ∧
      newCell sequence pattern i j up left diag = ⟨left.val + 1, i, (j : Int) - 1⟩) ∨
    (¬ (up.val + dv ≤ left.val + 1 ∧ up.val + dv ≤ diag.val + sv) ∧
      ¬ (left.val + 1 ≤ diag.val + sv) ∧
      newCell sequence pattern i j up left diag = ⟨diag.val + sv, (i : Int) - 1, (j : Int) - 1⟩) := by
  intro sv dv
  have hdef : newCell sequence pattern i j up left diag =
      levenshtein_value.min ⟨up.val + dv, (i : Int) - 1, j⟩
        (levenshtein_value.min ⟨left.val + 1, i, (j : Int) - 1⟩
          ⟨diag.val + sv, (i : Int) - 1, (j : Int) - 1⟩) := rfl
  rw [hdef]
  by_cases h2 : left.val + 1 ≤ diag.val + sv
  · have e1 : levenshtein_value.min ⟨left.val + 1, i, (j : Int) - 1⟩
        ⟨diag.val + sv, (i : Int) - 1, (j : Int) - 1⟩ = ⟨left.val + 1, i, (j : Int) - 1⟩ := by
      unfold levenshtein_value.min; rw [if_pos h2]
    rw [e1]
    by_cases h1 : up.val + dv ≤ left.val + 1
    · left
      refine ⟨h1, by omega, ?_⟩
      unfold levenshtein_value.min; rw [if_pos h1]
    · right; left
      refine ⟨fun h => h1 h.1, h2, ?_⟩
      unfold levenshtein_value.min; rw [if_neg h1]
  · have e1 : levenshtein_value.min ⟨left.val + 1, i, (j : Int) - 1⟩
        ⟨diag.val + sv, (i : Int) - 1, (j : Int) - 1⟩ = ⟨diag.val + sv, (i : Int) - 1, (j : Int) - 1⟩ := by
      unfold levenshtein_value.min; rw [if_neg h2]
    rw [e1]
    by_cases h1 : up.val + dv ≤ diag.val + sv
    · left
      refine ⟨by omega, h1, ?_⟩
      unfold levenshtein_value.min; rw [if_pos h1]
    · right; right
      refine ⟨fun h => h1 h.2, h2, ?_⟩
      unfold levenshtein_value.min; rw [if_neg h1]

theorem newCell_goodPred (sequence pattern : List Char) (i j : Nat) (up left diag : levenshtein_value)
    (hi : 1 ≤ i) (hj : 1 ≤ j) : GoodPred (newCell sequence pattern i j up left diag) i j := by
  rcases newCell_cases sequence pattern i j up left diag with ⟨_, _, h⟩ | ⟨_, _, h⟩ | ⟨_, _, h⟩ <;>
    (rw [h]; unfold GoodPred; dsimp only; omega)

theorem dflt_goodPred (i j : Nat) (hi : 1 ≤ i) (hj : 1 ≤ j) :
    GoodPred levenshtein_value.dflt i j := by
  unfold GoodPred levenshtein_value.dflt
  dsimp only
  omega

theorem fillRow_goodPred (sequence pattern : List Char) (D : Nat) (b : Bool) (i : Nat) (hi : 1 ≤ i) :
    ∀ (cnt j : Nat) (dist : Matrix) (ub : Nat), 1 ≤ j →
      (∀ r c, 1 ≤ r → 1 ≤ c → GoodPred (dist r c) r c) →
      ∀ r c, 1 ≤ r → 1 ≤ c → GoodPred ((fillRow sequence pattern D b i cnt j (dist, ub)).1 r c) r c := by
  intro cnt
  induction cnt with
  | zero => intro j dist ub hj h r c hr hc; exact h r c hr hc
  | succ n ih =>
    intro j dist ub hj h r c hr hc
    rw [fillRow]
    split
    · exact h r c hr hc
    · apply ih (j + 1) _ ub (by omega) _ r c hr hc
      intro r' c' hr' hc'
      by_cases hrc : r' = i ∧ c' = j
      · obtain ⟨e1, e2⟩ := hrc
        subst e1; subst e2
        rw [Matrix.set_same]
        exact newCell_goodPred _ _ _ _ _ _ _ hr' hc'
      · rw [Matrix.set_other _ _ _ _ _ _ (by omega)]
        exact h r' c' hr' hc'

theorem fillRows_goodPred (sequence pattern : List Char) (D : Nat) (b : Bool) :
    ∀ (cnt i : Nat) (st : Matrix × Nat), 1 ≤ i →
      (∀ r c, 1 ≤ r → 1 ≤ c → GoodPred (st.1 r c) r c) →
      ∀ r c, 1 ≤ r → 1 ≤ c → GoodPred ((fillRows sequence pattern D b cnt i st).1 r c) r c := by
  intro cnt
  induction cnt with
  | zero => intro i st hi h r c hr hc; exact h r c hr hc
  | succ n ih =>
    intro i st hi h r c hr hc
    rw [fillRows]
    apply ih (i + 1) _ (by omega) _ r c hr hc
    obtain ⟨dist, ub⟩ := st
    exact fillRow_goodPred sequence pattern D b i hi _ _ dist ub (le_refl _) h

theorem fillMatrix_goodPred (sequence pattern : List Char) (D : Nat) (b : Bool) (r c : Nat)
    (hr : 1 ≤ r) (hc : 1 ≤ c) : GoodPred (fillMatrix sequence pattern D b r c) r c := by
  unfold fillMatrix
  apply fillRows_goodPred sequence pattern D b _ 1 _ (le_refl _) _ r c hr hc
  intro r' c' hr' hc'
  dsimp only
  rw [init_apply, if_neg (by omega), if_neg (by omega)]
  exact dflt_goodPred r' c' hr' hc'

theorem walk_terminates (dist : Matrix) (la : Nat)
    (hd : ∀ r c, 1 ≤ r → 1 ≤ c → GoodPred (dist r c) r c) :
    ∀ (fuel : Nat) (s : WalkState), 0 ≤ s.i → 0 ≤ s.j → s.i + s.j < (fuel : Int) →
      ∃ w, walk dist la fuel s = some w := by
  intro fuel
  induction fuel with
  | zero => intro s h1 h2 h3; omega
  | succ n ih =>
    intro s h1 h2 h3
    rw [walk]
    split
    · rename_i hc
      obtain ⟨g1, g2, g3, g4, g5⟩ := hd s.i.toNat s.j.toNat (by omega) (by omega)
      apply ih
      · exact g1
      · exact g2
      · dsimp only
        have e1 : ((s.i.toNat : Nat) : Int) = s.i := Int.toNat_of_nonneg h1
        have e2 : ((s.j.toNat : Nat) : Int) = s.j := Int.toNat_of_nonneg h2
        omega
    · exact ⟨s, rfl⟩

theorem levenshtein_returns_score (sequence pattern : List Char) (D : Nat) (r : LevResult)
    (h : levenshtein sequence pattern D false = some r) :
    (r.ret = true ↔
      (fillMatrix sequence pattern D false sequence.length pattern.length).val ≤ D) ∧
    r.score = some (fillMatrix sequence pattern D false sequence.length pattern.length).val := by
  unfold levenshtein at h
  simp only [Bool.false_and, Bool.false_eq_true, if_false] at h
  split at h
  · cases h
  · split at h
    · rename_i hle
      split at h
      · split at h
        · cases h
          exact ⟨by simp [hle], rfl⟩
        · cases h
      · cases h
    · rename_i hle
      cases h
      exact ⟨by simp [hle], rfl⟩

theorem levenshtein_rejects (sequence pattern : List Char) (D : Nat)
    (hD : D < (fillMatrix sequence pattern D false sequence.length pattern.length).val) :
    ∃ r, levenshtein sequence pattern D false = some r ∧ r.ret = false ∧
      r.score = some (fillMatrix sequence pattern D false sequence.length pattern.length).val := by
  obtain ⟨w, hw⟩ := walk_terminates (fillMatrix sequence pattern D false) pattern.length
    (fillMatrix_goodPred sequence pattern D false) (sequence.length + pattern.length + 1)
    ⟨sequence.length, pattern.length, true, none, none, none, none⟩
    (by simp) (by simp) (by dsimp only; push_cast; omega)
  unfold levenshtein
  simp only [Bool.false_and, Bool.false_eq_true, if_false, hw]
  rw [if_neg (by omega)]
  exact ⟨_, rfl, rfl, rfl⟩

/-! ## The final cost is the semi-global distance -/

theorem editDistance_snoc_left_le (x : Char) (xs ys : List Char) :
    editDistance (xs ++ [x]) ys ≤ editDistance xs ys + 1 := by
  rw [← editDistance_reverse (xs ++ [x]) ys, ← editDistance_reverse xs ys]
  simp only [List.reverse_append, List.reverse_cons, List.reverse_nil, List.nil_append,
    List.singleton_append]
  exact editDistance_del_le x _ _

theorem editDistance_snoc_right_le (y : Char) (xs ys : List Char) :
    editDistance xs (ys ++ [y]) ≤ editDistance xs ys + 1 := by
  rw [← editDistance_reverse xs (ys ++ [y]), ← editDistance_reverse xs ys]
  simp only [List.reverse_append, List.reverse_cons, List.reverse_nil, List.nil_append,
    List.singleton_append]
  exact editDistance_ins_le y _ _

theorem editDistance_snoc_snoc_le (x y : Char) (xs ys : List Char) :
    editDistance (xs ++ [x]) (ys ++ [y]) ≤ editDistance xs ys + (if x = y then 0 else 1) := by
  rw [editDistance_snoc_snoc]; omega

theorem newCell_val (sequence pattern : List Char) (i j : Nat) (up left diag : levenshtein_value) :
    (newCell sequence pattern i j up left diag).val =
      min (up.val + (if j = pattern.length then 0 else 1))
        (min (left.val + 1)
          (diag.val + (if strAt sequence (i - 1) = strAt pattern (j - 1) then 0 else 1))) := by
  rcases newCell_cases sequence pattern i j up left diag with ⟨h1, h2, h⟩ | ⟨h1, h2, h⟩ | ⟨h1, h2, h⟩
  · rw [h]; dsimp only at *; omega
  · rw [h]; dsimp only at *; omega
  · rw [h]; dsimp only at *; omega

theorem cellSpec_zero_val (sequence pattern : List Char) (j : Nat) :
    (cellSpec sequence pattern 0 j).val = j := by
  cases j <;> rfl

theorem cellSpec_col_zero_val (sequence pattern : List Char) (i : Nat) :
    (cellSpec sequence pattern i 0).val = 0 := by
  cases i <;> rfl

theorem cellSpec_val_succ (sequence pattern : List Char) (i j : Nat) :
    (cellSpec sequence pattern (i + 1) (j + 1)).val =
      min ((cellSpec sequence pattern i (j + 1)).val + (if j + 1 = pattern.length then 0 else 1))
        (min ((cellSpec sequence pattern (i + 1) j).val + 1)
          ((cellSpec sequence pattern i j).val +
            (if strAt sequence i = strAt pattern j then 0 else 1))) := by
  rw [cellSpec_succ_succ, newCell_val]
  simp only [Nat.add_sub_cancel]

theorem cellSpec_val_le_col (sequence pattern : List Char) (i j : Nat) :
    (cellSpec sequence pattern i j).val ≤ j := by
  induction j with
  | zero => rw [cellSpec_col_zero_val]
  | succ j ih =>
    cases i with
    | zero => rw [cellSpec_zero_val]
    | succ i => rw [cellSpec_val_succ]; omega

theorem cellSpec_last_col_antitone (sequence pattern : List Char) (i e : Nat) (h : e ≤ i) :
    (cellSpec sequence pattern i pattern.length).val ≤
      (cellSpec sequence pattern e pattern.length).val := by
  induction i with
  | zero =>
    have : e = 0 := by omega
    subst this; exact le_refl _
  | succ i ih =>
    rcases Nat.eq_or_lt_of_le h with h1 | h1
    · subst h1; exact le_refl _
    · have h2 := ih (by omega)
      cases hla : pattern.length with
      | zero => rw [cellSpec_col_zero_val]; exact Nat.zero_le _
      | succ la =>
        rw [hla] at h2
        have := cellSpec_val_succ sequence pattern i la
        rw [if_pos hla.symm] at this
        omega

theorem slice_succ (sequence : List Char) (s e : Nat) (hs : s ≤ e) (he : e < sequence.length) :
    (sequence.take (e + 1)).drop s = (sequence.take e).drop s ++ [strAt sequence e] := by
  rw [take_succ_of_lt sequence e he, List.drop_append_of_le_length]
  rw [List.length_take]; omega

theorem slice_self (sequence : List Char) (e : Nat) (he : e ≤ sequence.length) :
    (sequence.take e).drop e = [] := by
  apply List.drop_eq_nil_of_le
  rw [List.length_take]; omega

/-- Lower bound: the cost of the cell `(i, j)` is at most the distance between any
stretch of the read that ends at `i` and the first `j` pattern characters. -/
theorem cellSpec_val_le_editDistance (sequence pattern : List Char) :
    ∀ (i j s : Nat), i ≤ sequence.length → j ≤ pattern.length → s ≤ i →
      (cellSpec sequence pattern i j).val ≤
        editDistance ((sequence.take i).drop s) (pattern.take j) := by
  intro i
  induction i with
  | zero =>
    intro j s hi hj hs
    rw [cellSpec_zero_val]
    have : s = 0 := by omega
    subst this
    simp only [List.take_zero, List.drop_zero]
    rw [editDistance_nil_left, List.length_take]; omega
  | succ i ihi =>
    intro j
    induction j with
    | zero => intro s _ _ _; rw [cellSpec_col_zero_val]; exact Nat.zero_le _
    | succ j ihj =>
      intro s hi hj hs
      rcases Nat.eq_or_lt_of_le hs with h1 | h1
      · subst h1
        rw [slice_self sequence _ hi, editDistance_nil_left, List.length_take]
        have := cellSpec_val_le_col sequence pattern (i + 1) (j + 1)
        omega
      · rw [slice_succ sequence s i (by omega) (by omega), take_succ_of_lt pattern j (by omega),
          editDistance_snoc_snoc, cellSpec_val_succ]
        have a1 := ihi (j + 1) s (by omega) hj (by omega)
        have a2 := ihj s hi (by omega) hs
        have a3 := ihi j s (by omega) (by omega) (by omega)
        rw [slice_succ sequence s i (by omega) (by omega)] at a2
        rw [take_succ_of_lt pattern j (by omega)] at a1
        have : (if j + 1 = pattern.length then 0 else 1) ≤ 1 := by split <;> omega
        omega

/-- Achievability: the cost of the cell `(i, j)` is reached by a stretch of the read
that ends at or before `i`, and exactly at `i` when `j` is not the last column. -/
theorem cellSpec_val_attained (sequence pattern : List Char) :
    ∀ (i j : Nat), i ≤ sequence.length → j ≤ pattern.length →
      ∃ s e, s ≤ e ∧ e ≤ i ∧ (j < pattern.length → e = i) ∧
        editDistance ((sequence.take e).drop s) (pattern.take j) ≤
          (cellSpec sequence pattern i j).val := by
  intro i
  induction i with
  | zero =>
    intro j hi hj
    refine ⟨0, 0, le_refl _, le_refl _, fun _ => rfl, ?_⟩
    rw [cellSpec_zero_val]
    simp only [List.take_zero, List.drop_zero]
    rw [editDistance_nil_left, List.length_take]; omega
  | succ i ihi =>
    intro j
    induction j with
    | zero =>
      intro hi hj
      refine ⟨i + 1, i + 1, le_refl _, le_refl _, fun _ => rfl, ?_⟩
      rw [slice_self sequence _ hi]
      simp [editDistance_nil_nil]
    | succ j ihj =>
      intro hi hj
      rw [cellSpec_succ_succ]
      rcases newCell_cases sequence pattern (i + 1) (j + 1) (cellSpec sequence pattern i (j + 1))
        (cellSpec sequence pattern (i + 1) j) (cellSpec sequence pattern i j)
        with ⟨_, _, h⟩ | ⟨_, _, h⟩ | ⟨_, _, h⟩
      · rw [h]
        dsimp only
        obtain ⟨s, e, h1, h2, h3, h4⟩ := ihi (j + 1) (by omega) hj
        by_cases hl : j + 1 = pattern.length
        · rw [if_pos hl]
          exact ⟨s, e, h1, by omega, fun hh => by omega, by omega⟩
        · rw [if_neg hl]
          have he := h3 (by omega)
          subst he
          refine ⟨s, e + 1, by omega, le_refl _, fun _ => rfl, ?_⟩
          rw [slice_succ sequence s e h1 (by omega)]
          exact le_trans (editDistance_snoc_left_le _ _ _) (by omega)
      · rw [h]
        dsimp only
        obtain ⟨s, e, h1, h2, h3, h4⟩ := ihj hi (by omega)
        have he := h3 (by omega)
        subst he
        refine ⟨s, i + 1, h1, le_refl _, fun _ => rfl, ?_⟩
        rw [take_succ_of_lt pattern j (by omega)]
        exact le_trans (editDistance_snoc_right_le _ _ _) (by omega)
      · rw [h]
        dsimp only
        obtain ⟨s, e, h1, h2, h3, h4⟩ := ihi j (by omega) (by omega)
        have he := h3 (by omega)
        subst he
        refine ⟨s, e + 1, by omega, le_refl _, fun _ => rfl, ?_⟩
        rw [slice_succ sequence s e h1 (by omega), take_succ_of_lt pattern j (by omega)]
        simp only [Nat.add_sub_cancel]
        exact le_trans (editDistance_snoc_snoc_le _ _ _ _) (by omega)

theorem slice_isInfix (sequence : List Char) (s e : Nat) :
    (sequence.take e).drop s <:+: sequence :=
  (List.drop_suffix s (sequence.take e)).isInfix.trans (List.take_prefix e sequence).isInfix

theorem isInfix_eq_slice (S sequence : List Char) (h : S <:+: sequence) :
    ∃ s e, s ≤ e ∧ e ≤ sequence.length ∧ S = (sequence.take e).drop s := by
  obtain ⟨a, b, rfl⟩ := h
  refine ⟨a.length, a.length + S.length, by omega, by simp, ?_⟩
  rw [List.append_assoc, List.take_append, List.drop_left]
  rw [List.take_append_eq_append_take]
  simp

/-- Claim C6. Without pruning, the cost of the final cell `dist[ls][la]` is the least
unit-cost Levenshtein distance between the whole pattern and a contiguous stretch of
the read (the empty stretch included): it is at most the distance to every such
stretch, and it is the distance to one of them. Read bases before and after the
stretch are free. Every call that returns has written this cost to `score`. -/
theorem levenshtein_final_cost_is_semiglobal_distance (sequence pattern : List Char) (D : Nat) :
    (∀ S : List Char, S <:+: sequence →
      (fillMatrix sequence pattern D false sequence.length pattern.length).val ≤
        editDistance S pattern) ∧
    (∃ S : List Char, S <:+: sequence ∧
      editDistance S pattern =
        (fillMatrix sequence pattern D false sequence.length pattern.length).val) ∧
    (∀ r, levenshtein sequence pattern D false = some r →
      r.score = some (fillMatrix sequence pattern D false sequence.length pattern.length).val) := by
  have hlb : ∀ S : List Char, S <:+: sequence →
      (cellSpec sequence pattern sequence.length pattern.length).val ≤ editDistance S pattern := by
    intro S hS
    obtain ⟨s, e, h1, h2, rfl⟩ := isInfix_eq_slice S sequence hS
    have a1 := cellSpec_last_col_antitone sequence pattern sequence.length e h2
    have a2 := cellSpec_val_le_editDistance sequence pattern e pattern.length s h2 (le_refl _) h1
    rw [List.take_length] at a2
    omega
  refine ⟨?_, ?_, fun r h => (levenshtein_returns_score sequence pattern D r h).2⟩
  · rw [fillMatrix_unpruned sequence pattern D _ _ (le_refl _) (le_refl _)]
    exact hlb
  · rw [fillMatrix_unpruned sequence pattern D _ _ (le_refl _) (le_refl _)]
    obtain ⟨s, e, h1, h2, _, h4⟩ :=
      cellSpec_val_attained sequence pattern sequence.length pattern.length (le_refl _) (le_refl _)
    rw [List.take_length] at h4
    exact ⟨_, slice_isInfix sequence s e, le_antisymm h4 (hlb _ (slice_isInfix sequence s e))⟩

/-! ## The pruned fill agrees with the unpruned one within the budget -/

theorem cellSpec_val_succ_row_ge (sequence pattern : List Char) (i j : Nat) :
    (cellSpec sequence pattern i j).val ≤ (cellSpec sequence pattern (i + 1) j).val + 1 := by
  induction j with
  | zero => rw [cellSpec_col_zero_val]; exact Nat.zero_le _
  | succ j ih =>
    have hrec := cellSpec_val_succ sequence pattern i j
    have hcol : (cellSpec sequence pattern i (j + 1)).val ≤ (cellSpec sequence pattern i j).val + 1 := by
      cases i with
      | zero => rw [cellSpec_zero_val, cellSpec_zero_val]
      | succ i => rw [cellSpec_val_succ]; omega
    omega

theorem cellSpec_val_succ_ge (sequence pattern : List Char) (i j m : Nat)
    (h1 : m ≤ (cellSpec sequence pattern i (j + 1)).val)
    (h2 : m ≤ (cellSpec sequence pattern (i + 1) j).val + 1)
    (h3 : m ≤ (cellSpec sequence pattern i j).val) :
    m ≤ (cellSpec sequence pattern (i + 1) (j + 1)).val := by
  rw [cellSpec_val_succ]
  generalize (if j + 1 = pattern.length then 0 else 1) = dv
  generalize (if strAt sequence i = strAt pattern j then 0 else 1) = sv
  omega

theorem cellAgrees_cost {D : Nat} {g h : levenshtein_value} (a : CellAgrees D g h) :
    CostAgrees D g h.val :=
  ⟨fun hle => congrArg levenshtein_value.val (a.1 hle), a.2⟩

theorem cellAgrees_of_eq (D : Nat) (g h : levenshtein_value) (e : g = h) : CellAgrees D g h := by
  subst e
  exact ⟨fun _ => rfl, fun h => h⟩

theorem cellAgrees_dflt (D : Nat) (h : levenshtein_value) (hD : D < 4294967294) (hh : D < h.val) :
    CellAgrees D levenshtein_value.dflt h := by
  refine ⟨fun hle => ?_, fun _ => ?_⟩
  · omega
  · unfold levenshtein_value.dflt UINT_MAX
    dsimp only
    omega

theorem newCell_cellAgrees (sequence pattern : List Char) (D i j : Nat)
    (up left diag hu hl hd : levenshtein_value)
    (h1 : CellAgrees D up hu) (h2 : CellAgrees D left hl) (h3 : CellAgrees D diag hd) :
    CellAgrees D (newCell sequence pattern i j up left diag)
      (newCell sequence pattern i j hu hl hd) := by
  obtain ⟨a1, a2⟩ := cellAgrees_cost h1
  obtain ⟨b1, b2⟩ := cellAgrees_cost h2
  obtain ⟨c1, c2⟩ := cellAgrees_cost h3
  have hP := newCell_cases sequence pattern i j up left diag
  have hU := newCell_cases sequence pattern i j hu hl hd
  dsimp only at hP hU
  generalize (if strAt sequence (i - 1) = strAt pattern (j - 1) then 0 else 1) = sv at hP hU
  generalize (if j = pattern.length then 0 else 1) = dv at hP hU
  generalize newCell sequence pattern i j up left diag = gp at hP ⊢
  generalize newCell sequence pattern i j hu hl hd = gu at hU ⊢
  unfold CellAgrees
  rcases hP with ⟨p1, p2, rfl⟩ | ⟨p1, p2, rfl⟩ | ⟨p1, p2, rfl⟩ <;>
    rcases hU with ⟨q1, q2, rfl⟩ | ⟨q1, q2, rfl⟩ | ⟨q1, q2, rfl⟩ <;>
    dsimp only <;>
    refine ⟨fun hle => ?_, fun hgt => by omega⟩ <;>
    first
      | (exfalso; omega)
      | (have e : up.val = hu.val := by omega
         rw [e])
      | (have e : left.val = hl.val := by omega
         rw [e])
      | (have e : diag.val = hd.val := by omega
         rw [e])

theorem fillRow_pruned (sequence pattern : List Char) (D : Nat) (hD : D < 4294967294)
    (i ub0 : Nat) :
    ∀ (cnt j : Nat) (G : Matrix), 1 ≤ j → j + cnt = pattern.length + 1 →
      (∀ c, c ≤ pattern.length → CellAgrees D (G i c) (cellSpec sequence pattern i c)) →
      (∀ c, c < j → CellAgrees D (G (i + 1) c) (cellSpec sequence pattern (i + 1) c)) →
      (∀ c, j ≤ c → G (i + 1) c = levenshtein_value.dflt) →
      ((∀ c, ub0 < c → c ≤ pattern.length → D < (cellSpec sequence pattern i c).val) ∨
        pattern.length ≤ ub0 + 1) →
      (∀ c, ub0 < c → c < j → (cellSpec sequence pattern (i + 1) c).val ≤ D) →
      (∀ c, c ≤ pattern.length →
        CellAgrees D ((fillRow sequence pattern D true (i + 1) cnt j (G, ub0)).1 (i + 1) c)
          (cellSpec sequence pattern (i + 1) c)) ∧
      (∀ r c, r ≠ i + 1 →
        (fillRow sequence pattern D true (i + 1) cnt j (G, ub0)).1 r c = G r c) ∧
      ((∀ c, (fillRow sequence pattern D true (i + 1) cnt j (G, ub0)).2 < c → c ≤ pattern.length →
          D < (cellSpec sequence pattern (i + 1) c).val) ∨
        pattern.length ≤ (fillRow sequence pattern D true (i + 1) cnt j (G, ub0)).2 + 1) := by
  intro cnt
  induction cnt with
  | zero =>
    intro j G hj hcnt hprev hpre hdf hJ hnb
    have e : fillRow sequence pattern D true (i + 1) 0 j (G, ub0) = (G, ub0) := rfl
    rw [e]
    refine ⟨fun c hc => hpre c (by omega), fun _ _ _ => rfl, ?_⟩
    rcases hJ with hJ | hJ
    · right
      by_contra hcon
      have b1 := hnb (ub0 + 1 + 1) (by omega) (by omega)
      have b2 := hJ (ub0 + 1 + 1) (by omega) (by omega)
      have b3 := hJ (ub0 + 1) (by omega) (by omega)
      have b4 := cellSpec_val_succ_row_ge sequence pattern i (ub0 + 1)
      have b5 := cellSpec_val_succ_ge sequence pattern i (ub0 + 1) (D + 1) (by omega) (by omega)
        (by omega)
      omega
    · exact Or.inr hJ
  | succ n ih =>
    intro j G hj hcnt hprev hpre hdf hJ hnb
    obtain ⟨j', rfl⟩ : ∃ j', j = j' + 1 := ⟨j - 1, by omega⟩
    have hagree : CellAgrees D
        (newCell sequence pattern (i + 1) (j' + 1) (G (i + 1 - 1) (j' + 1)) (G (i + 1) (j' + 1 - 1))
          (G (i + 1 - 1) (j' + 1 - 1)))
        (cellSpec sequence pattern (i + 1) (j' + 1)) := by
      rw [cellSpec_succ_succ]
      have := newCell_cellAgrees sequence pattern D (i + 1) (j' + 1) (G i (j' + 1)) (G (i + 1) j')
        (G i j') _ _ _ (hprev (j' + 1) (by omega)) (hpre j' (by omega)) (hprev j' (by omega))
      simpa only [Nat.add_sub_cancel] using this
    have hcost := cellAgrees_cost hagree
    rw [fillRow]
    split
    · rename_i hbr
      simp only [Bool.true_and, Bool.and_eq_true, decide_eq_true_eq] at hbr
      obtain ⟨hbr1, hbr2⟩ := hbr
      dsimp only
      have hcur : D < (cellSpec sequence pattern (i + 1) (j' + 1)).val := by
        by_contra hle
        have := hcost.1 (by omega)
        omega
      have hbeyond : ∀ c, j' + 1 ≤ c → c ≤ pattern.length →
          D < (cellSpec sequence pattern (i + 1) c).val := by
        intro c hc
        induction c, hc using Nat.le_induction with
        | base => intro _; exact hcur
        | succ c hc ihc =>
          intro hcl
          have b1 := ihc (by omega)
          rcases hJ with hJ | hJ
          · have b2 := hJ (c + 1) (by omega) hcl
            have b3 := hJ c (by omega) (by omega)
            exact cellSpec_val_succ_ge sequence pattern i c (D + 1) (by omega) (by omega)
              (by omega)
          · omega
      refine ⟨?_, fun _ _ _ => rfl, Or.inl ?_⟩
      · intro c hc
        rcases Nat.lt_or_ge c (j' + 1) with h | h
        · exact hpre c h
        · rw [hdf c h]
          exact cellAgrees_dflt D _ hD (hbeyond c h hc)
      · intro c hc1 hc2
        simp only [Nat.add_sub_cancel] at hc1
        exact hbeyond c (by omega) hc2
    · rename_i hbr
      simp only [Bool.true_and, Bool.and_eq_true, decide_eq_true_eq] at hbr
      obtain ⟨a1, a2, a3⟩ := ih (j' + 1 + 1)
        (G.set (i + 1) (j' + 1) (newCell sequence pattern (i + 1) (j' + 1) (G (i + 1 - 1) (j' + 1))
          (G (i + 1) (j' + 1 - 1)) (G (i + 1 - 1) (j' + 1 - 1))))
        (by omega) (by omega)
        (by
          intro c hc
          rw [Matrix.set_other _ _ _ _ _ _ (by omega)]
          exact hprev c hc)
        (by
          intro c hc
          by_cases hcj : c = j' + 1
          · subst hcj; rw [Matrix.set_same]; exact hagree
          · rw [Matrix.set_other _ _ _ _ _ _ (by omega)]
            exact hpre c (by omega))
        (by
          intro c hc
          rw [Matrix.set_other _ _ _ _ _ _ (by omega)]
          exact hdf c (by omega))
        hJ
        (by
          intro c hc1 hc2
          by_cases hcj : c = j' + 1
          · subst hcj
            by_contra hgt
            have := hcost.2 (by omega)
            exact hbr ⟨this, hc1⟩
          · exact hnb c hc1 (by omega))
      refine ⟨a1, ?_, a3⟩
      intro r c hr
      rw [a2 r c hr, Matrix.set_other _ _ _ _ _ _ (by omega)]

theorem fillRows_pruned (sequence pattern : List Char) (D : Nat) (hD : D < 4294967294) :
    ∀ (cnt i : Nat) (G : Matrix) (ub : Nat), i + cnt = sequence.length →
      (∀ r c, r ≤ i → c ≤ pattern.length → CellAgrees D (G r c) (cellSpec sequence pattern r c)) →
      (∀ r c, i < r → 1 ≤ c → G r c = levenshtein_value.dflt) →
      (∀ r, i < r → r ≤ sequence.length → G r 0 = cellSpec sequence pattern r 0) →
      ((∀ c, ub < c → c ≤ pattern.length → D < (cellSpec sequence pattern i c).val) ∨
        pattern.length ≤ ub + 1) →
      ∀ r c, r ≤ sequence.length → c ≤ pattern.length →
        CellAgrees D ((fillRows sequence pattern D true cnt (i + 1) (G, ub)).1 r c)
          (cellSpec sequence pattern r c) := by
  intro cnt
  induction cnt with
  | zero =>
    intro i G ub hi h1 h2 h3 h4 r c hr hc
    exact h1 r c (by omega) hc
  | succ n ih =>
    intro i G ub hi h1 h2 h3 h4 r c hr hc
    rw [fillRows]
    obtain ⟨a1, a2, a3⟩ := fillRow_pruned sequence pattern D hD i ub pattern.length 1 G (le_refl _)
      (by omega) (fun c hc => h1 i c (le_refl _) hc)
      (by
        intro c hc
        have : c = 0 := by omega
        subst this
        exact cellAgrees_of_eq D _ _ (h3 (i + 1) (by omega) (by omega)))
      (fun c hc => h2 (i + 1) c (by omega) hc) h4 (fun c hc1 hc2 => by omega)
    generalize fillRow sequence pattern D true (i + 1) pattern.length 1 (G, ub) = st at a1 a2 a3
    obtain ⟨G1, ub1⟩ := st
    apply ih (i + 1) G1 ub1 (by omega) _ _ _ a3 r c hr hc
    · intro r c hr hc
      by_cases hri : r = i + 1
      · subst hri
        exact a1 c hc
      · have := a2 r c hri
        dsimp only at this
        rw [this]
        exact h1 r c (by omega) hc
    · intro r c hr hc
      have := a2 r c (by omega)
      dsimp only at this
      rw [this]
      exact h2 r c (by omega) hc
    · intro r hr hr2
      have := a2 r 0 (by omega)
      dsimp only at this
      rw [this]
      exact h3 r (by omega) hr2

theorem fillMatrix_pruned_agrees (sequence pattern : List Char) (D : Nat) (hD : D < 4294967294)
    (r c : Nat) (hr : r ≤ sequence.length) (hc : c ≤ pattern.length) :
    CellAgrees D (fillMatrix sequence pattern D true r c) (cellSpec sequence pattern r c) := by
  unfold fillMatrix
  apply fillRows_pruned sequence pattern D hD sequence.length 0 _ D (by omega) _ _ _ _ r c hr hc
  · intro r c hr hc
    have : r = 0 := by omega
    subst this
    apply cellAgrees_of_eq
    rw [init_apply, if_pos ⟨rfl, hc⟩]
    rfl
  · intro r c hr hc
    rw [init_apply, if_neg (by omega), if_neg (by omega)]
  · intro r hr1 hr2
    rw [init_apply, if_neg (by omega), if_pos ⟨rfl, hr2⟩]
    obtain ⟨r', rfl⟩ : ∃ r', r = r' + 1 := ⟨r - 1, by omega⟩
    rw [cellSpec_succ_zero]
    congr 1
    push_cast
    omega
  · left
    intro c hc1 hc2
    rw [cellSpec_zero_val]
    exact hc1

/-! ## A pattern that occurs verbatim in the read -/

theorem edit_zero_eq {xs ys : List Char} {c : Nat} (h : Edit xs ys c) : c = 0 → xs = ys := by
  induction h with
  | nil => intro _; rfl
  | del x _ ih => intro h0; omega
  | ins y _ ih => intro h0; omega
  | sub x y _ ih =>
    intro h0
    by_cases hxy : x = y
    · rw [if_pos hxy] at h0
      rw [hxy, ih (by omega)]
    · rw [if_neg hxy] at h0
      omega

theorem editDistance_eq_zero (xs ys : List Char) (h : editDistance xs ys = 0) : xs = ys :=
  edit_zero_eq (edit_editDistance xs ys) h

theorem cellSpec_last_col_zero_iff (sequence pattern : List Char) (e : Nat)
    (he : e ≤ sequence.length) :
    (cellSpec sequence pattern e pattern.length).val = 0 ↔ pattern <:+: sequence.take e := by
  constructor
  · intro h
    obtain ⟨s, e1, h1, h2, _, h4⟩ :=
      cellSpec_val_attained sequence pattern e pattern.length he (le_refl _)
    rw [List.take_length, h] at h4
    have := editDistance_eq_zero _ _ (Nat.le_zero.mp h4)
    rw [← this]
    have : (sequence.take e1).drop s = ((sequence.take e).take e1).drop s := by
      rw [List.take_take, Nat.min_eq_left h2]
    rw [this]
    exact slice_isInfix _ s e1
  · intro h
    obtain ⟨s, e1, h1, h2, h3⟩ := isInfix_eq_slice pattern (sequence.take e) h
    rw [List.length_take, Nat.min_eq_left he] at h2
    rw [List.take_take, Nat.min_eq_left h2] at h3
    have a1 := cellSpec_last_col_antitone sequence pattern e e1 h2
    have a2 := cellSpec_val_le_editDistance sequence pattern e1 pattern.length s (by omega)
      (le_refl _) h1
    rw [List.take_length, ← h3, editDistance_self] at a2
    omega

theorem cellSpec_col_le (sequence pattern : List Char) :
    ∀ (i j : Nat), j ≤ (cellSpec sequence pattern i j).val + i := by
  intro i
  induction i with
  | zero => intro j; rw [cellSpec_zero_val]; omega
  | succ i ihi =>
    intro j
    induction j with
    | zero => omega
    | succ j ihj =>
      have a1 := ihi (j + 1)
      have a3 := ihi j
      have := cellSpec_val_succ sequence pattern i j
      generalize (if j + 1 = pattern.length then 0 else 1) = dv at this
      generalize (if strAt sequence i = strAt pattern j then 0 else 1) = sv at this
      omega

/-- The cell `(i + 1, j + 1)` with its predecessor coordinates written without
subtraction. -/
theorem cellSpec_succ_cases (sequence pattern : List Char) (i j : Nat) :
    let sv := if strAt sequence i = strAt pattern j then 0 else 1
    let dv := if j + 1 = pattern.length then 0 else 1
    let up := (cellSpec sequence pattern i (j + 1)).val
    let left := (cellSpec sequence pattern (i + 1) j).val
    let diag := (cellSpec sequence pattern i j).val
    (up + dv ≤ left + 1 ∧ up + dv ≤ diag + sv ∧
      cellSpec sequence pattern (i + 1) (j + 1) = ⟨up + dv, (i : Int), ((j + 1 : Nat) : Int)⟩) ∨
    (¬ (up + dv ≤ left + 1 ∧ up + dv ≤ diag + sv) ∧ left + 1 ≤ diag + sv ∧
      cellSpec sequence pattern (i + 1) (j + 1) = ⟨left + 1, ((i + 1 : Nat) : Int), (j : Int)⟩) ∨
    (¬ (up + dv ≤ left + 1 ∧ up + dv ≤ diag + sv) ∧ ¬ (left + 1 ≤ diag + sv) ∧
      cellSpec sequence pattern (i + 1) (j + 1) = ⟨diag + sv, (i : Int), (j : Int)⟩) := by
  intro sv dv up left diag
  have h := newCell_cases sequence pattern (i + 1) (j + 1) (cellSpec sequence pattern i (j + 1))
    (cellSpec sequence pattern (i + 1) j) (cellSpec sequence pattern i j)
  simp only [Nat.add_sub_cancel, Nat.cast_add, Nat.cast_one, add_sub_cancel_right] at h
  rw [cellSpec_succ_succ]
  simpa only [Nat.cast_add, Nat.cast_one] using h

theorem walk_step_del (dist : Matrix) (la f i j v : Nat) (ne : Bool)
    (st en sp ep : Option Int)
    (hcell : dist (i + 1) (j + 1) = ⟨v, (i : Int), ((j + 1 : Nat) : Int)⟩)
    (hla : ¬ (j + 1 < la)) :
    walk dist la (f + 1) ⟨((i + 1 : Nat) : Int), ((j + 1 : Nat) : Int), ne, st, en, sp, ep⟩ =
      walk dist la f ⟨(i : Int), ((j + 1 : Nat) : Int), ne, st, en, sp, ep⟩ := by
  rw [walk]
  have e1 : (((i + 1 : Nat) : Int)).toNat = i + 1 := Int.toNat_natCast _
  have e2 : (((j + 1 : Nat) : Int)).toNat = j + 1 := Int.toNat_natCast _
  have c1 : ((j + 1 : Nat) : Int) ≠ 0 := by omega
  have c2 : ((i + 1 : Nat) : Int) ≠ 0 := by omega
  rw [if_pos ⟨c1, c2⟩]
  simp only [e1, e2, hcell]
  have c3 : ¬ ((j : Int) + 1 < (la : Int)) := by omega
  simp [c3]

theorem walk_step_diag (dist : Matrix) (la f i j v : Nat) (ne : Bool)
    (st en sp ep : Option Int)
    (hcell : dist (i + 1) (j + 1) = ⟨v, (i : Int), (j : Int)⟩)
    (hpred : (dist i j).val = v) (hj : j < la) :
    walk dist la (f + 1) ⟨((i + 1 : Nat) : Int), ((j + 1 : Nat) : Int), ne, st, en, sp, ep⟩ =
      walk dist la f ⟨(i : Int), (j : Int), false, some ((i + 1 : Nat) : Int),
        (if ne = true then some ((i + 1 : Nat) : Int) else en), some ((j + 1 : Nat) : Int),
        (if ne = true then some ((j + 1 : Nat) : Int) else ep)⟩ := by
  rw [walk]
  have e1 : (((i + 1 : Nat) : Int)).toNat = i + 1 := Int.toNat_natCast _
  have e2 : (((j + 1 : Nat) : Int)).toNat = j + 1 := Int.toNat_natCast _
  have e3 : ((i : Int)).toNat = i := Int.toNat_natCast _
  have e4 : ((j : Int)).toNat = j := Int.toNat_natCast _
  have c1 : ((j + 1 : Nat) : Int) ≠ 0 := by omega
  have c2 : ((i + 1 : Nat) : Int) ≠ 0 := by omega
  have c3 : ((i + 1 : Nat) : Int) ≠ (i : Int) := by omega
  have c4 : ((j + 1 : Nat) : Int) ≠ (j : Int) := by omega
  have c5 : (j : Int) < (la : Int) := by omega
  rw [if_pos ⟨c1, c2⟩]
  simp only [e1, e2, hcell, e3, e4, hpred]
  cases ne <;> simp [c3, c4, c5]

theorem walk_last_col (sequence pattern : List Char) (dist : Matrix)
    (hd : ∀ r c, r ≤ sequence.length → c ≤ pattern.length → dist r c = cellSpec sequence pattern r c)
    (hla : 1 ≤ pattern.length) (e : Nat) (ne : Bool) (st en sp ep : Option Int) :
    ∀ (n f : Nat), e + n ≤ sequence.length →
      (∀ i, e ≤ i → i < e + n → (cellSpec sequence pattern i pattern.length).val = 0) →
      walk dist pattern.length (f + n)
          ⟨((e + n : Nat) : Int), (pattern.length : Int), ne, st, en, sp, ep⟩ =
        walk dist pattern.length f ⟨(e : Int), (pattern.length : Int), ne, st, en, sp, ep⟩ := by
  intro n
  induction n with
  | zero => intro f _ _; rfl
  | succ n ih =>
    intro f h1 h2
    obtain ⟨la', hla'⟩ : ∃ la', pattern.length = la' + 1 := ⟨pattern.length - 1, by omega⟩
    have hup := h2 (e + n) (by omega) (by omega)
    have hc := cellSpec_succ_cases sequence pattern (e + n) la'
    dsimp only at hc
    rw [← hla', hup, if_pos rfl] at hc
    rcases hc with ⟨_, _, hc⟩ | ⟨hc, _⟩ | ⟨hc, _⟩
    · have hcell : dist (e + n + 1) (la' + 1) = ⟨0, ((e + n : Nat) : Int), ((la' + 1 : Nat) : Int)⟩ := by
        rw [hd _ _ (by omega) (by omega), ← hla']
        exact hc
      have := walk_step_del dist pattern.length (f + n) (e + n) la' 0 ne st en sp ep hcell (by omega)
      rw [← hla'] at this
      rw [show f + (n + 1) = f + n + 1 from rfl, show e + (n + 1) = e + n + 1 from rfl, this]
      exact ih f (by omega) (fun i hi1 hi2 => h2 i hi1 (by omega))
    · exact absurd ⟨by omega, by omega⟩ hc
    · exact absurd ⟨by omega, by omega⟩ hc

theorem walk_diagonal (sequence pattern : List Char) (dist : Matrix)
    (hd : ∀ r c, r ≤ sequence.length → c ≤ pattern.length → dist r c = cellSpec sequence pattern r c)
    (en ep : Option Int) :
    ∀ (j i f : Nat) (st sp : Option Int), j < pattern.length → i ≤ sequence.length →
      (cellSpec sequence pattern i j).val = 0 → j < f →
      walk dist pattern.length f ⟨(i : Int), (j : Int), false, st, en, sp, ep⟩ =
        some ⟨((i - j : Nat) : Int), 0, false,
          (if j = 0 then st else some ((i - j + 1 : Nat) : Int)), en,
          (if j = 0 then sp else some 1), ep⟩ := by
  intro j
  induction j with
  | zero =>
    intro i f st sp _ _ _ hf
    obtain ⟨f', rfl⟩ : ∃ f', f = f' + 1 := ⟨f - 1, by omega⟩
    rw [walk]
    simp
  | succ j ih =>
    intro i f st sp hj hi hv hf
    obtain ⟨f', rfl⟩ : ∃ f', f = f' + 1 := ⟨f - 1, by omega⟩
    have hij := cellSpec_col_le sequence pattern i (j + 1)
    obtain ⟨i', rfl⟩ : ∃ i', i = i' + 1 := ⟨i - 1, by omega⟩
    have hc := cellSpec_succ_cases sequence pattern i' j
    dsimp only at hc
    rw [if_neg (by omega : ¬ j + 1 = pattern.length)] at hc
    rcases hc with ⟨_, _, hc⟩ | ⟨_, _, hc⟩ | ⟨_, _, hc⟩
    · rw [hc] at hv; dsimp only at hv; omega
    · rw [hc] at hv; dsimp only at hv; omega
    · have hv' : (cellSpec sequence pattern i' j).val +
          (if strAt sequence i' = strAt pattern j then 0 else 1) = 0 := by
        rw [hc] at hv; exact hv
      have hdiag : (cellSpec sequence pattern i' j).val = 0 := by omega
      rw [hv'] at hc
      have hcell : dist (i' + 1) (j + 1) = ⟨0, (i' : Int), (j : Int)⟩ := by
        rw [hd _ _ hi (by omega)]; exact hc
      have hpred : (dist i' j).val = 0 := by
        rw [hd _ _ (by omega) (by omega)]; exact hdiag
      have w := walk_step_diag dist pattern.length f' i' j 0 false st en sp ep hcell hpred
        (by omega)
      simp only [Bool.false_eq_true, if_false] at w
      rw [w, ih i' f' _ _ (by omega) (by omega) hdiag (by omega)]
      have e1 : i' + 1 - (j + 1) = i' - j := by omega
      rw [e1]
      by_cases hj0 : j = 0
      · subst hj0; simp
      · simp [hj0]

/-- When the non-empty pattern occurs verbatim in the read, the walk reports the
occurrence that ends first: `e` is the least prefix length of the read that contains
the pattern. -/
theorem levenshtein_first_occurrence (sequence pattern : List Char) (D e : Nat)
    (hP : pattern ≠ []) (he : e ≤ sequence.length)
    (h1 : pattern <:+: sequence.take e) (h2 : ¬ pattern <:+: sequence.take (e - 1)) :
    pattern.length ≤ e ∧
    levenshtein sequence pattern D false =
      some ⟨true, some 0, some ((e : Int) - (pattern.length : Int)), some (e : Int), some 0,
        some (pattern.length : Int)⟩ := by
  have hla : 1 ≤ pattern.length := by
    cases pattern with
    | nil => exact absurd rfl hP
    | cons x xs => simp
  have he0 : e ≠ 0 := by
    intro h0
    subst h0
    exact h2 h1
  obtain ⟨e', rfl⟩ : ∃ e', e = e' + 1 := ⟨e - 1, by omega⟩
  obtain ⟨la', hla'⟩ : ∃ la', pattern.length = la' + 1 := ⟨pattern.length - 1, by omega⟩
  simp only [Nat.add_sub_cancel] at h2
  have hz1 := (cellSpec_last_col_zero_iff sequence pattern (e' + 1) he).2 h1
  have hz2 : (cellSpec sequence pattern e' pattern.length).val ≠ 0 := fun h =>
    h2 ((cellSpec_last_col_zero_iff sequence pattern e' (by omega)).1 h)
  have hfin : (cellSpec sequence pattern sequence.length pattern.length).val = 0 := by
    have := cellSpec_last_col_antitone sequence pattern sequence.length (e' + 1) he
    omega
  have hd : ∀ r c, r ≤ sequence.length → c ≤ pattern.length →
      fillMatrix sequence pattern D false r c = cellSpec sequence pattern r c :=
    fun r c hr hc => fillMatrix_unpruned sequence pattern D r c hr hc
  -- the cell where the walk leaves the last column
  have hc := cellSpec_succ_cases sequence pattern e' la'
  dsimp only at hc
  rw [← hla', if_pos rfl] at hc
  have hsub : cellSpec sequence pattern (e' + 1) pattern.length = ⟨0, (e' : Int), (la' : Int)⟩ ∧
      (cellSpec sequence pattern e' la').val = 0 := by
    rcases hc with ⟨_, _, hc⟩ | ⟨_, _, hc⟩ | ⟨_, _, hc⟩
    · rw [hc] at hz1; dsimp only at hz1; omega
    · rw [hc] at hz1; dsimp only at hz1; omega
    · have hv' : (cellSpec sequence pattern e' la').val +
          (if strAt sequence e' = strAt pattern la' then 0 else 1) = 0 := by
        rw [hc] at hz1; exact hz1
      rw [hv'] at hc
      exact ⟨hc, by omega⟩
  obtain ⟨hcell, hdiag⟩ := hsub
  have hle : la' ≤ e' := by
    have := cellSpec_col_le sequence pattern e' la'
    omega
  -- the three stretches of the walk
  have w1 := walk_last_col sequence pattern (fillMatrix sequence pattern D false) hd hla (e' + 1)
    true none none none none (sequence.length - (e' + 1)) (e' + 1 + pattern.length + 1) (by omega)
    (fun i hi1 hi2 => by
      have := cellSpec_last_col_antitone sequence pattern i (e' + 1) hi1
      omega)
  have w2 := walk_step_diag (fillMatrix sequence pattern D false) pattern.length
    (e' + 1 + pattern.length) e' la' 0 true none none none none
    (by rw [hd _ _ he (by omega), ← hla']; exact hcell)
    (by rw [hd _ _ (by omega) (by omega)]; exact hdiag) (by omega)
  have w3 := walk_diagonal sequence pattern (fillMatrix sequence pattern D false) hd
    (some ((e' + 1 : Nat) : Int)) (some (pattern.length : Int)) la' e' (e' + 1 + pattern.length)
    (some ((e' + 1 : Nat) : Int)) (some (pattern.length : Int)) (by omega) (by omega) hdiag (by omega)
  have hfuel : sequence.length + pattern.length + 1 =
      e' + 1 + pattern.length + 1 + (sequence.length - (e' + 1)) := by omega
  have hrow : ((e' + 1 + (sequence.length - (e' + 1)) : Nat) : Int) = (sequence.length : Int) := by
    congr 1; omega
  rw [hrow, ← hfuel] at w1
  rw [← hla'] at w2
  simp only [if_true] at w2
  refine ⟨by omega, ?_⟩
  unfold levenshtein
  simp only [Bool.false_and, Bool.false_eq_true, if_false]
  rw [w1, w2, w3, hd _ _ (le_refl _) (le_refl _), hfin]
  simp only [Nat.zero_le, if_true]
  by_cases h0 : la' = 0
  · subst h0
    simp [hla']
    omega
  · simp only [h0, if_false]
    have c1 : ((e' - la' + 1 : Nat) : Int) ≠ 0 := by omega
    rw [if_pos ⟨c1, by decide⟩, hla']
    congr 2
    · congr 1
      push_cast [Nat.cast_sub hle]
      omega

theorem levenshtein_verbatim_result (X P Y : List Char) (D : Nat) (hP : P ≠ []) :
    ∃ r, levenshtein (X ++ P ++ Y) P D false = some r ∧ r.ret = true ∧ r.score = some 0 ∧
      ∃ ms me : Int, r.match_start = some ms ∧ r.match_end = some me ∧
        me - ms = (P.length : Int) := by
  classical
  have hex : ∃ e, e ≤ (X ++ P ++ Y).length ∧ P <:+: (X ++ P ++ Y).take e := by
    refine ⟨(X ++ P).length, by simp, ?_⟩
    rw [List.take_left' rfl]
    exact List.infix_append' X P []  |>.trans (by simp)
  obtain ⟨h1, h2⟩ := Nat.find_spec hex
  have h3 : ¬ P <:+: (X ++ P ++ Y).take (Nat.find hex - 1) := by
    intro hin
    by_cases h0 : Nat.find hex = 0
    · rw [h0] at hin
      simp only [Nat.zero_sub, List.take_zero] at hin
      exact hP (List.eq_nil_of_infix_nil hin)
    · exact Nat.find_min hex (by omega : Nat.find hex - 1 < Nat.find hex) ⟨by omega, hin⟩
  obtain ⟨h4, h5⟩ := levenshtein_first_occurrence (X ++ P ++ Y) P D (Nat.find hex) hP h1 h2 h3
  exact ⟨_, h5, rfl, rfl, _, _, rfl, rfl, by omega⟩

/-- Claim C5. For every non-empty pattern `P`, every prefix `X`, suffix `Y` and budget
`D`, `levenshtein` without pruning returns `true` on the read `X ++ P ++ Y` with the
score `0` and `match_end - match_start = |P|`; for the read `TTACGTTT`, the pattern
`ACGT` and the budget `0` it reports `match_start = 2`, `match_end = 6`,
`startInPattern = 0`, `endInPattern = 4`. -/
theorem levenshtein_finds_embedded_pattern :
    (∀ (X P Y : List Char) (D : Nat), P ≠ [] →
      ∃ r, levenshtein (X ++ P ++ Y) P D false = some r ∧ r.ret = true ∧ r.score = some 0 ∧
        ∃ ms me : Int, r.match_start = some ms ∧ r.match_end = some me ∧
          me - ms = (P.length : Int)) ∧
    levenshtein ['T', 'T', 'A', 'C', 'G', 'T', 'T', 'T'] ['A', 'C', 'G', 'T'] 0 false =
      some ⟨true, some 0, some 2, some 6, some 0, some 4⟩ := by
  refine ⟨levenshtein_verbatim_result, ?_⟩
  have h := (levenshtein_first_occurrence ['T', 'T', 'A', 'C', 'G', 'T', 'T', 'T']
    ['A', 'C', 'G', 'T'] 0 6 (by decide) (by decide) (by decide) (by decide)).2
  simpa using h

/-- Witness of claim C5 at `X = TT`, `P = ACGT`, `Y = TT`, budget `0`. -/
theorem levenshtein_finds_embedded_pattern_witness :
    ∃ r, levenshtein (['T', 'T'] ++ ['A', 'C', 'G', 'T'] ++ ['T', 'T']) ['A', 'C', 'G', 'T'] 0 false
        = some r ∧ r.ret = true ∧ r.score = some 0 ∧
      ∃ ms me : Int, r.match_start = some ms ∧ r.match_end = some me ∧
        me - ms = ((['A', 'C', 'G', 'T'] : List Char).length : Int) :=
  levenshtein_finds_embedded_pattern.1 ['T', 'T'] ['A', 'C', 'G', 'T'] ['T', 'T'] 0 (by decide)

/-! ## Edit distance of prefixes -/

theorem edit_drop_head_right {u v : List Char} {c : Nat} (h : Edit u v c) :
    ∀ (y : Char) (ys : List Char), v = y :: ys → ∃ c1, c1 ≤ c + 1 ∧ Edit u ys c1 := by
  induction h with
  | nil => intro y ys hv; cases hv
  | del x _ ih =>
    intro y ys hv
    obtain ⟨c1, h1, h2⟩ := ih y ys hv
    exact ⟨c1 + 1, by omega, Edit.del x h2⟩
  | ins y0 h0 _ =>
    intro y ys hv
    cases hv
    exact ⟨_, by omega, h0⟩
  | sub x y0 h0 _ =>
    intro y ys hv
    cases hv
    exact ⟨_, by omega, Edit.del x h0⟩

theorem editDistance_le_cons_right (y : Char) (xs ys : List Char) :
    editDistance xs ys ≤ editDistance xs (y :: ys) + 1 := by
  obtain ⟨c1, h1, h2⟩ := edit_drop_head_right (edit_editDistance xs (y :: ys)) y ys rfl
  exact le_trans (editDistance_le_of_edit h2) h1

theorem editDistance_le_snoc_right (y : Char) (xs ys : List Char) :
    editDistance xs ys ≤ editDistance xs (ys ++ [y]) + 1 := by
  rw [← editDistance_reverse xs ys, ← editDistance_reverse xs (ys ++ [y])]
  simp only [List.reverse_append, List.reverse_cons, List.reverse_nil, List.nil_append,
    List.singleton_append]
  exact editDistance_le_cons_right y _ _

theorem editDistance_append_same_le (xs ys zs : List Char) :
    editDistance (xs ++ zs) (ys ++ zs) ≤ editDistance xs ys := by
  have := editDistance_le_of_edit (Edit.append (edit_editDistance xs ys) (Edit.same zs))
  simpa using this

theorem take_succ_of_ge (s : List Char) (i : Nat) (h : s.length ≤ i) :
    s.take (i + 1) = s.take i := by
  rw [List.take_of_length_le h, List.take_of_length_le (by omega)]

theorem editDistance_take_right_succ (xs ys : List Char) (c : Nat) :
    editDistance xs (ys.take (c + 1)) ≤ editDistance xs (ys.take c) + 1 := by
  rcases Nat.lt_or_ge c ys.length with h | h
  · rw [take_succ_of_lt ys c h]; exact editDistance_snoc_right_le _ _ _
  · rw [take_succ_of_ge ys c h]; omega

theorem editDistance_take_left_succ (xs ys : List Char) (l : Nat) :
    editDistance (xs.take (l + 1)) ys ≤ editDistance (xs.take l) ys + 1 := by
  rcases Nat.lt_or_ge l xs.length with h | h
  · rw [take_succ_of_lt xs l h]; exact editDistance_snoc_left_le _ _ _
  · rw [take_succ_of_ge xs l h]; omega

theorem editDistance_take_both_succ (xs ys : List Char) (l c : Nat) :
    editDistance (xs.take (l + 1)) (ys.take (c + 1)) ≤ editDistance (xs.take l) (ys.take c) + 1 := by
  rcases Nat.lt_or_ge l xs.length with h | h
  · rcases Nat.lt_or_ge c ys.length with h' | h'
    · rw [take_succ_of_lt xs l h, take_succ_of_lt ys c h']
      have := editDistance_snoc_snoc_le (strAt xs l) (strAt ys c) (xs.take l) (ys.take c)
      have : (if strAt xs l = strAt ys c then 0 else 1) ≤ 1 := by split <;> omega
      omega
    · rw [take_succ_of_ge ys c h']; exact editDistance_take_left_succ _ _ _
  · rw [take_succ_of_ge xs l h]; exact editDistance_take_right_succ _ _ _

theorem editDistance_take_right_pred (xs ys : List Char) (c : Nat) :
    editDistance xs (ys.take c) ≤ editDistance xs (ys.take (c + 1)) + 1 := by
  rcases Nat.lt_or_ge c ys.length with h | h
  · rw [take_succ_of_lt ys c h]; exact editDistance_le_snoc_right _ _ _
  · rw [take_succ_of_ge ys c h]; omega

theorem editDistance_nil_take (ys : List Char) (k : Nat) : editDistance [] (ys.take k) ≤ k := by
  rw [editDistance_nil_left, List.length_take]; omega

theorem editDistance_take_extend (a b : List Char) (l c e : Nat)
    (h : (a.drop l).take e = (b.drop c).take e) :
    editDistance (a.take (l + e)) (b.take (c + e)) ≤ editDistance (a.take l) (b.take c) := by
  rw [List.take_add, List.take_add, h]
  exact editDistance_append_same_le _ _ _

/-! ## `outputSense` never accepts above the budget -/

theorem reached_mono {a b : List Char} {i v d1 d2 : Nat} (h : Reached a b i v d1) (hd : d1 ≤ d2) :
    Reached a b i v d2 := by
  obtain ⟨h1, h2, h3⟩ := h
  exact ⟨h1, h2, by omega⟩

theorem frontSound_mono {a b : List Char} {cur : List Nat} {d1 d2 : Nat}
    (h : FrontSound a b cur d1) (hd : d1 ≤ d2) : FrontSound a b cur d2 :=
  fun i v h1 h2 => reached_mono (h i v h1 h2) hd

theorem reachedClamped_zero (a b : List Char) (i d : Nat) (hi : i ≤ a.length + 1 + d) :
    ReachedClamped a b i 0 d := by
  refine ⟨by omega, ?_⟩
  intro h
  rw [Nat.zero_min]
  simp only [List.take_zero, Nat.add_zero]
  have := editDistance_nil_take b (i - (a.length + 1))
  omega

theorem reachedClamped_left (a b : List Char) (i p d : Nat) (hi : 1 ≤ i)
    (h : Reached a b (i - 1) p d) : ReachedClamped a b i p (d + 1) := by
  obtain ⟨h1, h2, h3⟩ := h
  refine ⟨by omega, ?_⟩
  intro _
  rw [Nat.min_eq_left h1]
  have e : i + p - (a.length + 1) = (i - 1 + p - (a.length + 1)) + 1 := by omega
  rw [e]
  have := editDistance_take_right_succ (a.take p) b (i - 1 + p - (a.length + 1))
  omega

theorem reachedClamped_right (a b : List Char) (i p d : Nat)
    (h : Reached a b (i + 1) p d) : ReachedClamped a b i (p + 1) (d + 1) := by
  obtain ⟨h1, h2, h3⟩ := h
  refine ⟨by omega, ?_⟩
  intro h4
  rcases Nat.lt_or_ge p a.length with hp | hp
  · rw [Nat.min_eq_left (by omega)]
    have e : i + (p + 1) - (a.length + 1) = i + 1 + p - (a.length + 1) := by omega
    rw [e]
    have := editDistance_take_left_succ a (b.take (i + 1 + p - (a.length + 1))) p
    omega
  · have hpm : p = a.length := by omega
    subst hpm
    rw [Nat.min_eq_right (by omega)] at h4 ⊢
    rcases Nat.lt_or_ge (i + a.length - (a.length + 1)) b.length with hc | hc
    · have e : i + 1 + a.length - (a.length + 1) = (i + a.length - (a.length + 1)) + 1 := by omega
      rw [e] at h3
      have := editDistance_take_right_pred (a.take a.length) b (i + a.length - (a.length + 1))
      omega
    · rw [List.take_of_length_le hc]
      rw [List.take_of_length_le (by omega : b.length ≤ i + 1 + a.length - (a.length + 1))] at h3
      omega

theorem reachedClamped_same (a b : List Char) (i p d : Nat)
    (h : Reached a b i p d) : ReachedClamped a b i (p + 1) (d + 1) := by
  obtain ⟨h1, h2, h3⟩ := h
  refine ⟨by omega, ?_⟩
  intro h4
  rcases Nat.lt_or_ge p a.length with hp | hp
  · rw [Nat.min_eq_left (by omega)]
    have e : i + (p + 1) - (a.length + 1) = (i + p - (a.length + 1)) + 1 := by omega
    rw [e]
    have := editDistance_take_both_succ a b p (i + p - (a.length + 1))
    omega
  · have hpm : p = a.length := by omega
    subst hpm
    rw [Nat.min_eq_right (by omega)]
    omega

theorem MAX_cases (x y : Nat) : MAX x y = x ∨ MAX x y = y := by
  unfold MAX; split <;> simp

theorem MAX_ge_left (x y : Nat) : x ≤ MAX x y := by
  unfold MAX; split <;> omega

theorem MAX_ge_right (x y : Nat) : y ≤ MAX x y := by
  unfold MAX; split <;> omega

theorem MIN_eq_min (x y : Nat) : MIN x y = min x y := by
  unfold MIN; split <;> omega

theorem u32_of_lt (x : Nat) (h : x < 4294967296) : u32 x = x := by
  unfold u32; exact Nat.mod_eq_of_lt h

theorem u32_add_wrap (x : Nat) (h : x < 4294967296) : u32 (x + 4294967296) = x := by
  unfold u32; omega

theorem u32_lt (x : Nat) : u32 x < 4294967296 := by
  unfold u32; omega

theorem vecSet_sound (a b : List Char) (cur cur1 : List Nat) (i x d : Nat)
    (h : FrontSound a b cur d) (hx : Reached a b i x d) (hs : vecSet cur i x = some cur1) :
    FrontSound a b cur1 d := by
  unfold vecSet at hs
  split at hs
  · cases hs
    intro j v hj hv
    rw [List.get?_eq_getElem?, List.getElem?_set] at hj
    split at hj
    · rename_i hij
      subst hij
      cases hj; exact hx
    · exact h j v (by rw [List.get?_eq_getElem?]; exact hj) hv
  · cases hs

theorem reachedClamped_of_entry_left (a b : List Char) (prev : List Nat) (i p d : Nat) (hi : 1 ≤ i)
    (hid : i ≤ a.length + 1 + (d + 1))
    (hprev : FrontSound a b prev d) (hp : vecAt prev (i - 1) = some p) :
    ReachedClamped a b i (if p ≠ UINT_MAX then p else 0) (d + 1) := by
  split
  · rename_i hne
    exact reachedClamped_left a b i p d hi (hprev (i - 1) p hp hne)
  · exact reachedClamped_zero a b i (d + 1) hid

theorem reachedClamped_of_entry_right (a b : List Char) (prev : List Nat) (i p d : Nat)
    (hid : i ≤ a.length + 1 + (d + 1))
    (hprev : FrontSound a b prev d) (hp : vecAt prev (i + 1) = some p) :
    ReachedClamped a b i (if p ≠ UINT_MAX then p + 1 else 0) (d + 1) := by
  split
  · rename_i hne
    exact reachedClamped_right a b i p d (hprev (i + 1) p hp hne)
  · exact reachedClamped_zero a b i (d + 1) hid

theorem reachedClamped_of_entry_same (a b : List Char) (prev : List Nat) (i p d : Nat)
    (hid : i ≤ a.length + 1 + (d + 1))
    (hprev : FrontSound a b prev d) (hp : vecAt prev i = some p) :
    ReachedClamped a b i (if p ≠ UINT_MAX then p + 1 else 0) (d + 1) := by
  split
  · rename_i hne
    exact reachedClamped_same a b i p d (hprev i p hp hne)
  · exact reachedClamped_zero a b i (d + 1) hid

theorem reachedClamped_MAX (a b : List Char) (i x y d : Nat)
    (hx : ReachedClamped a b i x d) (hy : ReachedClamped a b i y d) :
    ReachedClamped a b i (MAX x y) d := by
  rcases MAX_cases x y with h | h <;> rw [h] <;> assumption

theorem frontBody_sound (a b : List Char) (f f1 : frontMatrix) (i d : Nat)
    (hlen : a.length + b.length + 3 < 4294967296)
    (hoff : f.offset = a.length + 1)
    (hprev : FrontSound a b f.previous d) (hcur : FrontSound a b f.current (d + 1))
    (hi1 : 1 ≤ i) (hi2 : i ≤ a.length + 1 + (d + 1)) (hi3 : i ≤ a.length + b.length + 1)
    (hb : frontBody a b f i = some f1) :
    f1.offset = f.offset ∧ f1.previous = f.previous ∧ f1.d = f.d ∧
      FrontSound a b f1.current (d + 1) := by
  unfold frontBody at hb
  simp only [Option.bind_eq_bind, Option.bind_eq_some] at hb
  obtain ⟨p1, hp1, p2, hp2, p3, hp3, hb⟩ := hb
  have e1 : u32 (i + 4294967295) = i - 1 := by unfold u32; omega
  rw [e1] at hp1
  have hl := reachedClamped_MAX a b i _ _ (d + 1)
    (reachedClamped_MAX a b i _ _ (d + 1)
      (reachedClamped_of_entry_left a b f.previous i p1 d hi1 hi2 hprev hp1)
      (reachedClamped_of_entry_right a b f.previous i p2 d hi2 hprev hp2))
    (reachedClamped_of_entry_same a b f.previous i p3 d hi2 hprev hp3)
  generalize MAX (MAX (if p1 ≠ UINT_MAX then p1 else 0) (if p2 ≠ UINT_MAX then p2 + 1 else 0))
    (if p3 ≠ UINT_MAX then p3 + 1 else 0) = l at hl hb
  obtain ⟨hl1, hl2⟩ := hl
  split at hb
  · rename_i hge
    simp only [Option.bind_eq_some] at hb
    obtain ⟨cur, hset, hb⟩ := hb
    cases hb
    refine ⟨rfl, rfl, rfl, ?_⟩
    apply vecSet_sound a b f.current cur i a.length (d + 1) hcur _ hset
    rw [Nat.min_eq_right hge] at hl2
    exact ⟨le_refl _, by omega, hl2 (by omega)⟩
  · rename_i hlt
    split at hb
    · cases hb
      exact ⟨rfl, rfl, rfl, hcur⟩
    · rename_i hcol
      simp only [Option.bind_eq_some] at hb
      obtain ⟨sa, hsa, sb, hsb, e, he, cur, hset, hb⟩ := hb
      cases hb
      refine ⟨rfl, rfl, rfl, ?_⟩
      have hlm : l < a.length := by omega
      have hpos : a.length + 1 ≤ i + l := by
        by_contra hneg
        apply hcol
        rw [hoff]
        unfold u32
        omega
      have ecol : u32 (i + 4294967296 - f.offset + l) = i + l - (a.length + 1) := by
        rw [hoff]; unfold u32; omega
      rw [ecol] at hcol hsb
      have hsa' : sa = a.drop l := by
        unfold substr at hsa
        split at hsa
        · cases hsa; rfl
        · cases hsa
      have hsb' : sb = b.drop (i + l - (a.length + 1)) := by
        unfold substr at hsb
        split at hsb
        · cases hsb; rfl
        · cases hsb
      obtain ⟨r, hr1, hr2, hr3, hr4, _⟩ := lcp_spec sa sb
      rw [he] at hr1
      cases hr1
      rw [hsa', hsb'] at hr4
      rw [hsa', List.length_drop] at hr2
      apply vecSet_sound a b f.current cur i (l + e) (d + 1) hcur _ hset
      rw [Nat.min_eq_left (by omega)] at hl2
      refine ⟨by omega, by omega, ?_⟩
      have e2 : i + (l + e) - (a.length + 1) = (i + l - (a.length + 1)) + e := by omega
      rw [e2]
      have h5 := editDistance_take_extend a b l (i + l - (a.length + 1)) e hr4
      have h6 := hl2 hpos
      omega

theorem frontLoop_sound (a b : List Char) (d : Nat)
    (hlen : a.length + b.length + 3 < 4294967296) :
    ∀ (cnt i : Nat) (f f1 : frontMatrix), f.offset = a.length + 1 →
      FrontSound a b f.previous d → FrontSound a b f.current (d + 1) → 1 ≤ i →
      i + cnt ≤ a.length + 1 + (d + 1) + 1 → i + cnt ≤ a.length + b.length + 2 →
      frontLoop a b cnt i f = some f1 →
      f1.offset = f.offset ∧ f1.d = f.d ∧ FrontSound a b f1.current (d + 1) := by
  intro cnt
  induction cnt with
  | zero =>
    intro i f f1 _ _ hcur _ _ _ h
    rw [frontLoop] at h
    cases h
    exact ⟨rfl, rfl, hcur⟩
  | succ n ih =>
    intro i f f1 hoff hprev hcur hi1 hi2 hi3 h
    rw [frontLoop] at h
    split at h
    · cases h
    · rename_i f2 hf2
      obtain ⟨a1, a2, a3, a4⟩ := frontBody_sound a b f f2 i d hlen hoff hprev hcur hi1 (by omega)
        (by omega) hf2
      obtain ⟨b1, b2, b3⟩ := ih (i + 1) f2 f1 (by rw [a1, hoff]) (by rw [a2]; exact hprev) a4
        (by omega) (by omega) (by omega) h
      exact ⟨by rw [b1, a1], by rw [b2, a3], b3⟩

theorem front_sound (a b : List Char) (f f1 : frontMatrix) (d : Nat)
    (hlen : a.length + b.length + 3 < 4294967296)
    (hoff : f.offset = a.length + 1) (hd : f.d = d + 1) (hcur : FrontSound a b f.current d)
    (h : front a b f = some f1) :
    f1.offset = a.length + 1 ∧ f1.d = d + 1 ∧ FrontSound a b f1.current (d + 1) := by
  unfold front at h
  simp only [MIN_eq_min] at h
  have elo : u32 (f.offset + 4294967296 - min a.length f.d) = f.offset - min a.length f.d := by
    rw [hoff]; unfold u32; omega
  rw [elo] at h
  rw [hoff, hd] at h
  obtain ⟨b1, b2, b3⟩ := frontLoop_sound a b d hlen _ _
    { previous := f.current, current := f.current, offset := a.length + 1, d := d + 1 } f1 rfl
    hcur (frontSound_mono hcur (by omega)) (by omega) (by omega) (by omega) h
  exact ⟨b1, b2, b3⟩

theorem outputSenseLoop_sound (a b : List Char) (D : Nat)
    (hlen : a.length + b.length + 3 < 4294967296) :
    ∀ (fuel : Nat) (f : frontMatrix) (s : Int), f.offset = a.length + 1 → 1 ≤ f.d →
      FrontSound a b f.current (f.d - 1) →
      outputSenseLoop a b D fuel f = some (true, s) →
      (editDistance a b : Int) ≤ s ∧ s ≤ (D : Int) := by
  intro fuel
  induction fuel with
  | zero => intro f s _ _ _ h; simp [outputSenseLoop] at h
  | succ k ih =>
    intro f s hoff hd hcur h
    rw [outputSenseLoop] at h
    split at h
    · split at h
      · cases h
      · rename_i f1 hf1
        obtain ⟨a1, a2, a3⟩ := front_sound a b f f1 (f.d - 1) hlen hoff (by omega) hcur hf1
        split at h
        · cases h
        · rename_i x hx
          split at h
          · rename_i hxm
            split at h
            · rename_i hle
              simp only [Option.some.injEq, Prod.mk.injEq, true_and] at h
              have eidx : u32 (b.length + 4294967296 - a.length + f1.offset) = b.length + 1 := by
                rw [a1]; unfold u32; omega
              rw [eidx] at hx
              have hne : x ≠ UINT_MAX := by rw [hxm]; unfold UINT_MAX; omega
              obtain ⟨_, _, c3⟩ := a3 (b.length + 1) x hx hne
              rw [hxm] at c3
              have e : b.length + 1 + a.length - (a.length + 1) = b.length := by omega
              rw [e, List.take_length, List.take_length] at c3
              omega
            · simp at h
          · exact ih _ s (by simpa using a1) (by simp) (by simpa [a2] using a3) h
    · simp at h

theorem outputSense_sound (a b : List Char) (D : Nat) (s : Int)
    (hlen : a.length + b.length + 3 < 4294967296)
    (h : outputSense a b D = some (true, s)) :
    (editDistance a b : Int) ≤ s ∧ s ≤ (D : Int) := by
  unfold outputSense at h
  simp only [Option.bind_eq_bind, Option.bind_eq_some] at h
  obtain ⟨l0, hl0, cur, hcur, x, hx, h⟩ := h
  obtain ⟨r, hr1, hr2, hr3, hr4, _⟩ := lcp_spec a b
  rw [hl0] at hr1
  cases hr1
  have hsound : FrontSound a b cur 0 := by
    apply vecSet_sound a b _ cur (a.length + 1) l0 0 _ _ hcur
    · intro i v hi hv
      simp only [frontMatrix.init, List.get?_eq_getElem?] at hi
      rw [List.getElem?_replicate] at hi
      split at hi
      · cases hi; exact absurd rfl hv
      · cases hi
    · refine ⟨hr2, by omega, ?_⟩
      have e : a.length + 1 + l0 - (a.length + 1) = l0 := by omega
      rw [e, hr4, editDistance_self]
      omega
  have eidx : u32 (b.length + 4294967296 - a.length + (a.length + 1)) = b.length + 1 := by
    unfold u32; omega
  rw [eidx] at hx
  split at h
  · rename_i hxm
    simp only [Option.some.injEq, Prod.mk.injEq, true_and] at h
    have hne : x ≠ UINT_MAX := by rw [hxm]; unfold UINT_MAX; omega
    obtain ⟨_, _, c3⟩ := hsound (b.length + 1) x hx hne
    rw [hxm] at c3
    have e : b.length + 1 + a.length - (a.length + 1) = b.length := by omega
    rw [e, List.take_length, List.take_length] at c3
    omega
  · exact outputSenseLoop_sound a b D hlen _ _ s rfl (by simp) (by simpa using hsound) h


/-- Claim C2. Whenever `outputSense` returns `true`, the unit-cost Levenshtein distance
between the read and the pattern is at most the budget `D`; more precisely it is at
most the reported score, which is at most `D`. The lengths are those for which the
vector size `m+n+3` fits an `unsigned int`. -/
theorem outputSense_never_accepts_above_budget (sequence pattern : List Char) (D : Nat)
    (s : Int) (hlen : sequence.length + pattern.length + 3 < 4294967296)
    (h : outputSense sequence pattern D = some (true, s)) :
    editDistance sequence pattern ≤ D ∧ (editDistance sequence pattern : Int) ≤ s ∧
      s ≤ (D : Int) := by
  obtain ⟨h1, h2⟩ := outputSense_sound sequence pattern D s hlen h
  exact ⟨by omega, h1, h2⟩

/-- Witness of claim C2 at read `ACGG`, pattern `ACGT`, budget `1`. -/
theorem outputSense_never_accepts_above_budget_witness :
    editDistance ['A', 'C', 'G', 'G'] ['A', 'C', 'G', 'T'] ≤ 1 ∧
      (editDistance ['A', 'C', 'G', 'G'] ['A', 'C', 'G', 'T'] : Int) ≤ 1 ∧
      (1 : Int) ≤ ((1 : Nat) : Int) :=
  outputSense_never_accepts_above_budget ['A', 'C', 'G', 'G'] ['A', 'C', 'G', 'T'] 1 1
    (by decide) (by decide)

/-! ## The saturating add -/

theorem ullong_save_add_overflow (a b : Nat) (ha : a ≤ ULLONG_MAX) (hb : b ≤ ULLONG_MAX)
    (h : ULLONG_MAX < a + b) : ullong_save_add a b = (ULLONG_MAX, true) := by
  unfold ullong_save_add
  rw [if_pos]
  unfold ULLONG_MAX at *
  omega

/-- Claim C14. For 64-bit values `a` and `b` whose sum exceeds `ULLONG_MAX`,
`ullong_save_add` leaves `a` equal to `ULLONG_MAX` and writes the overflow
diagnostic; `a = ULLONG_MAX - 1`, `b = 5` gives `ULLONG_MAX`. -/
theorem ullong_save_add_clamps_on_overflow :
    (∀ a b : Nat, a ≤ ULLONG_MAX → b ≤ ULLONG_MAX → ULLONG_MAX < a + b →
      ullong_save_add a b = (ULLONG_MAX, true)) ∧
    ullong_save_add (ULLONG_MAX - 1) 5 = (ULLONG_MAX, true) :=
  ⟨ullong_save_add_overflow, by decide⟩

/-- Witness of claim C14 at `a = ULLONG_MAX - 1`, `b = 5`. -/
theorem ullong_save_add_clamps_on_overflow_witness :
    ullong_save_add 18446744073709551614 5 = (ULLONG_MAX, true) :=
  ullong_save_add_clamps_on_overflow.1 18446744073709551614 5 (by decide) (by decide) (by decide)

/-! ## `lcp` is the longest common prefix -/

theorem get?_eq_of_strAt_eq (a b : List Char) (i : Nat) (ha : i < a.length) (hb : i < b.length)
    (h : strAt a i = strAt b i) : a.get? i = b.get? i := by
  rw [strAt_of_lt a i ha, strAt_of_lt b i hb] at h
  simp only [List.get?_eq_getElem?, List.getElem?_eq_getElem ha, List.getElem?_eq_getElem hb, h]

theorem frontExtLoop_spec (sequence pattern : List Char) (patternStart : Nat) :
    ∀ (cnt i e : Nat), i + cnt = patternStart →
      frontExtLoop sequence pattern patternStart cnt i i = some e →
      i ≤ e ∧ e ≤ patternStart ∧
      (∀ k, i ≤ k → k < e →
        sequence.get? (patternStart - 1 - k) = pattern.get? (patternStart - 1 - k) ∧
        patternStart - 1 - k < sequence.length) ∧
      (e < patternStart → ∃ x y, sequence.get? (patternStart - 1 - e) = some x ∧
        pattern.get? (patternStart - 1 - e) = some y ∧ x ≠ y) := by
  intro cnt
  induction cnt with
  | zero =>
    intro i e h1 h2
    rw [frontExtLoop] at h2
    cases h2
    exact ⟨le_refl _, by omega, fun k hk1 hk2 => by omega, fun h => by omega⟩
  | succ n ih =>
    intro i e h1 h2
    rw [frontExtLoop] at h2
    unfold strAtChecked at h2
    split at h2
    · rename_i x y hx hy
      split at h2
      · rename_i hxy
        obtain ⟨a1, a2, a3, a4⟩ := ih (i + 1) e (by omega) h2
        refine ⟨by omega, a2, ?_, a4⟩
        intro k hk1 hk2
        rcases Nat.eq_or_lt_of_le hk1 with hk | hk
        · subst hk
          refine ⟨by rw [hx, hy, hxy], ?_⟩
          by_contra hlen
          rw [List.get?_eq_getElem?, List.getElem?_eq_none (by omega)] at hx
          cases hx
        · exact a3 k hk hk2
      · rename_i hxy
        cases h2
        exact ⟨le_refl _, by omega, fun k hk1 hk2 => by omega, fun _ => ⟨x, y, hx, hy, hxy⟩⟩
    · cases h2

theorem frontBarcodeMappingExtension_again (sequence pattern : List Char) (seq_start s2 : Int)
    (patternStart e : Nat)
    (h : frontBarcodeMappingExtension sequence pattern seq_start patternStart = some e) :
    frontBarcodeMappingExtension sequence pattern s2 (patternStart - e) = some 0 := by
  unfold frontBarcodeMappingExtension at h ⊢
  obtain ⟨_, a2, _, a4⟩ := frontExtLoop_spec sequence pattern patternStart patternStart 0 e
    (by omega) h
  rcases Nat.eq_or_lt_of_le a2 with h0 | h0
  · subst h0
    rw [Nat.sub_self]
    rfl
  · obtain ⟨x, y, hx, hy, hxy⟩ := a4 h0
    obtain ⟨c, hc⟩ : ∃ c, patternStart - e = c + 1 := ⟨patternStart - e - 1, by omega⟩
    rw [hc, frontExtLoop]
    have eidx : c + 1 - 1 - 0 = patternStart - 1 - e := by omega
    unfold strAtChecked
    rw [eidx, hx, hy]
    simp only [if_neg hxy]

theorem backBarcodeMappingExtension_again (read pattern : List Char) (seq_end patternEnd e : Nat)
    (h1 : seq_end ≤ read.length) (h2 : patternEnd ≤ pattern.length)
    (h : backBarcodeMappingExtension read pattern seq_end patternEnd = some e) :
    backBarcodeMappingExtension read pattern (seq_end + e) (patternEnd + e) = some 0 := by
  obtain ⟨e1, he1, _, he3, he4, _, he6⟩ :=
    backLoop_spec read pattern seq_end patternEnd (pattern.length - patternEnd) 0
      (by omega) (by omega)
  unfold backBarcodeMappingExtension at h
  rw [h] at he1
  cases he1
  obtain ⟨e2, hf1, _, hf3, hf4, hf5, _⟩ :=
    backLoop_spec read pattern (seq_end + e) (patternEnd + e) (pattern.length - (patternEnd + e)) 0
      (by omega) (by omega)
  unfold backBarcodeMappingExtension
  rw [hf1]
  congr 1
  by_contra hne
  have hpos : 0 < e2 := by omega
  have := hf5 0 (le_refl _) hpos
  simp only [Nat.add_zero] at this
  rcases he6 with h | h | h
  · omega
  · omega
  · exact h this

/-- Claim C13. Boundary extension is idempotent. When the forward extension returns `e`
at in-range boundaries, a second call at `seq_end + e`, `patternEnd + e` returns `0`;
when the backward extension returns `e`, a second call at `seq_start - e`,
`patternStart - e` returns `0`. -/
theorem boundary_extension_idempotent :
    (∀ (read pattern : List Char) (seq_end patternEnd e : Nat),
      seq_end ≤ read.length → patternEnd ≤ pattern.length →
      backBarcodeMappingExtension read pattern seq_end patternEnd = some e →
      backBarcodeMappingExtension read pattern (seq_end + e) (patternEnd + e) = some 0) ∧
    (∀ (read pattern : List Char) (seq_start : Int) (patternStart e : Nat),
      frontBarcodeMappingExtension read pattern seq_start patternStart = some e →
      frontBarcodeMappingExtension read pattern (seq_start - e) (patternStart - e) = some 0) :=
  ⟨backBarcodeMappingExtension_again,
    fun read pattern seq_start patternStart e h =>
      frontBarcodeMappingExtension_again read pattern seq_start (seq_start - e) patternStart e h⟩

/-- Witness of claim C13: the forward part at read `TTACGTTT`, pattern `ACGT`,
`seq_end = 2`, `patternEnd = 0`, and the backward part at read `ACGT`, pattern `ACGT`,
`seq_start = 2`, `patternStart = 2`. -/
theorem boundary_extension_idempotent_witness :
    backBarcodeMappingExtension ['T', 'T', 'A', 'C', 'G', 'T', 'T', 'T'] ['A', 'C', 'G', 'T']
        (2 + 4) (0 + 4) = some 0 ∧
    frontBarcodeMappingExtension ['A', 'C', 'G', 'T'] ['A', 'C', 'G', 'T'] (2 - (2 : Nat)) (2 - 2)
        = some 0 :=
  ⟨boundary_extension_idempotent.1 ['T', 'T', 'A', 'C', 'G', 'T', 'T', 'T'] ['A', 'C', 'G', 'T']
      2 0 4 (by decide) (by decide) (by decide),
    boundary_extension_idempotent.2 ['A', 'C', 'G', 'T'] ['A', 'C', 'G', 'T'] 2 2 2 (by decide)⟩

/-- Claim C11, the code at a failing input. For the read `TTACGT`, the pattern `ACGT`,
`seq_start = 3` and `patternStart = 1` the base just before the match, `read[2]`,
equals `pattern[0]`, so the claim gives the elongation `1`; the code compares
`sequence.at(0)` with `pattern.at(0)` and returns `0`. The result never depends on
`seq_start`. -/
theorem frontBarcodeMappingExtension_ignores_seq_start :
    ['T', 'T', 'A', 'C', 'G', 'T'].get? (3 - 1) = ['A', 'C', 'G', 'T'].get? (1 - 1) ∧
    frontBarcodeMappingExtension ['T', 'T', 'A', 'C', 'G', 'T'] ['A', 'C', 'G', 'T'] 3 1 = some 0 ∧
    (∀ (read pattern : List Char) (s1 s2 : Int) (patternStart : Nat),
      frontBarcodeMappingExtension read pattern s1 patternStart =
        frontBarcodeMappingExtension read pattern s2 patternStart) :=
  ⟨by decide, by decide, fun _ _ _ _ _ => rfl⟩

/-- Claim C12, the code at two failing inputs. For the read `AC`, the pattern `AC`,
`seq_start = 0` and `patternStart = 2` the backward elongation is `2`, more than
`seq_start`; for the read `A`, the pattern `AAA`, `seq_start = 1` and
`patternStart = 3` the call `sequence.at(2)` throws `std::out_of_range`. -/
theorem frontBarcodeMappingExtension_leaves_read :
    frontBarcodeMappingExtension ['A', 'C'] ['A', 'C'] 0 2 = some 2 ∧
    frontBarcodeMappingExtension ['A'] ['A', 'A', 'A'] 1 3 = none := by
  constructor <;> decide

/-! ## The tie-break of the matrix fill -/

theorem strAt_eq_iff_get?_eq (a b : List Char) (i j : Nat) (ha : i < a.length) (hb : j < b.length) :
    strAt a i = strAt b j ↔ a.get? i = b.get? j := by
  rw [strAt_of_lt a i ha, strAt_of_lt b j hb]
  simp only [List.get?_eq_getElem?, List.getElem?_eq_getElem ha, List.getElem?_eq_getElem hb,
    Option.some.injEq]

theorem fillMatrix_tie_break (sequence pattern : List Char) (D i j : Nat)
    (hi1 : 1 ≤ i) (hi2 : i ≤ sequence.length) (hj1 : 1 ≤ j) (hj2 : j ≤ pattern.length) :
    let dist := fillMatrix sequence pattern D false
    let del := (dist (i - 1) j).val + (if j = pattern.length then 0 else 1)
    let ins := (dist i (j - 1)).val + 1
    let sub := (dist (i - 1) (j - 1)).val +
      (if sequence.get? (i - 1) = pattern.get? (j - 1) then 0 else 1)
    (dist i j).val = min del (min ins sub) ∧
    (del ≤ ins ∧ del ≤ sub → (dist i j).i = (i : Int) - 1 ∧ (dist i j).j = (j : Int)) ∧
    (¬ (del ≤ ins ∧ del ≤ sub) → ins ≤ sub →
      (dist i j).i = (i : Int) ∧ (dist i j).j = (j : Int) - 1) ∧
    (¬ (del ≤ ins ∧ del ≤ sub) → ¬ ins ≤ sub →
      (dist i j).i = (i : Int) - 1 ∧ (dist i j).j = (j : Int) - 1) := by
  intro dist del ins sub
  have e0 : dist i j = cellSpec sequence pattern i j := fillMatrix_unpruned _ _ _ _ _ hi2 hj2
  have e1 : dist (i - 1) j = cellSpec sequence pattern (i - 1) j :=
    fillMatrix_unpruned _ _ _ _ _ (by omega) hj2
  have e2 : dist i (j - 1) = cellSpec sequence pattern i (j - 1) :=
    fillMatrix_unpruned _ _ _ _ _ hi2 (by omega)
  have e3 : dist (i - 1) (j - 1) = cellSpec sequence pattern (i - 1) (j - 1) :=
    fillMatrix_unpruned _ _ _ _ _ (by omega) (by omega)
  obtain ⟨i', rfl⟩ : ∃ i', i = i' + 1 := ⟨i - 1, by omega⟩
  obtain ⟨j', rfl⟩ : ∃ j', j = j' + 1 := ⟨j - 1, by omega⟩
  have hc := newCell_cases sequence pattern (i' + 1) (j' + 1) (cellSpec sequence pattern i' (j' + 1))
    (cellSpec sequence pattern (i' + 1) j') (cellSpec sequence pattern i' j')
  rw [← cellSpec_succ_succ] at hc
  have hsv : (if strAt sequence (i' + 1 - 1) = strAt pattern (j' + 1 - 1) then 0 else 1) =
      (if sequence.get? (i' + 1 - 1) = pattern.get? (j' + 1 - 1) then 0 else 1) := by
    simp only [strAt_eq_iff_get?_eq sequence pattern (i' + 1 - 1) (j' + 1 - 1) (by omega) (by omega)]
  simp only [hsv] at hc
  simp only [del, ins, sub, e0, e1, e2, e3]
  simp only [Nat.add_sub_cancel] at hc ⊢
  rcases hc with ⟨h1, h2, h⟩ | ⟨h1, h2, h⟩ | ⟨h1, h2, h⟩
  · rw [h]
    refine ⟨by dsimp only; omega, fun _ => ⟨rfl, rfl⟩, fun hn => absurd ⟨h1, h2⟩ hn,
      fun hn => absurd ⟨h1, h2⟩ hn⟩
  · rw [h]
    refine ⟨by dsimp only; omega, fun hd => absurd hd h1, fun _ _ => ⟨rfl, rfl⟩,
      fun _ hn => absurd h2 hn⟩
  · rw [h]
    refine ⟨by dsimp only; omega, fun hd => absurd hd h1, fun _ hn => absurd hn h2,
      fun _ _ => ⟨rfl, rfl⟩⟩

/-- Claim C17. In the fill without pruning, every cell `(i, j)` with `1 ≤ i ≤ ls` and
`1 ≤ j ≤ la` stores the least of the three candidate costs `del`, `ins`, `sub`, and
its predecessor is `(i-1, j)` whenever `del` is a minimum, otherwise `(i, j-1)`
whenever `ins ≤ sub`, otherwise `(i-1, j-1)`. -/
theorem levenshtein_fill_tie_break_order (sequence pattern : List Char) (D i j : Nat)
    (del ins sub : Nat)
    (hi1 : 1 ≤ i) (hi2 : i ≤ sequence.length) (hj1 : 1 ≤ j) (hj2 : j ≤ pattern.length)
    (hdel : del = (fillMatrix sequence pattern D false (i - 1) j).val +
      (if j = pattern.length then 0 else 1))
    (hins : ins = (fillMatrix sequence pattern D false i (j - 1)).val + 1)
    (hsub : sub = (fillMatrix sequence pattern D false (i - 1) (j - 1)).val +
      (if sequence.get? (i - 1) = pattern.get? (j - 1) then 0 else 1)) :
    (fillMatrix sequence pattern D false i j).val = min del (min ins sub) ∧
    (del ≤ ins ∧ del ≤ sub →
      (fillMatrix sequence pattern D false i j).i = (i : Int) - 1 ∧
      (fillMatrix sequence pattern D false i j).j = (j : Int)) ∧
    (¬ (del ≤ ins ∧ del ≤ sub) → ins ≤ sub →
      (fillMatrix sequence pattern D false i j).i = (i : Int) ∧
      (fillMatrix sequence pattern D false i j).j = (j : Int) - 1) ∧
    (¬ (del ≤ ins ∧ del ≤ sub) → ¬ ins ≤ sub →
      (fillMatrix sequence pattern D false i j).i = (i : Int) - 1 ∧
      (fillMatrix sequence pattern D false i j).j = (j : Int) - 1) := by
  subst hdel hins hsub
  exact fillMatrix_tie_break sequence pattern D i j hi1 hi2 hj1 hj2

/-- Witness of claim C17 at read `C`, pattern `A`, budget `1`, cell `(1, 1)`, where
the three candidate costs are all `1` and the deletion wins the tie. -/
theorem levenshtein_fill_tie_break_order_witness :
    (fillMatrix ['C'] ['A'] 1 false 1 1).val = min 1 (min 1 1) ∧
    (1 ≤ 1 ∧ 1 ≤ 1 →
      (fillMatrix ['C'] ['A'] 1 false 1 1).i = ((1 : Nat) : Int) - 1 ∧
      (fillMatrix ['C'] ['A'] 1 false 1 1).j = ((1 : Nat) : Int)) ∧
    (¬ (1 ≤ 1 ∧ 1 ≤ 1) → 1 ≤ 1 →
      (fillMatrix ['C'] ['A'] 1 false 1 1).i = ((1 : Nat) : Int) ∧
      (fillMatrix ['C'] ['A'] 1 false 1 1).j = ((1 : Nat) : Int) - 1) ∧
    (¬ (1 ≤ 1 ∧ 1 ≤ 1) → ¬ 1 ≤ 1 →
      (fillMatrix ['C'] ['A'] 1 false 1 1).i = ((1 : Nat) : Int) - 1 ∧
      (fillMatrix ['C'] ['A'] 1 false 1 1).j = ((1 : Nat) : Int) - 1) :=
  levenshtein_fill_tie_break_order ['C'] ['A'] 1 1 1 1 1 1 (by decide) (by decide) (by decide)
    (by decide) (by decide) (by decide) (by decide)

/-! ## `outputSense` with the budget `0` -/

theorem MIN_zero_right (x : Nat) : MIN x 0 = 0 := by
  unfold MIN; split <;> omega

theorem outputSense_budget_zero (sequence pattern : List Char)
    (hlen : sequence.length + pattern.length + 3 < 4294967296) :
    outputSense sequence pattern 0 = if sequence = pattern then some (true, 0) else some (false, 1) := by
  obtain ⟨l0, h1, h2, h3, h4, h5⟩ := lcp_spec sequence pattern
  unfold outputSense
  simp only [Option.bind_eq_bind, h1, Option.some_bind]
  have hset : vecSet (frontMatrix.init sequence.length pattern.length).current (sequence.length + 1) l0
      = some ((frontMatrix.init sequence.length pattern.length).current.set (sequence.length + 1) l0) := by
    unfold vecSet
    rw [if_pos]
    simp only [frontMatrix.init, List.length_replicate]
    omega
  rw [hset]
  simp only [Option.some_bind]
  have eidx : u32 (pattern.length + 4294967296 - sequence.length + (sequence.length + 1))
      = pattern.length + 1 := by
    unfold u32; omega
  rw [eidx]
  have hat : vecAt ((frontMatrix.init sequence.length pattern.length).current.set
      (sequence.length + 1) l0) (pattern.length + 1) =
      some (if sequence.length = pattern.length then l0 else UINT_MAX) := by
    unfold vecAt
    rw [List.get?_eq_getElem?, List.getElem?_set]
    simp only [frontMatrix.init, List.length_replicate]
    by_cases hmn : sequence.length = pattern.length
    · rw [if_pos (by omega), if_pos (by omega), if_pos hmn]
    · rw [if_neg (by omega), if_neg hmn, List.getElem?_replicate, if_pos (by omega)]
  rw [hat]
  simp only [Option.some_bind]
  by_cases heq : sequence = pattern
  · subst heq
    have hl0 : l0 = sequence.length := by
      by_contra hne
      exact h5 (by omega) (by omega) rfl
    simp [hl0]
  · rw [if_neg heq]
    have hx : ¬ (if sequence.length = pattern.length then l0 else UINT_MAX) = sequence.length := by
      by_cases hmn : sequence.length = pattern.length
      · rw [if_pos hmn]
        intro hl
        apply heq
        have e1 : List.take l0 sequence = sequence := List.take_of_length_le (by omega)
        have e2 : List.take l0 pattern = pattern := List.take_of_length_le (by omega)
        rw [← e1, ← e2]
        exact h4
      · rw [if_neg hmn]
        unfold UINT_MAX
        omega
    rw [if_neg hx, MIN_zero_right]
    rw [outputSenseLoop]
    simp only [MIN_zero_right]
    rw [if_neg (by omega)]
    rfl

/-- Claim C19. With the budget `0`, `outputSense` returns `true` with the score `0` when
the read and the pattern are the same string, and `false` with the score `1`
otherwise; so it returns `true` if and only if they are equal. The lengths are those
for which the vector size `m+n+3` fits an `unsigned int`. -/
theorem outputSense_budget_zero_is_equality (sequence pattern : List Char)
    (hlen : sequence.length + pattern.length + 3 < 4294967296) :
    (sequence = pattern → outputSense sequence pattern 0 = some (true, 0)) ∧
    (sequence ≠ pattern → outputSense sequence pattern 0 = some (false, 1)) ∧
    (outputSense sequence pattern 0 = some (true, 0) ↔ sequence = pattern) := by
  have h := outputSense_budget_zero sequence pattern hlen
  by_cases heq : sequence = pattern
  · rw [if_pos heq] at h
    exact ⟨fun _ => h, fun hne => absurd heq hne, fun _ => heq, fun _ => h⟩
  · rw [if_neg heq] at h
    refine ⟨fun he => absurd he heq, fun _ => h, fun ht => ?_, fun he => absurd he heq⟩
    rw [h] at ht
    simp at ht

/-- Witness of claim C19 at read `ACGG`, pattern `ACGT`. -/
theorem outputSense_budget_zero_is_equality_witness :
    ((['A', 'C', 'G', 'G'] : List Char) = ['A', 'C', 'G', 'T'] →
      outputSense ['A', 'C', 'G', 'G'] ['A', 'C', 'G', 'T'] 0 = some (true, 0)) ∧
    ((['A', 'C', 'G', 'G'] : List Char) ≠ ['A', 'C', 'G', 'T'] →
      outputSense ['A', 'C', 'G', 'G'] ['A', 'C', 'G', 'T'] 0 = some (false, 1)) ∧
    (outputSense ['A', 'C', 'G', 'G'] ['A', 'C', 'G', 'T'] 0 = some (true, 0) ↔
      (['A', 'C', 'G', 'G'] : List Char) = ['A', 'C', 'G', 'T']) :=
  outputSense_budget_zero_is_equality ['A', 'C', 'G', 'G'] ['A', 'C', 'G', 'T'] (by decide)

/-! ## `outputSense` always returns -/

theorem vecAt_of_lt (v : List Nat) (i : Nat) (h : i < v.length) : ∃ x, vecAt v i = some x := by
  unfold vecAt
  exact ⟨v[i], by rw [List.get?_eq_getElem?, List.getElem?_eq_getElem h]⟩

theorem vecSet_of_lt (v : List Nat) (i x : Nat) (h : i < v.length) :
    vecSet v i x = some (v.set i x) := by
  unfold vecSet
  rw [if_pos h]

theorem substr_of_le (s : List Char) (pos : Nat) (h : pos ≤ s.length) :
    substr s pos = some (s.drop pos) := by
  unfold substr
  rw [if_pos h]

theorem frontBody_total (a b : List Char) (f : frontMatrix) (i : Nat)
    (hlen : a.length + b.length + 3 < 4294967296)
    (hp : f.previous.length = a.length + b.length + 3)
    (hc : f.current.length = a.length + b.length + 3)
    (hi1 : 1 ≤ i) (hi2 : i ≤ a.length + b.length + 1) :
    ∃ f1, frontBody a b f i = some f1 ∧ f1.previous = f.previous ∧
      f1.current.length = f.current.length ∧ f1.offset = f.offset ∧ f1.d = f.d := by
  have e1 : u32 (i + 4294967295) = i - 1 := by unfold u32; omega
  obtain ⟨p1, hp1⟩ := vecAt_of_lt f.previous (i - 1) (by omega)
  obtain ⟨p2, hp2⟩ := vecAt_of_lt f.previous (i + 1) (by omega)
  obtain ⟨p3, hp3⟩ := vecAt_of_lt f.previous i (by omega)
  unfold frontBody
  simp only [e1, hp1, hp2, hp3, Option.bind_eq_bind, Option.some_bind]
  generalize MAX (MAX (if p1 ≠ UINT_MAX then p1 else 0) (if p2 ≠ UINT_MAX then p2 + 1 else 0))
    (if p3 ≠ UINT_MAX then p3 + 1 else 0) = l
  split
  · rw [vecSet_of_lt f.current i a.length (by omega)]
    exact ⟨_, rfl, rfl, by simp, rfl, rfl⟩
  · rename_i hl
    split
    · exact ⟨_, rfl, rfl, rfl, rfl, rfl⟩
    · rename_i hcol
      rw [substr_of_le a l (by omega), substr_of_le b _ (by omega)]
      simp only [Option.some_bind]
      obtain ⟨e, he, _⟩ := lcp_spec (a.drop l) (b.drop (u32 (i + 4294967296 - f.offset + l)))
      rw [he]
      simp only [Option.some_bind]
      rw [vecSet_of_lt f.current i (l + e) (by omega)]
      exact ⟨_, rfl, rfl, by simp, rfl, rfl⟩

theorem frontLoop_total (a b : List Char) (hlen : a.length + b.length + 3 < 4294967296) :
    ∀ (cnt i : Nat) (f : frontMatrix), f.previous.length = a.length + b.length + 3 →
      f.current.length = a.length + b.length + 3 → 1 ≤ i → i + cnt ≤ a.length + b.length + 2 →
      ∃ f1, frontLoop a b cnt i f = some f1 ∧
        f1.current.length = a.length + b.length + 3 ∧ f1.offset = f.offset ∧ f1.d = f.d := by
  intro cnt
  induction cnt with
  | zero => intro i f _ hc _ _; exact ⟨f, rfl, hc, rfl, rfl⟩
  | succ n ih =>
    intro i f hp hc hi1 hi2
    obtain ⟨f1, h1, h2, h3, h4, h5⟩ := frontBody_total a b f i hlen hp hc hi1 (by omega)
    rw [frontLoop, h1]
    obtain ⟨f2, g1, g2, g3, g4⟩ := ih (i + 1) f1 (by rw [h2]; exact hp) (by rw [h3]; exact hc)
      (by omega) (by omega)
    exact ⟨f2, g1, g2, by rw [g3, h4], by rw [g4, h5]⟩

theorem front_total (a b : List Char) (f : frontMatrix)
    (hlen : a.length + b.length + 3 < 4294967296)
    (hc : f.current.length = a.length + b.length + 3) (hoff : f.offset = a.length + 1) :
    ∃ f1, front a b f = some f1 ∧ f1.current.length = a.length + b.length + 3 ∧
      f1.offset = a.length + 1 ∧ f1.d = f.d := by
  unfold front
  simp only [MIN_eq_min]
  have elo : u32 (f.offset + 4294967296 - min a.length f.d) = f.offset - min a.length f.d := by
    rw [hoff]; unfold u32; omega
  rw [elo]
  obtain ⟨f1, h1, h2, h3, h4⟩ := frontLoop_total a b hlen
    (f.offset + min b.length f.d + 1 - (f.offset - min a.length f.d))
    (f.offset - min a.length f.d)
    { previous := f.current, current := f.current, offset := f.offset, d := f.d }
    hc hc (by rw [hoff]; omega) (by rw [hoff]; omega)
  exact ⟨f1, h1, h2, by rw [h3]; exact hoff, h4⟩

theorem outputSenseLoop_total (a b : List Char) (D : Nat)
    (hlen : a.length + b.length + 3 < 4294967296) :
    ∀ (fuel : Nat) (f : frontMatrix), f.current.length = a.length + b.length + 3 →
      f.offset = a.length + 1 → MIN (MAX a.length b.length) D + 2 ≤ f.d + fuel →
      f.d ≤ MIN (MAX a.length b.length) D + 1 →
      ∃ r, outputSenseLoop a b D fuel f = some r ∧
        (r.1 = true → r.2 ≤ (MIN (MAX a.length b.length) D : Nat)) := by
  intro fuel
  induction fuel with
  | zero =>
    intro f hc hoff hd hd2
    omega
  | succ k ih =>
    intro f hc hoff hd hd2
    rw [outputSenseLoop]
    split
    · rename_i hle
      obtain ⟨f1, h1, h2, h3, h4⟩ := front_total a b f hlen hc hoff
      rw [h1]
      dsimp only
      have eidx : u32 (b.length + 4294967296 - a.length + f1.offset) = b.length + 1 := by
        rw [h3]; unfold u32; omega
      rw [eidx]
      obtain ⟨x, hx⟩ := vecAt_of_lt f1.current (b.length + 1) (by omega)
      rw [hx]
      dsimp only
      split
      · split
        · exact ⟨_, rfl, fun _ => by dsimp only; omega⟩
        · exact ⟨_, rfl, fun h => by simp at h⟩
      · exact ih _ h2 h3 (by dsimp only; omega) (by dsimp only; omega)
    · exact ⟨_, rfl, fun h => by simp at h⟩

theorem outputSense_total (a b : List Char) (D : Nat)
    (hlen : a.length + b.length + 3 < 4294967296) :
    ∃ r, outputSense a b D = some r ∧
      (r.1 = true → r.2 ≤ (MIN (MAX a.length b.length) D : Nat)) := by
  obtain ⟨l0, h1, _⟩ := lcp_spec a b
  unfold outputSense
  simp only [Option.bind_eq_bind, h1, Option.some_bind]
  rw [vecSet_of_lt _ _ _ (by simp only [frontMatrix.init, List.length_replicate]; omega)]
  simp only [Option.some_bind]
  have eidx : u32 (b.length + 4294967296 - a.length + (a.length + 1)) = b.length + 1 := by
    unfold u32; omega
  rw [eidx]
  obtain ⟨x, hx⟩ := vecAt_of_lt ((frontMatrix.init a.length b.length).current.set (a.length + 1) l0)
    (b.length + 1) (by simp only [frontMatrix.init, List.length_set, List.length_replicate]; omega)
  rw [hx]
  simp only [Option.some_bind]
  split
  · exact ⟨_, rfl, fun _ => by dsimp only; omega⟩
  · exact outputSenseLoop_total a b D hlen _ _
      (by simp only [frontMatrix.init, List.length_set, List.length_replicate]) rfl
      (by dsimp only; omega) (by dsimp only; omega)

/-- Claim C16. For every read and pattern (empty ones included) and every budget `D`,
`outputSense` returns: no `at` or `substr` call is out of range, and the round loop
ends within `min(max(m, n), D)` rounds, the fuel its embedding is given; an accepting
run reports a round number within that bound. The lengths are those for which the
vector size `m+n+3` fits an `unsigned int`. -/
theorem outputSense_never_throws (sequence pattern : List Char) (D : Nat)
    (hlen : sequence.length + pattern.length + 3 < 4294967296) :
    ∃ (ret : Bool) (score : Int), outputSense sequence pattern D = some (ret, score) ∧
      (ret = true → score ≤ (MIN (MAX sequence.length pattern.length) D : Nat)) := by
  obtain ⟨r, h1, h2⟩ := outputSense_total sequence pattern D hlen
  exact ⟨r.1, r.2, h1, h2⟩

/-- Witness of claim C16 at the empty read, the pattern `A` and the budget `5`. -/
theorem outputSense_never_throws_witness :
    ∃ (ret : Bool) (score : Int), outputSense [] ['A'] 5 = some (ret, score) ∧
      (ret = true → score ≤ (MIN (MAX ([] : List Char).length ['A'].length) 5 : Nat)) :=
  outputSense_never_throws [] ['A'] 5 (by decide)

/-! ## The boundaries the walk reports -/

theorem walk_step_plain (dist : Matrix) (la f i j v : Nat) (iN jN : Int) (ne : Bool)
    (st en sp ep : Option Int)
    (hcell : dist (i + 1) (j + 1) = ⟨v, iN, jN⟩)
    (hne : (dist iN.toNat jN.toNat).val ≠ v) :
    walk dist la (f + 1) ⟨((i + 1 : Nat) : Int), ((j + 1 : Nat) : Int), ne, st, en, sp, ep⟩ =
      walk dist la f ⟨iN, jN, ne, st, en, sp, ep⟩ := by
  rw [walk]
  have e1 : (((i + 1 : Nat) : Int)).toNat = i + 1 := Int.toNat_natCast _
  have e2 : (((j + 1 : Nat) : Int)).toNat = j + 1 := Int.toNat_natCast _
  have c1 : ((j + 1 : Nat) : Int) ≠ 0 := by omega
  have c2 : ((i + 1 : Nat) : Int) ≠ 0 := by omega
  rw [if_pos ⟨c1, c2⟩]
  simp only [e1, e2, hcell]
  have hne' : ¬ v = (dist iN.toNat jN.toNat).val := fun h => hne h.symm
  simp [hne']

theorem walk_preserves_inv (sequence pattern : List Char) (dist : Matrix)
    (hd : ∀ r c, r ≤ sequence.length → c ≤ pattern.length → dist r c = cellSpec sequence pattern r c) :
    ∀ (fuel : Nat) (s w : WalkState), WalkInv sequence pattern s →
      walk dist pattern.length fuel s = some w → WalkInv sequence pattern w := by
  intro fuel
  induction fuel with
  | zero => intro s w _ h; simp [walk] at h
  | succ n ih =>
    intro s w hinv h
    obtain ⟨si, sj, ne, st, en, sp, ep⟩ := s
    obtain ⟨b1, b2, b3, b4, b5⟩ := hinv
    dsimp only at b1 b2 b3 b4 b5
    by_cases hz : sj ≠ 0 ∧ si ≠ 0
    · obtain ⟨i', hi'⟩ : ∃ i' : Nat, si = ((i' + 1 : Nat) : Int) := ⟨si.toNat - 1, by omega⟩
      obtain ⟨j', hj'⟩ : ∃ j' : Nat, sj = ((j' + 1 : Nat) : Int) := ⟨sj.toNat - 1, by omega⟩
      subst hi'; subst hj'
      have hi2 : i' + 1 ≤ sequence.length := by omega
      have hj2 : j' + 1 ≤ pattern.length := by omega
      have hcs := cellSpec_succ_cases sequence pattern i' j'
      dsimp only at hcs
      have hpos : ∀ (iN jN : Int), 0 ≤ iN → iN ≤ ((i' + 1 : Nat) : Int) → 0 ≤ jN →
          jN ≤ ((j' + 1 : Nat) : Int) →
          walk dist pattern.length n ⟨iN, jN, ne, st, en, sp, ep⟩ = some w →
          WalkInv sequence pattern w := by
        intro iN jN g1 g2 g3 g4 hw
        apply ih _ w _ hw
        refine ⟨g1, by dsimp only; omega, g3, by dsimp only; omega, ?_⟩
        rcases b5 with b5 | ⟨c1, st0, en0, p0, q0, c2, c3, c4, c5, c6, c7, c8, c9, c10, c11, c12, c13⟩
        · exact Or.inl b5
        · exact Or.inr ⟨c1, st0, en0, p0, q0, c2, c3, c4, c5, by dsimp only; omega, c7, c8,
            by dsimp only; omega, c10, c11, c12, c13⟩
      rcases hcs with ⟨_, _, hc⟩ | ⟨_, _, hc⟩ | ⟨_, _, hc⟩
      · -- deletion from the read
        have hcell : dist (i' + 1) (j' + 1) = _ := (hd _ _ hi2 hj2).trans hc
        by_cases hl : j' + 1 = pattern.length
        · rw [walk_step_del dist pattern.length n i' j' _ ne st en sp ep hcell (by omega)] at h
          exact hpos _ _ (by omega) (by omega) (by omega) (by omega) h
        · rw [walk_step_plain dist pattern.length n i' j' _ _ _ ne st en sp ep hcell
            (by
              rw [Int.toNat_natCast, Int.toNat_natCast, hd _ _ (by omega) hj2, if_neg hl]
              omega)] at h
          exact hpos _ _ (by omega) (by omega) (by omega) (by omega) h
      · -- insertion into the read
        have hcell : dist (i' + 1) (j' + 1) = _ := (hd _ _ hi2 hj2).trans hc
        rw [walk_step_plain dist pattern.length n i' j' _ _ _ ne st en sp ep hcell
          (by
            rw [Int.toNat_natCast, Int.toNat_natCast, hd _ _ hi2 (by omega)]
            omega)] at h
        exact hpos _ _ (by omega) (by omega) (by omega) (by omega) h
      · -- substitution or match
        have hcell : dist (i' + 1) (j' + 1) = _ := (hd _ _ hi2 hj2).trans hc
        by_cases hm : strAt sequence i' = strAt pattern j'
        · rw [if_pos hm] at hcell
          rw [walk_step_diag dist pattern.length n i' j' _ ne st en sp ep hcell
            (by rw [hd _ _ (by omega) (by omega)]; rfl) (by omega)] at h
          apply ih _ w _ h
          have hchar : sequence.get? (i' + 1 - 1) = pattern.get? (j' + 1 - 1) :=
            (strAt_eq_iff_get?_eq sequence pattern i' j' (by omega) (by omega)).1 hm
          refine ⟨by dsimp only; omega, by dsimp only; omega, by dsimp only; omega,
            by dsimp only; omega, Or.inr ⟨rfl, ?_⟩⟩
          rcases b5 with ⟨c1, _, _, _, _⟩ |
            ⟨c1, st0, en0, p0, q0, c2, c3, c4, c5, c6, c7, c8, c9, c10, c11, c12, c13⟩
          · refine ⟨i' + 1, i' + 1, j' + 1, j' + 1, rfl, ?_, rfl, ?_, ?_⟩
            · simp only [c1, if_true]
            · simp only [c1, if_true]
            · dsimp only
              exact ⟨by omega, le_refl _, by omega, by omega, le_refl _, by omega, hchar, hchar⟩
          · refine ⟨i' + 1, en0, j' + 1, q0, rfl, ?_, rfl, ?_, ?_⟩
            · simp only [c1, Bool.false_eq_true, if_false]; exact c3
            · simp only [c1, Bool.false_eq_true, if_false]; exact c5
            · dsimp only
              exact ⟨by omega, by omega, c8, by omega, by omega, c11, hchar, c13⟩
        · rw [if_neg hm] at hcell
          rw [walk_step_plain dist pattern.length n i' j' _ _ _ ne st en sp ep hcell
            (by
              rw [Int.toNat_natCast, Int.toNat_natCast, hd _ _ (by omega) (by omega)]
              omega)] at h
          exact hpos _ _ (by omega) (by omega) (by omega) (by omega) h
    · rw [walk, if_neg hz] at h
      cases h
      exact ⟨b1, b2, b3, b4, b5⟩

theorem levenshtein_accept_boundaries (sequence pattern : List Char) (D : Nat) (r : LevResult)
    (h : levenshtein sequence pattern D false = some r) (hret : r.ret = true) :
    ∃ ms me sp ep : Nat, r.match_start = some (ms : Int) ∧ r.match_end = some (me : Int) ∧
      r.startInPattern = some (sp : Int) ∧ r.endInPattern = some (ep : Int) ∧
      ms < me ∧ me ≤ sequence.length ∧ sp < ep ∧ ep ≤ pattern.length ∧
      sequence.get? ms = pattern.get? sp ∧ sequence.get? (me - 1) = pattern.get? (ep - 1) := by
  unfold levenshtein at h
  simp only [Bool.false_and, Bool.false_eq_true, if_false] at h
  split at h
  · cases h
  · rename_i w hw
    have hinv := walk_preserves_inv sequence pattern (fillMatrix sequence pattern D false)
      (fun r c hr hc => fillMatrix_unpruned sequence pattern D r c hr hc) _ _ w
      (by
        refine ⟨by dsimp only; omega, by dsimp only; omega, by dsimp only; omega,
          by dsimp only; omega, Or.inl ⟨rfl, rfl, rfl, rfl, rfl⟩⟩) hw
    split at h
    · obtain ⟨b1, b2, b3, b4, b5⟩ := hinv
      rcases b5 with ⟨_, c2, c3, c4, c5⟩ |
        ⟨c1, st0, en0, p0, q0, c2, c3, c4, c5, c6, c7, c8, c9, c10, c11, c12, c13⟩
      · simp only [c2] at h
        cases h
      · simp only [c2, c3, c4, c5] at h
        have g1 : (st0 : Int) ≠ 0 := by omega
        have g2 : (p0 : Int) ≠ 0 := by omega
        rw [if_pos ⟨g1, g2⟩] at h
        cases h
        refine ⟨st0 - 1, en0, p0 - 1, q0, ?_, rfl, ?_, rfl, by omega, c8, by omega, c11, c12, c13⟩
        · dsimp only
          congr 1
          omega
        · dsimp only
          congr 1
          omega
    · cases h
      simp at hret

/-- Claim C20. When `levenshtein` without pruning returns `true` and its walk has
assigned any of the four boundaries, it has assigned all four, and
`0 ≤ match_start < match_end ≤ |read|` and
`0 ≤ startInPattern < endInPattern ≤ |pattern|`; in particular `start = match_start + 1`
and the pattern start before its decrement are not `0`, which is what the two `assert`s
test. -/
theorem levenshtein_boundaries_are_ordered (sequence pattern : List Char) (D : Nat)
    (r : LevResult) (h : levenshtein sequence pattern D false = some r) (hret : r.ret = true)
    (hstep : r.match_start ≠ none ∨ r.match_end ≠ none ∨ r.startInPattern ≠ none ∨
      r.endInPattern ≠ none) :
    ∃ ms me sp ep : Int,
      r.match_start = some ms ∧ r.match_end = some me ∧
      r.startInPattern = some sp ∧ r.endInPattern = some ep ∧
      0 ≤ ms ∧ ms < me ∧ me ≤ sequence.length ∧
      0 ≤ sp ∧ sp < ep ∧ ep ≤ pattern.length ∧
      ms + 1 ≠ 0 ∧ sp + 1 ≠ 0 := by
  obtain ⟨ms, me, sp, ep, a1, a2, a3, a4, a5, a6, a7, a8, _, _⟩ :=
    levenshtein_accept_boundaries sequence pattern D r h hret
  exact ⟨ms, me, sp, ep, a1, a2, a3, a4, by omega, by omega, by omega, by omega, by omega,
    by omega, by omega, by omega⟩

/-- Witness of claim C20 at read `A`, pattern `A`, budget `0`. -/
theorem levenshtein_boundaries_are_ordered_witness :
    ∃ ms me sp ep : Int,
      (⟨true, some 0, some 0, some 1, some 0, some 1⟩ : LevResult).match_start = some ms ∧
      (⟨true, some 0, some 0, some 1, some 0, some 1⟩ : LevResult).match_end = some me ∧
      (⟨true, some 0, some 0, some 1, some 0, some 1⟩ : LevResult).startInPattern = some sp ∧
      (⟨true, some 0, some 0, some 1, some 0, some 1⟩ : LevResult).endInPattern = some ep ∧
      0 ≤ ms ∧ ms < me ∧ me ≤ (['A'] : List Char).length ∧
      0 ≤ sp ∧ sp < ep ∧ ep ≤ (['A'] : List Char).length ∧
      ms + 1 ≠ 0 ∧ sp + 1 ≠ 0 :=
  levenshtein_boundaries_are_ordered ['A'] ['A'] 0
    ⟨true, some 0, some 0, some 1, some 0, some 1⟩ (by decide) rfl (Or.inl (by decide))

/-! ## The earliest verbatim occurrence -/

theorem levenshtein_earliest_end (read P : List Char) (D e : Nat)
    (hP : P ≠ []) (he : e ≤ read.length) (hlen : P.length ≤ e)
    (hocc : (read.take e).drop (e - P.length) = P)
    (hmin : ∀ e1, e1 < e → P.length ≤ e1 → (read.take e1).drop (e1 - P.length) ≠ P) :
    levenshtein read P D false =
      some ⟨true, some 0, some ((e : Int) - (P.length : Int)), some (e : Int), some 0,
        some (P.length : Int)⟩ := by
  have hpos : 1 ≤ P.length := by
    cases P with
    | nil => exact absurd rfl hP
    | cons x xs => simp
  have h1 : P <:+: read.take e := by
    have := (List.drop_suffix (e - P.length) (read.take e)).isInfix
    rw [hocc] at this
    exact this
  have h2 : ¬ P <:+: read.take (e - 1) := by
    intro hin
    obtain ⟨s, e1, a1, a2, a3⟩ := isInfix_eq_slice P (read.take (e - 1)) hin
    rw [List.length_take] at a2
    rw [List.take_take, Nat.min_eq_left (by omega)] at a3
    have hl : P.length = e1 - s := by
      rw [a3, List.length_drop, List.length_take, Nat.min_eq_left (by omega)]
    have hs : s = e1 - P.length := by omega
    apply hmin e1 (by omega) (by omega)
    rw [← hs]
    exact a3.symm
  exact (levenshtein_first_occurrence read P D e hP he h1 h2).2

theorem exists_earliest_end (read P : List Char) (h : P <:+: read) :
    ∃ e, e ≤ read.length ∧ P.length ≤ e ∧ (read.take e).drop (e - P.length) = P ∧
      ∀ e1, e1 < e → P.length ≤ e1 → (read.take e1).drop (e1 - P.length) ≠ P := by
  classical
  have hex : ∃ e, e ≤ read.length ∧ P.length ≤ e ∧ (read.take e).drop (e - P.length) = P := by
    obtain ⟨s, e, a1, a2, a3⟩ := isInfix_eq_slice P read h
    have hl : P.length = e - s := by
      rw [a3, List.length_drop, List.length_take, Nat.min_eq_left a2]
    refine ⟨e, a2, by omega, ?_⟩
    have hs : e - P.length = s := by omega
    rw [hs]
    exact a3.symm
  refine ⟨Nat.find hex, (Nat.find_spec hex).1, (Nat.find_spec hex).2.1, (Nat.find_spec hex).2.2, ?_⟩
  intro e1 h1 h2 h3
  exact Nat.find_min hex h1 ⟨by have := (Nat.find_spec hex).1; omega, h2, h3⟩

/-- Claim C21. For every non-empty pattern `P` that occurs verbatim in the read and
every budget `D`, `levenshtein` without pruning reports the occurrence that ends
first: `match_end` is the least `e` with `read[e-|P| .. e) = P`,
`match_start = e - |P|`, `startInPattern = 0` and `endInPattern = |P|`. -/
theorem levenshtein_reports_earliest_occurrence (read P : List Char) (D : Nat)
    (hP : P ≠ []) (h : P <:+: read) :
    ∃ e : Nat, e ≤ read.length ∧ P.length ≤ e ∧ (read.take e).drop (e - P.length) = P ∧
      (∀ e1, e1 < e → P.length ≤ e1 → (read.take e1).drop (e1 - P.length) ≠ P) ∧
      levenshtein read P D false =
        some ⟨true, some 0, some ((e : Int) - (P.length : Int)), some (e : Int), some 0,
          some (P.length : Int)⟩ := by
  obtain ⟨e, a1, a2, a3, a4⟩ := exists_earliest_end read P h
  exact ⟨e, a1, a2, a3, a4, levenshtein_earliest_end read P D e hP a1 a2 a3 a4⟩

/-- Witness of claim C21 at read `ACACGTACGT`, pattern `ACGT`, budget `1`. -/
theorem levenshtein_reports_earliest_occurrence_witness :
    ∃ e : Nat, e ≤ ['A', 'C', 'A', 'C', 'G', 'T', 'A', 'C', 'G', 'T'].length ∧
      ['A', 'C', 'G', 'T'].length ≤ e ∧
      (['A', 'C', 'A', 'C', 'G', 'T', 'A', 'C', 'G', 'T'].take e).drop (e - ['A', 'C', 'G', 'T'].length)
        = ['A', 'C', 'G', 'T'] ∧
      (∀ e1, e1 < e → ['A', 'C', 'G', 'T'].length ≤ e1 →
        (['A', 'C', 'A', 'C', 'G', 'T', 'A', 'C', 'G', 'T'].take e1).drop
          (e1 - ['A', 'C', 'G', 'T'].length) ≠ ['A', 'C', 'G', 'T']) ∧
      levenshtein ['A', 'C', 'A', 'C', 'G', 'T', 'A', 'C', 'G', 'T'] ['A', 'C', 'G', 'T'] 1 false =
        some ⟨true, some 0, some ((e : Int) - ((['A', 'C', 'G', 'T'] : List Char).length : Int)),
          some (e : Int), some 0, some ((['A', 'C', 'G', 'T'] : List Char).length : Int)⟩ :=
  levenshtein_reports_earliest_occurrence ['A', 'C', 'A', 'C', 'G', 'T', 'A', 'C', 'G', 'T']
    ['A', 'C', 'G', 'T'] 1 (by decide) (by decide)

/-! ## `ullong_save_add` below the limit -/

theorem ullong_save_add_exact (a b : Nat) (hb : b ≤ ULLONG_MAX)
    (h : a + b ≤ ULLONG_MAX) : ullong_save_add a b = (a + b, false) := by
  unfold ullong_save_add
  unfold ULLONG_MAX at *
  rw [if_neg (by omega), Nat.mod_eq_of_lt (by omega)]

theorem ullong_save_add_min (a b : Nat) (ha : a ≤ ULLONG_MAX) (hb : b ≤ ULLONG_MAX) :
    ullong_save_add a b = (min (a + b) ULLONG_MAX, decide (ULLONG_MAX < a + b)) := by
  by_cases h : a + b ≤ ULLONG_MAX
  · rw [ullong_save_add_exact a b hb h, Nat.min_eq_left h]
    simp only [Prod.mk.injEq, true_and]
    symm
    rw [decide_eq_false_iff_not]
    omega
  · rw [ullong_save_add_overflow a b ha hb (by omega), Nat.min_eq_right (by omega)]
    simp only [Prod.mk.injEq, true_and]
    symm
    rw [decide_eq_true_eq]
    omega

/-- Claim C22. For 64-bit values `a` and `b` with `a + b ≤ ULLONG_MAX` (in particular
for `b = 0` and `a = ULLONG_MAX`), `ullong_save_add` leaves `a` equal to the exact sum
and writes no diagnostic; so in all cases the result is `min (a + b) ULLONG_MAX` and
the diagnostic is written if and only if `a + b > ULLONG_MAX`. -/
theorem ullong_save_add_exact_below_limit :
    (∀ a b : Nat, a ≤ ULLONG_MAX → b ≤ ULLONG_MAX → a + b ≤ ULLONG_MAX →
      ullong_save_add a b = (a + b, false)) ∧
    ullong_save_add ULLONG_MAX 0 = (ULLONG_MAX, false) ∧
    (∀ a b : Nat, a ≤ ULLONG_MAX → b ≤ ULLONG_MAX →
      ullong_save_add a b = (min (a + b) ULLONG_MAX, decide (ULLONG_MAX < a + b))) :=
  ⟨fun a b _ hb h => ullong_save_add_exact a b hb h, by decide, ullong_save_add_min⟩

/-- Witness of claim C22 at `a = ULLONG_MAX - 5`, `b = 5`. -/
theorem ullong_save_add_exact_below_limit_witness :
    ullong_save_add 18446744073709551610 5 = (18446744073709551610 + 5, false) :=
  ullong_save_add_exact_below_limit.1 18446744073709551610 5 (by decide) (by decide) (by decide)

/-! ## `splitByDelimiter` is a round trip -/

theorem strFind_some_spec (del : List Char) :
    ∀ (s : List Char) (pos : Nat), strFind s del = some pos →
      del <+: s.drop pos ∧ ∀ k, k < pos → ¬ del <+: s.drop k := by
  intro s
  induction s with
  | nil =>
    intro pos h
    rw [strFind] at h
    split at h
    · rename_i hd
      cases h
      subst hd
      exact ⟨List.prefix_refl _, fun k hk => by omega⟩
    · cases h
  | cons c t ih =>
    intro pos h
    rw [strFind] at h
    split at h
    · rename_i hp
      cases h
      exact ⟨List.isPrefixOf_iff_prefix.1 hp, fun k hk => by omega⟩
    · rename_i hp
      split at h
      · rename_i p hf
        cases h
        obtain ⟨a1, a2⟩ := ih p hf
        refine ⟨a1, ?_⟩
        intro k hk
        cases k with
        | zero => exact fun hpre => hp (List.isPrefixOf_iff_prefix.2 hpre)
        | succ k => exact a2 k (by omega)
      · cases h

theorem strFind_none_spec (del : List Char) (hd : del ≠ []) :
    ∀ (s : List Char), strFind s del = none → ∀ k, ¬ del <+: s.drop k := by
  intro s
  induction s with
  | nil =>
    intro _ k hpre
    rw [List.drop_nil] at hpre
    exact hd (List.prefix_nil.1 hpre)
  | cons c t ih =>
    intro h k
    rw [strFind] at h
    split at h
    · cases h
    · rename_i hp
      split at h
      · cases h
      · rename_i hf
        cases k with
        | zero => exact fun hpre => hp (List.isPrefixOf_iff_prefix.2 hpre)
        | succ k => exact ih hf k

theorem prefix_drop_of_infix (del s : List Char) (h : del <:+: s) :
    ∃ k, k + del.length ≤ s.length ∧ del <+: s.drop k := by
  obtain ⟨a, b, rfl⟩ := h
  refine ⟨a.length, by simp, ?_⟩
  rw [List.append_assoc, List.drop_left]
  exact List.prefix_append _ _

theorem not_infix_take_of_first (del s : List Char) (pos : Nat) (hd : del ≠ [])
    (hmin : ∀ k, k < pos → ¬ del <+: s.drop k) : ¬ del <:+: s.take pos := by
  intro hin
  obtain ⟨k, hk1, hk2⟩ := prefix_drop_of_infix del (s.take pos) hin
  have hlen : 1 ≤ del.length := by
    cases del with
    | nil => exact absurd rfl hd
    | cons x xs => simp
  rw [List.length_take] at hk1
  apply hmin k (by omega)
  rw [List.drop_take] at hk2
  exact hk2.trans (List.take_prefix _ _)

theorem countOccurrencesFrom_skip (del : List Char) :
    ∀ (k : Nat) (s : List Char),
      countOccurrencesFrom del k s = countOccurrencesFrom del 0 (s.drop k) := by
  intro k
  induction k with
  | zero => intro s; rfl
  | succ k ih =>
    intro s
    cases s with
    | nil => rfl
    | cons c t => rw [countOccurrencesFrom, ih, List.drop_succ_cons]

theorem countOccurrences_of_find (del : List Char) (hd : del ≠ []) :
    ∀ (s : List Char) (pos : Nat), strFind s del = some pos →
      countOccurrencesFrom del 0 s =
        1 + countOccurrencesFrom del 0 (s.drop (pos + del.length)) := by
  have hlen : 1 ≤ del.length := by
    cases del with
    | nil => exact absurd rfl hd
    | cons x xs => simp
  intro s
  induction s with
  | nil =>
    intro pos h
    rw [strFind, if_neg hd] at h
    cases h
  | cons c t ih =>
    intro pos h
    rw [strFind] at h
    split at h
    · rename_i hp
      cases h
      rw [countOccurrencesFrom, if_pos hp, countOccurrencesFrom_skip]
      obtain ⟨n, hn⟩ : ∃ n, del.length = n + 1 := ⟨del.length - 1, by omega⟩
      rw [hn, Nat.zero_add, List.drop_succ_cons, Nat.add_sub_cancel]
    · rename_i hp
      split at h
      · rename_i p hf
        cases h
        rw [countOccurrencesFrom, if_neg hp, ih p hf]
        have e : p + 1 + del.length = (p + del.length) + 1 := by omega
        rw [e, List.drop_succ_cons]
      · cases h

theorem countOccurrences_of_not_found (del : List Char) :
    ∀ (s : List Char), strFind s del = none → countOccurrencesFrom del 0 s = 0 := by
  intro s
  induction s with
  | nil => intro _; rfl
  | cons c t ih =>
    intro h
    rw [strFind] at h
    split at h
    · cases h
    · rename_i hp
      split at h
      · cases h
      · rename_i hf
        rw [countOccurrencesFrom, if_neg hp, ih hf]

theorem intercalate_cons_of_ne_nil (del x : List Char) (xs : List (List Char)) (h : xs ≠ []) :
    List.intercalate del (x :: xs) = x ++ del ++ List.intercalate del xs := by
  cases xs with
  | nil => exact absurd rfl h
  | cons y ys =>
    simp [List.intercalate, List.intersperse]

theorem splitLoop_spec (del : List Char) (hd : del ≠ []) :
    ∀ (fuel : Nat) (line : List Char) (tokens : List (List Char)), line.length < fuel →
      ∃ res, splitLoop del fuel line tokens = some (tokens ++ res) ∧ res ≠ [] ∧
        (∀ t, t ∈ res → ¬ del <:+: t) ∧ List.intercalate del res = line ∧
        res.length = countOccurrences del line + 1 := by
  have hlen : 1 ≤ del.length := by
    cases del with
    | nil => exact absurd rfl hd
    | cons x xs => simp
  intro fuel
  induction fuel with
  | zero => intro line tokens h; omega
  | succ n ih =>
    intro line tokens hfuel
    rw [splitLoop]
    split
    · rename_i pos hf
      obtain ⟨a1, a2⟩ := strFind_some_spec del line pos hf
      have hb : pos + del.length ≤ line.length := by
        have := a1.length_le
        rw [List.length_drop] at this
        omega
      obtain ⟨res, b1, b2, b3, b4, b5⟩ := ih (line.drop (pos + del.length))
        (tokens ++ [line.take pos]) (by rw [List.length_drop]; omega)
      refine ⟨line.take pos :: res, by rw [b1]; simp, by simp, ?_, ?_, ?_⟩
      · intro t ht
        rcases List.mem_cons.1 ht with h | h
        · rw [h]; exact not_infix_take_of_first del line pos hd a2
        · exact b3 t h
      · rw [intercalate_cons_of_ne_nil del _ res b2, b4]
        obtain ⟨rest, hrest⟩ := a1
        have e1 : line.drop (pos + del.length) = rest := by
          rw [← List.drop_drop, ← hrest, List.drop_left]
        rw [e1, List.append_assoc, hrest, List.take_append_drop]
      · unfold countOccurrences at b5 ⊢
        rw [List.length_cons, b5, countOccurrences_of_find del hd line pos hf]
        omega
    · rename_i hf
      refine ⟨[line], rfl, by simp, ?_, by simp [List.intercalate], ?_⟩
      · intro t ht
        rw [List.mem_singleton.1 ht]
        intro hin
        obtain ⟨k, _, hk⟩ := prefix_drop_of_infix del line hin
        exact strFind_none_spec del hd line hf k hk
      · unfold countOccurrences
        rw [countOccurrences_of_not_found del line hf]
        rfl

theorem splitByDelimiter_spec (line del : List Char) (hd : del ≠ []) :
    ∃ tokens, splitByDelimiter line del = some tokens ∧ tokens ≠ [] ∧
      (∀ t, t ∈ tokens → ¬ del <:+: t) ∧ List.intercalate del tokens = line ∧
      tokens.length = countOccurrences del line + 1 := by
  obtain ⟨res, h1, h2, h3, h4, h5⟩ := splitLoop_spec del hd (line.length + 1) line [] (by omega)
  exact ⟨res, by unfold splitByDelimiter; rw [h1]; rfl, h2, h3, h4, h5⟩

/-- Claim C23. For every line and every non-empty delimiter `del`, `splitByDelimiter`
terminates and returns a non-empty list of tokens, none of which contains `del` as a
substring, whose concatenation with `del` between consecutive tokens equals the line;
the number of tokens is one more than the number of non-overlapping left-to-right
occurrences of `del` in the line. -/
theorem splitByDelimiter_round_trip (line del : List Char) (hdel : del ≠ []) :
    ∃ tokens, splitByDelimiter line del = some tokens ∧ tokens ≠ [] ∧
      (∀ t, t ∈ tokens → ¬ del <:+: t) ∧ List.intercalate del tokens = line ∧
      tokens.length = countOccurrences del line + 1 :=
  splitByDelimiter_spec line del hdel

/-- Witness of claim C23 at the line `aXXXbXX` and the delimiter `XX`. -/
theorem splitByDelimiter_round_trip_witness :
    (['X', 'X'] : List Char) ≠ [] ∧
    ∃ tokens, splitByDelimiter ['a', 'X', 'X', 'X', 'b', 'X', 'X'] ['X', 'X'] = some tokens ∧
      tokens ≠ [] ∧ (∀ t, t ∈ tokens → ¬ ['X', 'X'] <:+: t) ∧
      List.intercalate ['X', 'X'] tokens = ['a', 'X', 'X', 'X', 'b', 'X', 'X'] ∧
      tokens.length = countOccurrences ['X', 'X'] ['a', 'X', 'X', 'X', 'b', 'X', 'X'] + 1 :=
  ⟨by decide, splitByDelimiter_round_trip ['a', 'X', 'X', 'X', 'b', 'X', 'X'] ['X', 'X']
    (by decide)⟩

/-! ## The backtracked path and its literal-match steps -/

theorem walk_step (dist : Matrix) (la n : Nat) (i j : Int) (ne : Bool)
    (st en sp ep : Option Int) (hz : j ≠ 0 ∧ i ≠ 0) :
    walk dist la (n + 1) ⟨i, j, ne, st, en, sp, ep⟩ =
      walk dist la n ⟨(dist i.toNat j.toNat).i, (dist i.toNat j.toNat).j,
        (if endStep dist la (i, j) = true ∧ ne = true then false else ne),
        (if literalMatchStep dist (i, j) = true then some i else st),
        (if endStep dist la (i, j) = true ∧ ne = true then some i else en),
        (if literalMatchStep dist (i, j) = true then some j else sp),
        (if endStep dist la (i, j) = true ∧ ne = true then some j else ep)⟩ := by
  rw [walk, if_pos hz]
  unfold literalMatchStep endStep
  simp only [decide_eq_true_eq]
  by_cases h1 : (dist i.toNat j.toNat).val =
      (dist (dist i.toNat j.toNat).i.toNat (dist i.toNat j.toNat).j.toNat).val
  · by_cases h2 : i ≠ (dist i.toNat j.toNat).i ∧ j ≠ (dist i.toNat j.toNat).j
    · by_cases h3 : (dist i.toNat j.toNat).j < (la : Int)
      · cases ne <;> simp [h1, h2, h3]
      · cases ne <;> simp [h1, h2, h3]
    · by_cases h3 : (dist i.toNat j.toNat).j < (la : Int)
      · cases ne <;> simp [h1, h2, h3]
      · cases ne <;> simp [h1, h2, h3]
  · cases ne <;> simp [h1]

theorem walkPath_bounds (dist : Matrix)
    (hd : ∀ r c, 1 ≤ r → 1 ≤ c → GoodPred (dist r c) r c) :
    ∀ (fuel : Nat) (i j : Int), 0 ≤ i → 0 ≤ j → ∀ c, c ∈ walkPath dist fuel i j →
      1 ≤ c.1 ∧ c.1 ≤ i ∧ 1 ≤ c.2 ∧ c.2 ≤ j := by
  intro fuel
  induction fuel with
  | zero => intro i j _ _ c hc; simp [walkPath] at hc
  | succ n ih =>
    intro i j hi hj c hc
    rw [walkPath] at hc
    split at hc
    · rename_i hz
      obtain ⟨g1, g2, g3, g4, _⟩ := hd i.toNat j.toNat (by omega) (by omega)
      have e1 : ((i.toNat : Nat) : Int) = i := Int.toNat_of_nonneg hi
      have e2 : ((j.toNat : Nat) : Int) = j := Int.toNat_of_nonneg hj
      rcases List.mem_cons.1 hc with h | h
      · subst h
        dsimp only
        omega
      · have := ih _ _ g1 g2 c h
        omega
    · simp at hc

theorem walkPath_matches_pairwise (dist : Matrix)
    (hd : ∀ r c, 1 ≤ r → 1 ≤ c → GoodPred (dist r c) r c) :
    ∀ (fuel : Nat) (i j : Int), 0 ≤ i → 0 ≤ j →
      ((walkPath dist fuel i j).filter (literalMatchStep dist)).Pairwise
        (fun a b => b.1 < a.1 ∧ b.2 < a.2) := by
  intro fuel
  induction fuel with
  | zero => intro i j _ _; simp [walkPath]
  | succ n ih =>
    intro i j hi hj
    rw [walkPath]
    split
    · rename_i hz
      obtain ⟨g1, g2, g3, g4, _⟩ := hd i.toNat j.toNat (by omega) (by omega)
      have e1 : ((i.toNat : Nat) : Int) = i := Int.toNat_of_nonneg hi
      have e2 : ((j.toNat : Nat) : Int) = j := Int.toNat_of_nonneg hj
      rw [List.filter_cons]
      split
      · rename_i hm
        rw [List.pairwise_cons]
        refine ⟨?_, ih _ _ g1 g2⟩
        intro d hdm
        have hb := walkPath_bounds dist hd n _ _ g1 g2 d (List.mem_filter.1 hdm).1
        unfold literalMatchStep at hm
        simp only [decide_eq_true_eq] at hm
        obtain ⟨_, m2, m3⟩ := hm
        dsimp only
        omega
      · exact ih _ _ g1 g2
    · simp

theorem walk_start_spec (dist : Matrix) (la : Nat) :
    ∀ (fuel : Nat) (s w : WalkState), walk dist la fuel s = some w →
      w.start = Option.elim ((walkPath dist fuel s.i s.j).filter (literalMatchStep dist)).getLast?
        s.start (fun c => some c.1) ∧
      w.startInPattern =
        Option.elim ((walkPath dist fuel s.i s.j).filter (literalMatchStep dist)).getLast?
          s.startInPattern (fun c => some c.2) := by
  intro fuel
  induction fuel with
  | zero => intro s w h; simp [walk] at h
  | succ n ih =>
    intro s w h
    obtain ⟨i, j, ne, st, en, sp, ep⟩ := s
    dsimp only
    rw [walkPath]
    by_cases hz : j ≠ 0 ∧ i ≠ 0
    · rw [walk_step dist la n i j ne st en sp ep hz] at h
      obtain ⟨a1, a2⟩ := ih _ w h
      dsimp only at a1 a2
      rw [if_pos hz, List.filter_cons, a1, a2]
      by_cases hm : literalMatchStep dist (i, j) = true
      · rw [if_pos hm, if_pos hm, if_pos hm, List.getLast?_cons]
        cases (List.filter (literalMatchStep dist)
          (walkPath dist n (dist i.toNat j.toNat).i (dist i.toNat j.toNat).j)).getLast? with
        | none => exact ⟨rfl, rfl⟩
        | some d => exact ⟨rfl, rfl⟩
      · rw [if_neg hm, if_neg hm, if_neg hm]
        exact ⟨rfl, rfl⟩
    · rw [walk, if_neg hz] at h
      cases h
      rw [if_neg hz]
      exact ⟨rfl, rfl⟩

theorem walk_end_spec (dist : Matrix) (la : Nat) :
    ∀ (fuel : Nat) (s w : WalkState), walk dist la fuel s = some w →
      w.«end» = (if s.noEnd = true then
        Option.elim ((walkPath dist fuel s.i s.j).filter (endStep dist la)).head?
          s.«end» (fun c => some c.1) else s.«end») ∧
      w.endInPattern = (if s.noEnd = true then
        Option.elim ((walkPath dist fuel s.i s.j).filter (endStep dist la)).head?
          s.endInPattern (fun c => some c.2) else s.endInPattern) := by
  intro fuel
  induction fuel with
  | zero => intro s w h; simp [walk] at h
  | succ n ih =>
    intro s w h
    obtain ⟨i, j, ne, st, en, sp, ep⟩ := s
    dsimp only
    rw [walkPath]
    by_cases hz : j ≠ 0 ∧ i ≠ 0
    · rw [walk_step dist la n i j ne st en sp ep hz] at h
      obtain ⟨a1, a2⟩ := ih _ w h
      dsimp only at a1 a2
      rw [if_pos hz, List.filter_cons, a1, a2]
      by_cases hm : endStep dist la (i, j) = true
      · cases ne
        · simp [hm]
        · simp [hm]
      · cases ne
        · simp [hm]
        · simp [hm]
    · rw [walk, if_neg hz] at h
      cases h
      rw [if_neg hz]
      simp

theorem step_tests_unpruned (sequence pattern : List Char) (dist : Matrix)
    (hd : ∀ r c, r ≤ sequence.length → c ≤ pattern.length → dist r c = cellSpec sequence pattern r c)
    (c : Int × Int) (h1 : 1 ≤ c.1) (h2 : c.1 ≤ sequence.length) (h3 : 1 ≤ c.2)
    (h4 : c.2 ≤ pattern.length) :
    endStep dist pattern.length c = literalMatchStep dist c ∧
    (literalMatchStep dist c = true →
      sequence.get? (c.1.toNat - 1) = pattern.get? (c.2.toNat - 1)) := by
  obtain ⟨ci, cj⟩ := c
  dsimp only at h1 h2 h3 h4
  obtain ⟨i', hi'⟩ : ∃ i' : Nat, ci = ((i' + 1 : Nat) : Int) := ⟨ci.toNat - 1, by omega⟩
  obtain ⟨j', hj'⟩ : ∃ j' : Nat, cj = ((j' + 1 : Nat) : Int) := ⟨cj.toNat - 1, by omega⟩
  subst hi'; subst hj'
  have hi2 : i' + 1 ≤ sequence.length := by omega
  have hj2 : j' + 1 ≤ pattern.length := by omega
  have hcs := cellSpec_succ_cases sequence pattern i' j'
  dsimp only at hcs
  unfold endStep literalMatchStep
  dsimp only
  rw [Int.toNat_natCast, Int.toNat_natCast, hd _ _ hi2 hj2]
  rcases hcs with ⟨_, _, hc⟩ | ⟨_, _, hc⟩ | ⟨_, _, hc⟩
  · rw [hc]
    dsimp only
    rw [Int.toNat_natCast, Int.toNat_natCast, hd _ _ (by omega) hj2]
    by_cases hl : j' + 1 = pattern.length
    · simp [hl]
    · rw [if_neg hl]
      simp
  · rw [hc]
    dsimp only
    rw [Int.toNat_natCast, Int.toNat_natCast, hd _ _ hi2 (by omega)]
    simp
  · rw [hc]
    dsimp only
    rw [Int.toNat_natCast, Int.toNat_natCast, hd _ _ (by omega) (by omega)]
    have c5 : (j' : Int) < (pattern.length : Int) := by omega
    by_cases hm : strAt sequence i' = strAt pattern j'
    · rw [if_pos hm]
      have hchar : sequence.get? (i' + 1 - 1) = pattern.get? (j' + 1 - 1) :=
        (strAt_eq_iff_get?_eq sequence pattern i' j' (by omega) (by omega)).1 hm
      simp [c5]
      simpa using hchar
    · rw [if_neg hm]
      simp [c5]

theorem literalMatchSteps_mem (sequence pattern : List Char) (D : Nat) (c : Int × Int)
    (hc : c ∈ literalMatchSteps sequence pattern D) :
    1 ≤ c.1 ∧ c.1 ≤ sequence.length ∧ 1 ≤ c.2 ∧ c.2 ≤ pattern.length ∧
      sequence.get? (c.1.toNat - 1) = pattern.get? (c.2.toNat - 1) := by
  unfold literalMatchSteps at hc
  obtain ⟨h1, h2⟩ := List.mem_filter.1 hc
  obtain ⟨b1, b2, b3, b4⟩ := walkPath_bounds _ (fillMatrix_goodPred sequence pattern D false) _ _ _
    (by omega) (by omega) c h1
  exact ⟨b1, b2, b3, b4, (step_tests_unpruned sequence pattern _
    (fun r c hr hc => fillMatrix_unpruned sequence pattern D r c hr hc) c b1 b2 b3 b4).2 h2⟩

theorem literalMatchSteps_pairwise (sequence pattern : List Char) (D : Nat) :
    (literalMatchSteps sequence pattern D).Pairwise (fun a b => b.1 < a.1 ∧ b.2 < a.2) :=
  walkPath_matches_pairwise _ (fillMatrix_goodPred sequence pattern D false) _ _ _
    (by omega) (by omega)

theorem walk_unpruned_result (sequence pattern : List Char) (D : Nat) :
    ∃ w, walk (fillMatrix sequence pattern D false) pattern.length
        (sequence.length + pattern.length + 1)
        ⟨sequence.length, pattern.length, true, none, none, none, none⟩ = some w ∧
      w.start = (literalMatchSteps sequence pattern D).getLast?.map Prod.fst ∧
      w.startInPattern = (literalMatchSteps sequence pattern D).getLast?.map Prod.snd ∧
      w.«end» = (literalMatchSteps sequence pattern D).head?.map Prod.fst ∧
      w.endInPattern = (literalMatchSteps sequence pattern D).head?.map Prod.snd := by
  obtain ⟨w, hw⟩ := walk_terminates (fillMatrix sequence pattern D false) pattern.length
    (fillMatrix_goodPred sequence pattern D false) (sequence.length + pattern.length + 1)
    ⟨sequence.length, pattern.length, true, none, none, none, none⟩
    (by simp) (by simp) (by dsimp only; push_cast; omega)
  obtain ⟨a1, a2⟩ := walk_start_spec _ _ _ _ w hw
  obtain ⟨a3, a4⟩ := walk_end_spec _ _ _ _ w hw
  dsimp only at a1 a2 a3 a4
  have hf : (walkPath (fillMatrix sequence pattern D false)
      (sequence.length + pattern.length + 1) sequence.length pattern.length).filter
        (endStep (fillMatrix sequence pattern D false) pattern.length) =
      literalMatchSteps sequence pattern D := by
    unfold literalMatchSteps
    apply List.filter_congr
    intro c hc
    obtain ⟨b1, b2, b3, b4⟩ := walkPath_bounds _ (fillMatrix_goodPred sequence pattern D false)
      _ _ _ (by omega) (by omega) c hc
    exact (step_tests_unpruned sequence pattern _
      (fun r c hr hc => fillMatrix_unpruned sequence pattern D r c hr hc) c b1 b2 b3 b4).1
  rw [hf] at a3 a4
  have hg : (walkPath (fillMatrix sequence pattern D false)
      (sequence.length + pattern.length + 1) sequence.length pattern.length).filter
        (literalMatchStep (fillMatrix sequence pattern D false)) =
      literalMatchSteps sequence pattern D := rfl
  rw [hg] at a1 a2
  refine ⟨w, hw, ?_, ?_, ?_, ?_⟩
  · rw [a1]; cases (literalMatchSteps sequence pattern D).getLast? <;> rfl
  · rw [a2]; cases (literalMatchSteps sequence pattern D).getLast? <;> rfl
  · rw [a3]; cases (literalMatchSteps sequence pattern D).head? <;> rfl
  · rw [a4]; cases (literalMatchSteps sequence pattern D).head? <;> rfl

theorem levenshtein_no_match_step (sequence pattern : List Char) (D : Nat)
    (hD : (fillMatrix sequence pattern D false sequence.length pattern.length).val ≤ D)
    (hM : literalMatchSteps sequence pattern D = []) :
    levenshtein sequence pattern D false = none := by
  obtain ⟨w, hw, a1, _, _, _⟩ := walk_unpruned_result sequence pattern D
  rw [hM] at a1
  unfold levenshtein
  simp only [Bool.false_and, Bool.false_eq_true, if_false, hw]
  rw [if_pos hD]
  simp only [a1, List.getLast?_nil, Option.map_none']

theorem levenshtein_with_match_step (sequence pattern : List Char) (D : Nat)
    (hD : (fillMatrix sequence pattern D false sequence.length pattern.length).val ≤ D)
    (hM : literalMatchSteps sequence pattern D ≠ []) :
    ∃ c d, (literalMatchSteps sequence pattern D).getLast? = some c ∧
      (literalMatchSteps sequence pattern D).head? = some d ∧
      levenshtein sequence pattern D false =
        some ⟨true, some (fillMatrix sequence pattern D false sequence.length pattern.length).val,
          some (c.1 - 1), some d.1, some (c.2 - 1), some d.2⟩ := by
  obtain ⟨w, hw, a1, a2, a3, a4⟩ := walk_unpruned_result sequence pattern D
  have hl : (literalMatchSteps sequence pattern D).getLast? =
      some ((literalMatchSteps sequence pattern D).getLast hM) := List.getLast?_eq_getLast _ hM
  have hh : (literalMatchSteps sequence pattern D).head? =
      some ((literalMatchSteps sequence pattern D).head hM) := List.head?_eq_head hM
  obtain ⟨b1, _, b3, _, _⟩ := literalMatchSteps_mem sequence pattern D _ (List.getLast_mem hM)
  refine ⟨_, _, hl, hh, ?_⟩
  rw [hl] at a1 a2
  rw [hh] at a3 a4
  unfold levenshtein
  simp only [Bool.false_and, Bool.false_eq_true, if_false, hw]
  rw [if_pos hD]
  simp only [a1, a2, a3, a4, Option.map_some']
  rw [if_pos ⟨by omega, by omega⟩]

theorem levenshtein_accepted_provenance (sequence pattern : List Char) (D : Nat) (r : LevResult)
    (h : levenshtein sequence pattern D false = some r) (hret : r.ret = true) :
    ∃ c d, c ∈ literalMatchSteps sequence pattern D ∧ d ∈ literalMatchSteps sequence pattern D ∧
      (literalMatchSteps sequence pattern D).getLast? = some c ∧
      (literalMatchSteps sequence pattern D).head? = some d ∧
      r.match_start = some (c.1 - 1) ∧ r.match_end = some d.1 ∧
      r.startInPattern = some (c.2 - 1) ∧ r.endInPattern = some d.2 := by
  have hD := (levenshtein_returns_score sequence pattern D r h).1.1 hret
  by_cases hM : literalMatchSteps sequence pattern D = []
  · rw [levenshtein_no_match_step sequence pattern D hD hM] at h
    cases h
  · obtain ⟨c, d, a1, a2, a3⟩ := levenshtein_with_match_step sequence pattern D hD hM
    rw [a3] at h
    cases h
    have hc : c ∈ literalMatchSteps sequence pattern D := by
      rw [List.getLast?_eq_getLast _ hM] at a1
      cases a1
      exact List.getLast_mem hM
    have hd : d ∈ literalMatchSteps sequence pattern D := by
      rw [List.head?_eq_head hM] at a2
      cases a2
      exact List.head_mem hM
    exact ⟨c, d, hc, hd, a1, a2, rfl, rfl, rfl, rfl⟩

/-- Claim C18. When `levenshtein` without pruning returns `true` (its walk has then
taken a literal-match step, an equal-cost diagonal step, the only place where a
boundary is assigned), the first and the last base of the reported span match
literally: `read[match_start] = pattern[startInPattern]` and
`read[match_end-1] = pattern[endInPattern-1]`, all four positions being in range.
The reported start is the literal-match step the walk meets last, the reported end the
one it meets first. Along the walk the literal-match steps strictly decrease in both
coordinates, so these are the earliest and the latest literal-match step of the
backtracked path; and at every literal-match step `(i, j)` of the path the read base
`i` and the pattern base `j` (counted from `1`) are the same. -/
theorem levenshtein_boundaries_are_literal_matches (sequence pattern : List Char) (D : Nat)
    (r : LevResult) (h : levenshtein sequence pattern D false = some r) (hret : r.ret = true) :
    ∃ (ms me sp ep : Nat) (x y : Char),
      r.match_start = some (ms : Int) ∧ r.match_end = some (me : Int) ∧
      r.startInPattern = some (sp : Int) ∧ r.endInPattern = some (ep : Int) ∧
      sequence.get? ms = some x ∧ pattern.get? sp = some x ∧
      sequence.get? (me - 1) = some y ∧ pattern.get? (ep - 1) = some y ∧
      (literalMatchSteps sequence pattern D).getLast? = some ((ms : Int) + 1, (sp : Int) + 1) ∧
      (literalMatchSteps sequence pattern D).head? = some ((me : Int), (ep : Int)) ∧
      (literalMatchSteps sequence pattern D).Pairwise (fun a b => b.1 < a.1 ∧ b.2 < a.2) ∧
      ∀ c, c ∈ literalMatchSteps sequence pattern D →
        1 ≤ c.1 ∧ 1 ≤ c.2 ∧ ∃ z : Char, sequence.get? (c.1.toNat - 1) = some z ∧
          pattern.get? (c.2.toNat - 1) = some z := by
  have hall : ∀ c, c ∈ literalMatchSteps sequence pattern D →
      1 ≤ c.1 ∧ 1 ≤ c.2 ∧ ∃ z : Char, sequence.get? (c.1.toNat - 1) = some z ∧
        pattern.get? (c.2.toNat - 1) = some z := by
    intro c hc
    obtain ⟨b1, b2, b3, b4, b5⟩ := literalMatchSteps_mem sequence pattern D c hc
    have hx : c.1.toNat - 1 < sequence.length := by omega
    refine ⟨b1, b3, sequence[c.1.toNat - 1], ?_, ?_⟩
    · rw [List.get?_eq_getElem?, List.getElem?_eq_getElem hx]
    · rw [← b5, List.get?_eq_getElem?, List.getElem?_eq_getElem hx]
  obtain ⟨c, d, hc, hd, a1, a2, a3, a4, a5, a6⟩ :=
    levenshtein_accepted_provenance sequence pattern D r h hret
  obtain ⟨c1, c2, x, c3, c4⟩ := hall c hc
  obtain ⟨d1, d2, y, d3, d4⟩ := hall d hd
  obtain ⟨ci, cj⟩ := c
  obtain ⟨di, dj⟩ := d
  dsimp only at *
  obtain ⟨ms, rfl⟩ : ∃ ms : Nat, ci = (ms : Int) + 1 := ⟨ci.toNat - 1, by omega⟩
  obtain ⟨sp, rfl⟩ : ∃ sp : Nat, cj = (sp : Int) + 1 := ⟨cj.toNat - 1, by omega⟩
  obtain ⟨me, rfl⟩ : ∃ me : Nat, di = (me : Int) := ⟨di.toNat, by omega⟩
  obtain ⟨ep, rfl⟩ : ∃ ep : Nat, dj = (ep : Int) := ⟨dj.toNat, by omega⟩
  have e1 : ((ms : Int) + 1).toNat - 1 = ms := by omega
  have e2 : ((sp : Int) + 1).toNat - 1 = sp := by omega
  rw [e1] at c3
  rw [e2] at c4
  rw [Int.toNat_natCast] at d3 d4
  refine ⟨ms, me, sp, ep, x, y, ?_, a4, ?_, a6, c3, c4, d3, d4, a1, a2,
    literalMatchSteps_pairwise sequence pattern D, hall⟩
  · rw [a3]; congr 1; omega
  · rw [a5]; congr 1; omega

/-- Witness of claim C18 at read `ACA`, pattern `AGCA`, budget `1`: the call returns
`true` with the score `1`; the backtracked path inserts `G` and has the three
literal-match steps `(3, 4)`, `(2, 3)`, `(1, 1)`. -/
theorem levenshtein_boundaries_are_literal_matches_witness :
    levenshtein ['A', 'C', 'A'] ['A', 'G', 'C', 'A'] 1 false =
      some ⟨true, some 1, some 0, some 3, some 0, some 4⟩ ∧
    literalMatchSteps ['A', 'C', 'A'] ['A', 'G', 'C', 'A'] 1 = [(3, 4), (2, 3), (1, 1)] ∧
    ∃ (ms me sp ep : Nat) (x y : Char),
      (⟨true, some 1, some 0, some 3, some 0, some 4⟩ : LevResult).match_start = some (ms : Int) ∧
      (⟨true, some 1, some 0, some 3, some 0, some 4⟩ : LevResult).match_end = some (me : Int) ∧
      (⟨true, some 1, some 0, some 3, some 0, some 4⟩ : LevResult).startInPattern
        = some (sp : Int) ∧
      (⟨true, some 1, some 0, some 3, some 0, some 4⟩ : LevResult).endInPattern = some (ep : Int) ∧
      ['A', 'C', 'A'].get? ms = some x ∧ ['A', 'G', 'C', 'A'].get? sp = some x ∧
      ['A', 'C', 'A'].get? (me - 1) = some y ∧ ['A', 'G', 'C', 'A'].get? (ep - 1) = some y ∧
      (literalMatchSteps ['A', 'C', 'A'] ['A', 'G', 'C', 'A'] 1).getLast?
        = some ((ms : Int) + 1, (sp : Int) + 1) ∧
      (literalMatchSteps ['A', 'C', 'A'] ['A', 'G', 'C', 'A'] 1).head?
        = some ((me : Int), (ep : Int)) ∧
      (literalMatchSteps ['A', 'C', 'A'] ['A', 'G', 'C', 'A'] 1).Pairwise
        (fun a b => b.1 < a.1 ∧ b.2 < a.2) ∧
      ∀ c, c ∈ literalMatchSteps ['A', 'C', 'A'] ['A', 'G', 'C', 'A'] 1 →
        1 ≤ c.1 ∧ 1 ≤ c.2 ∧ ∃ z : Char, ['A', 'C', 'A'].get? (c.1.toNat - 1) = some z ∧
          ['A', 'G', 'C', 'A'].get? (c.2.toNat - 1) = some z :=
  ⟨by decide, by decide,
    levenshtein_boundaries_are_literal_matches ['A', 'C', 'A'] ['A', 'G', 'C', 'A'] 1
      ⟨true, some 1, some 0, some 3, some 0, some 4⟩ (by decide) rfl⟩

/-! ## Accepting needs a literal-match step -/

/-- Claim C7, the code at a failing input, with what holds of it. Without pruning, a
call that returns has returned `true` if and only if the cost of the final cell
`dist[ls][la]` is at most `D`, and has set `score` to that cost; a call whose final cost
exceeds `D` returns `false`. A call whose final cost is within `D` returns `true` when
the backtracked path has a literal-match step, and has no result when it has none: the
accepting branch then reads `start` and `end`, which the walk has not assigned. For the
read `C`, the pattern `A` and the budget `1` the final cost `1` is within the budget and
the call does not return `true`. -/
theorem levenshtein_accepts_only_with_literal_match_step :
    (∀ (sequence pattern : List Char) (D : Nat) (r : LevResult),
      levenshtein sequence pattern D false = some r →
        (r.ret = true ↔
          (fillMatrix sequence pattern D false sequence.length pattern.length).val ≤ D) ∧
        r.score = some (fillMatrix sequence pattern D false sequence.length pattern.length).val) ∧
    (∀ (sequence pattern : List Char) (D : Nat),
      D < (fillMatrix sequence pattern D false sequence.length pattern.length).val →
        ∃ r, levenshtein sequence pattern D false = some r ∧ r.ret = false ∧
          r.score = some (fillMatrix sequence pattern D false sequence.length pattern.length).val) ∧
    (∀ (sequence pattern : List Char) (D : Nat),
      (fillMatrix sequence pattern D false sequence.length pattern.length).val ≤ D →
        literalMatchSteps sequence pattern D ≠ [] →
        ∃ r, levenshtein sequence pattern D false = some r ∧ r.ret = true ∧
          r.score = some (fillMatrix sequence pattern D false sequence.length pattern.length).val) ∧
    (∀ (sequence pattern : List Char) (D : Nat),
      (fillMatrix sequence pattern D false sequence.length pattern.length).val ≤ D →
        literalMatchSteps sequence pattern D = [] →
        levenshtein sequence pattern D false = none) ∧
    ((fillMatrix ['C'] ['A'] 1 false 1 1).val ≤ 1 ∧ literalMatchSteps ['C'] ['A'] 1 = [] ∧
      levenshtein ['C'] ['A'] 1 false = none) := by
  refine ⟨levenshtein_returns_score, levenshtein_rejects, ?_, levenshtein_no_match_step,
    by decide, by decide, by decide⟩
  intro sequence pattern D hD hM
  obtain ⟨c, d, _, _, a3⟩ := levenshtein_with_match_step sequence pattern D hD hM
  exact ⟨_, a3, rfl, rfl⟩

/-- Witness of claim C7 at read `A`, pattern `A`, budget `0`, where the path has a
literal-match step. -/
theorem levenshtein_accepts_only_with_literal_match_step_witness :
    (fillMatrix ['A'] ['A'] 0 false (['A'] : List Char).length (['A'] : List Char).length).val ≤ 0 ∧
    literalMatchSteps ['A'] ['A'] 0 ≠ [] ∧
    ∃ r, levenshtein ['A'] ['A'] 0 false = some r ∧ r.ret = true ∧
      r.score = some
        (fillMatrix ['A'] ['A'] 0 false (['A'] : List Char).length (['A'] : List Char).length).val :=
  ⟨by decide, by decide,
    levenshtein_accepts_only_with_literal_match_step.2.2.1 ['A'] ['A'] 0 (by decide) (by decide)⟩

/-! ## Pruning does not change the outcome -/

theorem cellSpec_pred (sequence pattern : List Char) (i j : Nat) :
    0 ≤ (cellSpec sequence pattern (i + 1) (j + 1)).i ∧
    (cellSpec sequence pattern (i + 1) (j + 1)).i ≤ ((i + 1 : Nat) : Int) ∧
    0 ≤ (cellSpec sequence pattern (i + 1) (j + 1)).j ∧
    (cellSpec sequence pattern (i + 1) (j + 1)).j ≤ ((j + 1 : Nat) : Int) ∧
    (cellSpec sequence pattern (cellSpec sequence pattern (i + 1) (j + 1)).i.toNat
      (cellSpec sequence pattern (i + 1) (j + 1)).j.toNat).val ≤
      (cellSpec sequence pattern (i + 1) (j + 1)).val := by
  have hcs := cellSpec_succ_cases sequence pattern i j
  dsimp only at hcs
  rcases hcs with ⟨_, _, hc⟩ | ⟨_, _, hc⟩ | ⟨_, _, hc⟩ <;>
    (rw [hc]; dsimp only; rw [Int.toNat_natCast, Int.toNat_natCast]; omega)

theorem walk_pruned_eq (sequence pattern : List Char) (P U : Matrix) (D : Nat)
    (hU : ∀ r c, r ≤ sequence.length → c ≤ pattern.length → U r c = cellSpec sequence pattern r c)
    (hP : ∀ r c, r ≤ sequence.length → c ≤ pattern.length →
      CellAgrees D (P r c) (cellSpec sequence pattern r c)) :
    ∀ (fuel : Nat) (s : WalkState), 0 ≤ s.i → s.i ≤ sequence.length → 0 ≤ s.j →
      s.j ≤ pattern.length → (cellSpec sequence pattern s.i.toNat s.j.toNat).val ≤ D →
      walk P pattern.length fuel s = walk U pattern.length fuel s := by
  intro fuel
  induction fuel with
  | zero => intro s _ _ _ _ _; rfl
  | succ n ih =>
    intro s h1 h2 h3 h4 h5
    obtain ⟨si, sj, ne, st, en, sp, ep⟩ := s
    dsimp only at h1 h2 h3 h4 h5
    by_cases hz : sj ≠ 0 ∧ si ≠ 0
    · obtain ⟨i', hi'⟩ : ∃ i' : Nat, si = ((i' + 1 : Nat) : Int) := ⟨si.toNat - 1, by omega⟩
      obtain ⟨j', hj'⟩ : ∃ j' : Nat, sj = ((j' + 1 : Nat) : Int) := ⟨sj.toNat - 1, by omega⟩
      subst hi'; subst hj'
      rw [Int.toNat_natCast, Int.toNat_natCast] at h5
      have hi2 : i' + 1 ≤ sequence.length := by omega
      have hj2 : j' + 1 ≤ pattern.length := by omega
      obtain ⟨g1, g2, g3, g4, g5⟩ := cellSpec_pred sequence pattern i' j'
      have hr : (cellSpec sequence pattern (i' + 1) (j' + 1)).i.toNat ≤ sequence.length := by omega
      have hc : (cellSpec sequence pattern (i' + 1) (j' + 1)).j.toNat ≤ pattern.length := by omega
      have cP : P (i' + 1) (j' + 1) = cellSpec sequence pattern (i' + 1) (j' + 1) :=
        (hP _ _ hi2 hj2).1 h5
      have cU : U (i' + 1) (j' + 1) = cellSpec sequence pattern (i' + 1) (j' + 1) := hU _ _ hi2 hj2
      have pP : P (cellSpec sequence pattern (i' + 1) (j' + 1)).i.toNat
          (cellSpec sequence pattern (i' + 1) (j' + 1)).j.toNat =
          cellSpec sequence pattern (cellSpec sequence pattern (i' + 1) (j' + 1)).i.toNat
            (cellSpec sequence pattern (i' + 1) (j' + 1)).j.toNat :=
        (hP _ _ hr hc).1 (by omega)
      have pU := hU _ _ hr hc
      have hm : literalMatchStep P (((i' + 1 : Nat) : Int), ((j' + 1 : Nat) : Int)) =
          literalMatchStep U (((i' + 1 : Nat) : Int), ((j' + 1 : Nat) : Int)) := by
        unfold literalMatchStep
        dsimp only
        rw [Int.toNat_natCast, Int.toNat_natCast, cP, cU, pP, pU]
      have he : endStep P pattern.length (((i' + 1 : Nat) : Int), ((j' + 1 : Nat) : Int)) =
          endStep U pattern.length (((i' + 1 : Nat) : Int), ((j' + 1 : Nat) : Int)) := by
        unfold endStep
        dsimp only
        rw [Int.toNat_natCast, Int.toNat_natCast, cP, cU, pP, pU]
      rw [walk_step P _ n _ _ ne st en sp ep hz, walk_step U _ n _ _ ne st en sp ep hz, hm, he,
        Int.toNat_natCast, Int.toNat_natCast, cP, cU]
      exact ih _ g1 (by dsimp only; omega) g3 (by dsimp only; omega) (by dsimp only; omega)
    · rw [walk, walk, if_neg hz, if_neg hz]

theorem levenshtein_pruned_eq (sequence pattern : List Char) (D : Nat) (hD : D < 4294967294)
    (hcost : (fillMatrix sequence pattern D false sequence.length pattern.length).val ≤ D) :
    levenshtein sequence pattern D true = levenshtein sequence pattern D false := by
  have hU : ∀ r c, r ≤ sequence.length → c ≤ pattern.length →
      fillMatrix sequence pattern D false r c = cellSpec sequence pattern r c :=
    fun r c hr hc => fillMatrix_unpruned sequence pattern D r c hr hc
  have hP := fillMatrix_pruned_agrees sequence pattern D hD
  rw [hU _ _ (le_refl _) (le_refl _)] at hcost
  have hw := walk_pruned_eq sequence pattern (fillMatrix sequence pattern D true)
    (fillMatrix sequence pattern D false) D hU hP (sequence.length + pattern.length + 1)
    ⟨sequence.length, pattern.length, true, none, none, none, none⟩
    (by simp) (by simp) (by simp) (by simp)
    (by dsimp only; rw [Int.toNat_natCast, Int.toNat_natCast]; exact hcost)
  have hfin : fillMatrix sequence pattern D true sequence.length pattern.length =
      fillMatrix sequence pattern D false sequence.length pattern.length := by
    rw [hU _ _ (le_refl _) (le_refl _)]
    exact (hP _ _ (le_refl _) (le_refl _)).1 hcost
  unfold levenshtein
  simp only [hw, hfin, hU _ _ (le_refl _) (le_refl _), Bool.true_and, Bool.false_and,
    Bool.false_eq_true, if_false, decide_eq_true_eq]
  rw [if_neg (by omega)]

theorem levenshtein_pruned_reject (sequence pattern : List Char) (D : Nat) (hD : D < 4294967294)
    (hcost : D < (fillMatrix sequence pattern D false sequence.length pattern.length).val) :
    levenshtein sequence pattern D true = some ⟨false, none, none, none, none, none⟩ := by
  rw [fillMatrix_unpruned sequence pattern D _ _ (le_refl _) (le_refl _)] at hcost
  have h := (fillMatrix_pruned_agrees sequence pattern D hD _ _ (le_refl _) (le_refl _)).2 hcost
  unfold levenshtein
  simp only [Bool.true_and, decide_eq_true_eq]
  rw [if_pos h]

/-- Claim C8. For every read, pattern and budget `D` (an `int`, so `D ≤ 2147483647`),
`levenshtein` with `upperBoundCheck = true` and with `upperBoundCheck = false` have the
same outcome as far as the flag goes: either both return, with the same flag, or
neither returns. When the final cost without pruning is within `D`, the two calls agree
in everything (the walk of the pruned call visits cells that the pruned fill has
computed exactly); when it exceeds `D`, both return `false`. -/
theorem levenshtein_pruning_same_decision (sequence pattern : List Char) (D : Nat)
    (hD : D ≤ 2147483647) :
    Option.map LevResult.ret (levenshtein sequence pattern D true) =
      Option.map LevResult.ret (levenshtein sequence pattern D false) ∧
    ((fillMatrix sequence pattern D false sequence.length pattern.length).val ≤ D →
      levenshtein sequence pattern D true = levenshtein sequence pattern D false) ∧
    (D < (fillMatrix sequence pattern D false sequence.length pattern.length).val →
      levenshtein sequence pattern D true = some ⟨false, none, none, none, none, none⟩ ∧
      ∃ r, levenshtein sequence pattern D false = some r ∧ r.ret = false) := by
  have h1 := levenshtein_pruned_eq sequence pattern D (by omega)
  have h2 : D < (fillMatrix sequence pattern D false sequence.length pattern.length).val →
      levenshtein sequence pattern D true = some ⟨false, none, none, none, none, none⟩ ∧
      ∃ r, levenshtein sequence pattern D false = some r ∧ r.ret = false := by
    intro hc
    obtain ⟨r, a1, a2, _⟩ := levenshtein_rejects sequence pattern D hc
    exact ⟨levenshtein_pruned_reject sequence pattern D (by omega) hc, r, a1, a2⟩
  refine ⟨?_, h1, h2⟩
  by_cases hc : (fillMatrix sequence pattern D false sequence.length pattern.length).val ≤ D
  · rw [h1 hc]
  · obtain ⟨a1, r, a2, a3⟩ := h2 (by omega)
    rw [a1, a2]
    simp [a3]

/-- Witness of claim C8 at read `TTACGTTT`, pattern `ACGT`, budget `1`. -/
theorem levenshtein_pruning_same_decision_witness :
    (1 : Nat) ≤ 2147483647 ∧
    Option.map LevResult.ret
        (levenshtein ['T', 'T', 'A', 'C', 'G', 'T', 'T', 'T'] ['A', 'C', 'G', 'T'] 1 true) =
      Option.map LevResult.ret
        (levenshtein ['T', 'T', 'A', 'C', 'G', 'T', 'T', 'T'] ['A', 'C', 'G', 'T'] 1 false) :=
  ⟨by decide, (levenshtein_pruning_same_decision ['T', 'T', 'A', 'C', 'G', 'T', 'T', 'T']
    ['A', 'C', 'G', 'T'] 1 (by decide)).1⟩

end SCGT
